import Mathlib

/-!
# Cluster topology tree (`pkg/topology/node.go`)

A shallow embedding of the topology node of weed-fs.  The Go program keeps a
mutable graph of heap-allocated nodes that point at each other (`parent`
back-references and `children` maps).  Here the heap is an explicit value: a
list of node records, a pointer is an index into it and the nil pointer is
`none`.  Every method of `NodeImpl` becomes a function that takes the heap and
the receiver's address and returns the new heap.

* Go `int` counters are mathematical integers (`Int`); volume-slot counts stay
  far inside the machine range and no claim here is about wrap-around.
* `storage.VolumeId` is only copied and compared, so it is a `Nat`.
* A Go map is an association list with pairwise distinct keys; the order of the
  list is the iteration order of one `range` loop.
* Methods that climb the parent chain or descend through the children recurse
  without a bound in Go.  They carry a fuel argument here and return `none` when
  it runs out; the entry points supply `heap size + 1`, which a walk over
  distinct nodes never uses up.
-/

namespace Topology

abbrev NodeId := String
abbrev VolumeId := Nat
abbrev Addr := Nat

/-- Modelled from the spec: the Volume Record (`storage.VolumeInfo`, declared in
package `storage`, not part of this file): an identifier and the current
occupied size of the volume, a count of size units. -/
structure VolumeInfo where
  Id : VolumeId
  Size : Nat
deriving DecidableEq

/-- The fields of `NodeImpl`, in the order of the struct.  The last two fields
are modelled from the spec: `DataNode` (declared elsewhere in the package)
embeds `NodeImpl` and adds the heartbeat timestamp and the volume map; a cell
is a `*DataNode` exactly when its `nodeType` is `"DataNode"`. -/
structure NodeImpl where
  id : NodeId
  activeVolumeCount : Int
  maxVolumeCount : Int
  parent : Option Addr
  children : List (NodeId × Addr)
  maxVolumeId : VolumeId
  nodeType : String
  lastSeen : Int
  volumes : List (VolumeId × VolumeInfo)
deriving DecidableEq

abbrev Heap := List NodeImpl

/-! ## Go map operations on association lists -/

/-- The value stored under key `k`, i.e. `m[k]` (`none` is Go's nil). -/
def mapGet (m : List (NodeId × Addr)) (k : NodeId) : Option Addr :=
  match m with
  | [] => none
  | e :: rest => if e.1 = k then some e.2 else mapGet rest k

/-- The map after `delete(m, k)`. -/
def mapDelete (m : List (NodeId × Addr)) (k : NodeId) : List (NodeId × Addr) :=
  m.filter (fun e => decide (e.1 ≠ k))

/-- The map after `m[k] = v`: any old binding of `k` is dropped. -/
def mapSet (m : List (NodeId × Addr)) (k : NodeId) (v : Addr) : List (NodeId × Addr) :=
  mapDelete m k ++ [(k, v)]

/-! ## Accessors -/

def IsDataNode (nd : NodeImpl) : Bool := decide (nd.nodeType = "DataNode")

def IsRack (nd : NodeImpl) : Bool := decide (nd.nodeType = "Rack")

def IsDataCenter (nd : NodeImpl) : Bool := decide (nd.nodeType = "DataCenter")

def FreeSpace (nd : NodeImpl) : Int := nd.maxVolumeCount - nd.activeVolumeCount

/-- The method `setParent` on the node at address `a`. -/
def setParent (h : Heap) (a : Addr) (p : Option Addr) : Option Heap :=
  match h[a]? with
  | none => none
  | some nd => some (h.set a { nd with parent := p })

/-- The method `String`: the parent's rendering, a colon, the own identifier. -/
def NodeImpl.String : Nat → Heap → Addr → Option String
  | 0, _, _ => none
  | fuel + 1, h, n =>
    match h[n]? with
    | none => none
    | some nd =>
      match nd.parent with
      | some p =>
        match NodeImpl.String fuel h p with
        | none => none
        | some s => some (s ++ ":" ++ nd.id)
      | none => some nd.id

/-! ## Upward adjustments -/

def UpAdjustMaxVolumeCountDelta : Nat → Heap → Addr → Int → Option Heap
  | 0, _, _, _ => none
  | fuel + 1, h, n, maxVolumeCountDelta =>
    match h[n]? with
    | none => none
    | some nd =>
      let h1 := h.set n { nd with maxVolumeCount := nd.maxVolumeCount + maxVolumeCountDelta }
      match nd.parent with
      | some p => UpAdjustMaxVolumeCountDelta fuel h1 p maxVolumeCountDelta
      | none => some h1

def UpAdjustActiveVolumeCountDelta : Nat → Heap → Addr → Int → Option Heap
  | 0, _, _, _ => none
  | fuel + 1, h, n, activeVolumeCountDelta =>
    match h[n]? with
    | none => none
    | some nd =>
      let h1 := h.set n
        { nd with activeVolumeCount := nd.activeVolumeCount + activeVolumeCountDelta }
      match nd.parent with
      | some p => UpAdjustActiveVolumeCountDelta fuel h1 p activeVolumeCountDelta
      | none => some h1

def UpAdjustMaxVolumeId : Nat → Heap → Addr → VolumeId → Option Heap
  | 0, _, _, _ => none
  | fuel + 1, h, n, vid =>
    match h[n]? with
    | none => none
    | some nd =>
      if nd.maxVolumeId < vid then
        let h1 := h.set n { nd with maxVolumeId := vid }
        match nd.parent with
        | some p => UpAdjustMaxVolumeId fuel h1 p vid
        | none => some h1
      else some h

/-! ## Attach and detach -/

/-- The two `String` calls that `fmt.Println(n, ..., node, ...)` makes to format
its arguments; the text goes to standard output and is not part of the state,
but the calls must return. -/
def printlnNodes (h : Heap) (n node : Addr) : Option Unit :=
  match NodeImpl.String (h.length + 1) h n, NodeImpl.String (h.length + 1) h node with
  | some _, some _ => some ()
  | _, _ => none

/-- The state change of the body of `LinkChildNode`, lines 129-133: insert the
child, push the three adjustments from `n`, set the back-reference. -/
def linkBody (h : Heap) (n node : Addr) : Option Heap :=
  match h[n]?, h[node]? with
  | some nd, some cd =>
    let h1 := h.set n { nd with children := mapSet nd.children cd.id node }
    match h1[node]? with
    | none => none
    | some c1 =>
      match UpAdjustMaxVolumeCountDelta (h.length + 1) h1 n c1.maxVolumeCount with
      | none => none
      | some h2 =>
        match h2[node]? with
        | none => none
        | some c2 =>
          match UpAdjustMaxVolumeId (h.length + 1) h2 n c2.maxVolumeId with
          | none => none
          | some h3 =>
            match h3[node]? with
            | none => none
            | some c3 =>
              match UpAdjustActiveVolumeCountDelta (h.length + 1) h3 n c3.activeVolumeCount with
              | none => none
              | some h4 => setParent h4 node (some n)
  | _, _ => none

def LinkChildNode (h : Heap) (n node : Addr) : Option Heap :=
  match h[n]?, h[node]? with
  | some nd, some cd =>
    if mapGet nd.children cd.id = none then
      match linkBody h n node with
      | none => none
      | some h5 =>
        match printlnNodes h5 n node with
        | none => none
        | some _ => some h5
    else some h
  | _, _ => none

/-- The state change of the guarded body of `UnlinkChildNode`, lines 142-144,
for the child found at address `node`. -/
def unlinkBody (h : Heap) (n node : Addr) : Option Heap :=
  match h[n]?, h[node]? with
  | some nd, some cd =>
    let h1 := h.set n { nd with children := mapDelete nd.children cd.id }
    match h1[node]? with
    | none => none
    | some c1 =>
      match UpAdjustActiveVolumeCountDelta (h.length + 1) h1 n (-c1.activeVolumeCount) with
      | none => none
      | some h2 =>
        match h2[node]? with
        | none => none
        | some c2 => UpAdjustMaxVolumeCountDelta (h.length + 1) h2 n (-c2.maxVolumeCount)
  | _, _ => none

/-- The method `UnlinkChildNode`.  Line 140 calls `setParent` on the looked-up
value before line 141 tests it against nil, so an absent identifier is a method
call on a nil interface: the program stops with a run-time panic (`none`). -/
def UnlinkChildNode (h : Heap) (n : Addr) (nodeId : NodeId) : Option Heap :=
  match h[n]? with
  | none => none
  | some nd =>
    match mapGet nd.children nodeId with
    | none => none
    | some node =>
      match setParent h node none with
      | none => none
      | some h0 =>
        match unlinkBody h0 n node with
        | none => none
        | some h3 =>
          match printlnNodes h3 n node with
          | none => none
          | some _ => some h3

/-! ## Placement selector -/

/-- The `for _, node := range n.children` loop of `ReserveOneVolume`, with the
nested call passed in as `rec`.  The loop state is the remaining budget `r` and
the two result variables `ret` and `assignedNode`. -/
def reserveLoop (h : Heap) (rec : Addr → Int → Option (Bool × Option Addr)) :
    List (NodeId × Addr) → Int → Bool → Option Addr → Option (Bool × Option Addr)
  | [], _, ret, assignedNode => some (ret, assignedNode)
  | e :: rest, r, ret, assignedNode =>
    match h[e.2]? with
    | none => none
    | some node =>
      let freeSpace := FreeSpace node
      if freeSpace ≤ 0 then reserveLoop h rec rest r ret assignedNode
      else if r ≥ freeSpace then reserveLoop h rec rest (r - freeSpace) ret assignedNode
      else if IsDataNode node && decide (FreeSpace node > 0) then some (true, some e.2)
      else
        match rec e.2 r with
        | none => none
        | some (ret1, assignedNode1) =>
          if ret1 then some (ret1, assignedNode1)
          else reserveLoop h rec rest r ret1 assignedNode1

def ReserveOneVolume : Nat → Heap → Addr → Int → VolumeId → Option (Bool × Option Addr)
  | 0, _, _, _, _ => none
  | fuel + 1, h, n, r, vid =>
    match h[n]? with
    | none => none
    | some nd =>
      reserveLoop h (fun c r1 => ReserveOneVolume fuel h c r1 vid) nd.children r false none

/-! ## Writable-volume collector -/

/-- The conversion `uint64(v.Size)`. -/
def sizeAsUint64 (v : VolumeInfo) : Nat := v.Size % 2 ^ 64

/-- The loop `for _, v := range dn.volumes`, appending to `ret`. -/
def collectVolumes (volumeSizeLimit : Nat) :
    List (VolumeId × VolumeInfo) → List VolumeId → List VolumeId
  | [], ret => ret
  | e :: rest, ret =>
    if sizeAsUint64 e.2 < volumeSizeLimit then
      collectVolumes volumeSizeLimit rest (ret ++ [e.2.Id])
    else collectVolumes volumeSizeLimit rest ret

/-- The loop of the rack branch.  The type assertion `c.(*DataNode)` stops the
program when the child is not a storage node (`none`). -/
def collectRack (h : Heap) (freshThreshHold : Int) (volumeSizeLimit : Nat) :
    List (NodeId × Addr) → List VolumeId → Option (List VolumeId)
  | [], ret => some ret
  | e :: rest, ret =>
    match h[e.2]? with
    | none => none
    | some dn =>
      if IsDataNode dn = true then
        if dn.lastSeen > freshThreshHold then
          collectRack h freshThreshHold volumeSizeLimit rest ret
        else
          collectRack h freshThreshHold volumeSizeLimit rest
            (collectVolumes volumeSizeLimit dn.volumes ret)
      else none

/-- The loop of the other branch, with the nested call passed in as `rec`. -/
def collectChildren (rec : Addr → Option (List VolumeId)) :
    List (NodeId × Addr) → List VolumeId → Option (List VolumeId)
  | [], ret => some ret
  | e :: rest, ret =>
    match rec e.2 with
    | none => none
    | some l => collectChildren rec rest (ret ++ l)

def CollectWritableVolumes : Nat → Heap → Addr → Int → Nat → Option (List VolumeId)
  | 0, _, _, _, _ => none
  | fuel + 1, h, n, freshThreshHold, volumeSizeLimit =>
    match h[n]? with
    | none => none
    | some nd =>
      if IsRack nd = true then collectRack h freshThreshHold volumeSizeLimit nd.children []
      else
        collectChildren
          (fun c => CollectWritableVolumes fuel h c freshThreshHold volumeSizeLimit)
          nd.children []

/-! ## Vocabulary of the specification -/

/-- The parent chain of `a`: `a`, its parent, its grandparent, ... up to the
node without a parent.  `none` when the chain leaves the heap or does not end
within `fuel` steps. -/
def pathToRoot : Nat → Heap → Addr → Option (List Addr)
  | 0, _, _ => none
  | fuel + 1, h, a =>
    match h[a]? with
    | none => none
    | some nd =>
      match nd.parent with
      | none => some [a]
      | some p =>
        match pathToRoot fuel h p with
        | none => none
        | some l => some (a :: l)

/-- The node `a` followed by its ancestors, nearest first (empty when the
parent chain of `a` is not a finite chain inside the heap). -/
def selfAndAncestors (h : Heap) (a : Addr) : List Addr :=
  (pathToRoot (h.length + 1) h a).getD []

/-- The proper ancestors of `a`, nearest first. -/
def ancestors (h : Heap) (a : Addr) : List Addr := (selfAndAncestors h a).tail

/-- The heap holds a forest: every parent back-reference points at a node that
lists the child under the child's identifier, every children entry points at a
node whose back-reference and identifier agree with it, the keys of a children
map are distinct, every parent chain ends, and storage nodes have no
children. -/
def WellFormed (h : Heap) : Prop :=
  (∀ a < h.length, ∀ nd ∈ h[a]?, ∀ p ∈ nd.parent, ∃ pn ∈ h[p]?, (nd.id, a) ∈ pn.children) ∧
  (∀ p < h.length, ∀ pn ∈ h[p]?, ∀ e ∈ pn.children,
    ∃ cn ∈ h[e.2]?, cn.parent = some p ∧ cn.id = e.1) ∧
  (∀ p < h.length, ∀ pn ∈ h[p]?, (pn.children.map Prod.fst).Nodup) ∧
  (∀ a < h.length, (pathToRoot h.length h a).isSome = true) ∧
  (∀ a < h.length, ∀ nd ∈ h[a]?, IsDataNode nd = true → nd.children = [])

instance (h : Heap) : Decidable (WellFormed h) := by
  unfold WellFormed
  infer_instance

/-- The sum of a counter over the nodes a children map points at. -/
def childSum (f : NodeImpl → Int) (h : Heap) (ch : List (NodeId × Addr)) : Int :=
  (ch.map (fun e => match h[e.2]? with
    | some cn => f cn
    | none => 0)).sum

/-- The aggregate invariant: at every node that is not a storage node, both
counters equal the sums over the children. -/
def AggInv (h : Heap) : Prop :=
  ∀ a < h.length, ∀ nd ∈ h[a]?, IsDataNode nd = false →
    nd.maxVolumeCount = childSum (fun c => c.maxVolumeCount) h nd.children ∧
    nd.activeVolumeCount = childSum (fun c => c.activeVolumeCount) h nd.children

instance (h : Heap) : Decidable (AggInv h) := by
  unfold AggInv
  infer_instance

/-- One membership change: `n.LinkChildNode(node)` or `n.UnlinkChildNode(nodeId)`. -/
inductive Op where
  | link (n node : Addr)
  | unlink (n : Addr) (nodeId : NodeId)

def Op.run (h : Heap) : Op → Option Heap
  | Op.link n node => LinkChildNode h n node
  | Op.unlink n nodeId => UnlinkChildNode h n nodeId

/-- The calls of a list made one after the other. -/
def runOps : Heap → List Op → Option Heap
  | h, [] => some h
  | h, op :: rest =>
    match op.run h with
    | none => none
    | some h1 => runOps h1 rest

/-- The calls the aggregate invariant is stated for: an attach has a target
that is not a storage node and a child that has no parent and is neither the
target nor one of its ancestors; a detach names an identifier present among the
children of its target. -/
def Op.Admissible (h : Heap) : Op → Prop
  | Op.link n node =>
    ∃ nd ∈ h[n]?, ∃ cd ∈ h[node]?,
      IsDataNode nd = false ∧ cd.parent = none ∧ node ∉ selfAndAncestors h n
  | Op.unlink n nodeId => ∃ nd ∈ h[n]?, (mapGet nd.children nodeId).isSome = true

instance (h : Heap) (op : Op) : Decidable (op.Admissible h) :=
  match op with
  | Op.link n node =>
    inferInstanceAs (Decidable (∃ nd ∈ h[n]?, ∃ cd ∈ h[node]?,
      IsDataNode nd = false ∧ cd.parent = none ∧ node ∉ selfAndAncestors h n))
  | Op.unlink n nodeId =>
    inferInstanceAs (Decidable (∃ nd ∈ h[n]?, (mapGet nd.children nodeId).isSome = true))

/-- Every call of the list is admissible in the state it is made in. -/
def AdmissibleSeq : Heap → List Op → Prop
  | _, [] => True
  | h, op :: rest => op.Admissible h ∧ ∀ h1 ∈ op.run h, AdmissibleSeq h1 rest

instance decAdmissibleSeq : (ops : List Op) → (h : Heap) → Decidable (AdmissibleSeq h ops)
  | [], _ => isTrue trivial
  | op :: rest, h =>
    have : ∀ h1, Decidable (AdmissibleSeq h1 rest) := fun h1 => decAdmissibleSeq rest h1
    inferInstanceAs (Decidable (op.Admissible h ∧ ∀ h1 ∈ op.run h, AdmissibleSeq h1 rest))

def mkNode (id : NodeId) (active max : Int) (maxId : VolumeId) (nodeType : String) :
    NodeImpl :=
  { id := id, activeVolumeCount := active, maxVolumeCount := max, parent := none,
    children := [], maxVolumeId := maxId, nodeType := nodeType, lastSeen := 0, volumes := [] }

/-- Four unattached nodes: a root, a rack and two storage nodes. -/
def loose : Heap :=
  [mkNode "topo" 0 0 0 "Topology", mkNode "r1" 0 0 0 "Rack",
   mkNode "d1" 1 4 7 "DataNode", mkNode "d2" 0 2 3 "DataNode"]

/-- Every node has a `maxVolumeId` at least as large as each of its children. -/
def MaxIdAboveChildren (h : Heap) : Prop :=
  ∀ p < h.length, ∀ pn ∈ h[p]?, ∀ e ∈ pn.children, ∀ cn ∈ h[e.2]?,
    cn.maxVolumeId ≤ pn.maxVolumeId

instance (h : Heap) : Decidable (MaxIdAboveChildren h) := by
  unfold MaxIdAboveChildren
  infer_instance

/-- Every node has a `maxVolumeId` at least as large as each of its
descendants, i.e. no node exceeds any of its ancestors. -/
def MaxIdAboveDescendants (h : Heap) : Prop :=
  ∀ a < h.length, ∀ ad ∈ h[a]?, ∀ m ∈ ancestors h a, ∀ md ∈ h[m]?,
    ad.maxVolumeId ≤ md.maxVolumeId

instance (h : Heap) : Decidable (MaxIdAboveDescendants h) := by
  unfold MaxIdAboveDescendants
  infer_instance

/-- No node of `h` has a smaller `maxVolumeId` in `h'`. -/
def MaxIdNotLowered (h h' : Heap) : Prop :=
  ∀ a < h.length, ∀ ad ∈ h[a]?, ∃ ad' ∈ h'[a]?, ad.maxVolumeId ≤ ad'.maxVolumeId

instance (h h' : Heap) : Decidable (MaxIdNotLowered h h') := by
  unfold MaxIdNotLowered
  infer_instance

/-- A single rack without parent and without children. -/
def solo : Heap := [mkNode "r" 1 1 5 "Rack"]

/-- A root with one rack holding two storage nodes, and a third storage node
that is not attached. -/
def sample : Heap :=
  [{ mkNode "topo" 1 6 7 "Topology" with children := [("r1", 1)] },
   { mkNode "r1" 1 6 7 "Rack" with parent := some 0, children := [("d1", 2), ("d2", 3)] },
   { mkNode "d1" 1 4 7 "DataNode" with parent := some 1 },
   { mkNode "d2" 0 2 3 "DataNode" with parent := some 1 },
   mkNode "d3" 2 5 9 "DataNode"]

/-- Every storage node has a free space that is not negative. -/
def LeavesNonneg (h : Heap) : Prop :=
  ∀ a < h.length, ∀ ad ∈ h[a]?, IsDataNode ad = true → 0 ≤ FreeSpace ad

instance (h : Heap) : Decidable (LeavesNonneg h) := by
  unfold LeavesNonneg
  infer_instance

/-- The storage nodes found below a list of children, in iteration order, each
with its free space; `rec` lists those below a child that is not a storage
node. -/
def slotsOf (h : Heap) (rec : Addr → List (Addr × Int)) :
    List (NodeId × Addr) → List (Addr × Int)
  | [] => []
  | e :: rest =>
    (match h[e.2]? with
      | none => []
      | some cn => if IsDataNode cn = true then [(e.2, FreeSpace cn)] else rec e.2) ++
      slotsOf h rec rest

/-- The storage nodes of the subtree below `n`, in depth-first iteration order,
each with its free space. -/
def slots : Nat → Heap → Addr → List (Addr × Int)
  | 0, _, _ => []
  | fuel + 1, h, n =>
    match h[n]? with
    | none => []
    | some nd => slotsOf h (slots fuel h) nd.children

/-- The storage node whose range of slots contains the index `r`, when the
ranges of the listed nodes are laid out one after the other from 0 (empty
ranges are passed over; a negative index falls into the first range). -/
def pick : List (Addr × Int) → Int → Option Addr
  | [], _ => none
  | e :: rest, r =>
    if e.2 ≤ 0 then pick rest r
    else if r ≥ e.2 then pick rest (r - e.2)
    else some e.1

/-- The pair `ReserveOneVolume` returns for a picked node. -/
def pickResult (o : Option Addr) : Bool × Option Addr :=
  match o with
  | some a => (true, some a)
  | none => (false, none)

/-- The total of the free spaces of a list of slots. -/
def total (s : List (Addr × Int)) : Int := (s.map Prod.snd).sum

/-- A root over the racks R1 (free space 3) and R2 (free space 2), iterated in
this order; each rack holds one storage node. -/
def twoRacks : Heap :=
  [{ mkNode "topo" 2 7 0 "Topology" with children := [("R1", 1), ("R2", 2)] },
   { mkNode "R1" 1 4 0 "Rack" with parent := some 0, children := [("a", 3)] },
   { mkNode "R2" 1 3 0 "Rack" with parent := some 0, children := [("b", 4)] },
   { mkNode "a" 1 4 0 "DataNode" with parent := some 1 },
   { mkNode "b" 1 3 0 "DataNode" with parent := some 2 }]

/-- The same tree with the children of the root iterated R2 first. -/
def twoRacksSwapped : Heap :=
  [{ mkNode "topo" 2 7 0 "Topology" with children := [("R2", 2), ("R1", 1)] },
   { mkNode "R1" 1 4 0 "Rack" with parent := some 0, children := [("a", 3)] },
   { mkNode "R2" 1 3 0 "Rack" with parent := some 0, children := [("b", 4)] },
   { mkNode "a" 1 4 0 "DataNode" with parent := some 1 },
   { mkNode "b" 1 3 0 "DataNode" with parent := some 2 }]

/-- A storage node on its own, with three free slots. -/
def loneStorage : Heap := [mkNode "d" 0 3 0 "DataNode"]

/-- A root over a data center that claims five free slots but has no children
(so the aggregate invariant fails there) followed by a rack with one storage
node of free space 2. -/
def stalledTree : Heap :=
  [{ mkNode "topo" 0 7 0 "Topology" with children := [("dc", 1), ("R", 2)] },
   { mkNode "dc" 0 5 0 "DataCenter" with parent := some 0 },
   { mkNode "R" 0 2 0 "Rack" with parent := some 0, children := [("d", 3)] },
   { mkNode "d" 0 2 0 "DataNode" with parent := some 2 }]

/-- The identifiers of the Volume Records of a storage node whose size is
strictly below the ceiling, one per record, in the iteration order of the
volume map. -/
def eligibleIds (s : Nat) (dn : NodeImpl) : List VolumeId :=
  (dn.volumes.filter (fun e => decide (e.2.Size < s))).map (fun e => e.2.Id)

/-- What the children of a rack contribute: nothing for a child with
`lastSeen > t`, the eligible identifiers for every other child. -/
def rackIds (h : Heap) (t : Int) (s : Nat) (ch : List (NodeId × Addr)) : List VolumeId :=
  ch.flatMap (fun e =>
    match h[e.2]? with
    | some dn => if dn.lastSeen > t then [] else eligibleIds s dn
    | none => [])

/-- Every volume size fits the 64-bit word it is converted to. -/
def SizesFit (h : Heap) : Prop :=
  ∀ nd ∈ h, ∀ e ∈ nd.volumes, e.2.Size < 2 ^ 64

instance (h : Heap) : Decidable (SizesFit h) := by
  unfold SizesFit
  infer_instance

/-- Every child of a rack is a storage node. -/
def RacksHoldStorage (h : Heap) : Prop :=
  ∀ nd ∈ h, IsRack nd = true → ∀ e ∈ nd.children, ∃ dn ∈ h[e.2]?, IsDataNode dn = true

instance (h : Heap) : Decidable (RacksHoldStorage h) := by
  unfold RacksHoldStorage
  infer_instance

/-- The racks met when descending from `n`, in iteration order. -/
def racksOf (rec : Addr → List Addr) : List (NodeId × Addr) → List Addr
  | [] => []
  | e :: rest => rec e.2 ++ racksOf rec rest

def racksBelow : Nat → Heap → Addr → List Addr
  | 0, _, _ => []
  | fuel + 1, h, n =>
    match h[n]? with
    | none => []
    | some nd => if IsRack nd = true then [n] else racksOf (racksBelow fuel h) nd.children

/-- The rack-level result of the rack at address `a`. -/
def rackResult (h : Heap) (t : Int) (s : Nat) (a : Addr) : List VolumeId :=
  match h[a]? with
  | some nd => rackIds h t s nd.children
  | none => []

def mkStorage (id : NodeId) (parent : Addr) (lastSeen : Int)
    (volumes : List (VolumeId × VolumeInfo)) : NodeImpl :=
  { id := id, activeVolumeCount := 0, maxVolumeCount := 8, parent := some parent,
    children := [], maxVolumeId := 0, nodeType := "DataNode", lastSeen := lastSeen,
    volumes := volumes }

/-- A rack with two storage nodes.  The first was last seen at time 100 and
holds the volumes 1 (size 10) and 2 (size 50); the second was last seen at time
10 and holds the volume 9 (size 5). -/
def rackOfTwo : Heap :=
  [{ mkNode "R" 0 16 0 "Rack" with children := [("fresh", 1), ("stale", 2)] },
   mkStorage "fresh" 0 100 [(1, { Id := 1, Size := 10 }), (2, { Id := 2, Size := 50 })],
   mkStorage "stale" 0 10 [(9, { Id := 9, Size := 5 })]]

/-- A root over a rack that holds a storage node and, beside it, a data
center. -/
def misplaced : Heap :=
  [{ mkNode "topo" 0 8 0 "Topology" with children := [("R", 1)] },
   { mkNode "R" 0 8 0 "Rack" with parent := some 0, children := [("d", 2), ("dc", 3)] },
   mkStorage "d" 1 0 [(1, { Id := 1, Size := 10 })],
   { mkNode "dc" 0 0 0 "DataCenter" with parent := some 1 }]

/-- A root over two racks with one storage node each. -/
def twoRackVolumes : Heap :=
  [{ mkNode "topo" 0 16 0 "Topology" with children := [("R1", 1), ("R2", 2)] },
   { mkNode "R1" 0 8 0 "Rack" with parent := some 0, children := [("a", 3)] },
   { mkNode "R2" 0 8 0 "Rack" with parent := some 0, children := [("b", 4)] },
   mkStorage "a" 1 0 [(1, { Id := 1, Size := 10 }), (2, { Id := 2, Size := 50 })],
   mkStorage "b" 2 0 [(7, { Id := 7, Size := 20 })]]

/-- The frame of a call on `n` that took `h` to `h'`: every node keeps its
place; a node that is neither `n` nor an ancestor of `n` keeps its three
counters and its children map; and every node other than `child` keeps its
parent back-reference. -/
def Frame (h : Heap) (n : Addr) (child : Option Addr) (h' : Heap) : Prop :=
  ∀ m < h.length, ∀ md ∈ h[m]?, ∃ md' ∈ h'[m]?,
    (m ∉ selfAndAncestors h n →
      md'.maxVolumeCount = md.maxVolumeCount ∧
      md'.activeVolumeCount = md.activeVolumeCount ∧
      md'.maxVolumeId = md.maxVolumeId ∧
      md'.children = md.children) ∧
    (some m ≠ child → md'.parent = md.parent)

instance (h : Heap) (n : Addr) (child : Option Addr) (h' : Heap) :
    Decidable (Frame h n child h') := by
  unfold Frame
  infer_instance

/-- The identifiers of the nodes at the addresses `l` (the empty text for an
address outside the heap). -/
def idsOf (h : Heap) (l : List Addr) : List NodeId :=
  l.map (fun a => match h[a]? with
    | some nd => nd.id
    | none => "")

/-- The rendering the specification gives for the identifiers `i0, i1, ..., ik`
of a chain listed from the root down: `i0 + ":" + i1 + ":" + ... + ":" + ik`. -/
def renderChain : List NodeId → String
  | [] => ""
  | i0 :: rest => rest.foldl (fun acc i => acc ++ ":" ++ i) i0

/-- The node `c` occurs in the children mapping of the node `p`. -/
def ListedIn (h : Heap) (c p : Addr) : Prop :=
  ∃ pn ∈ h[p]?, c ∈ pn.children.map Prod.snd

instance (h : Heap) (c p : Addr) : Decidable (ListedIn h c p) := by
  unfold ListedIn
  infer_instance

/-- The single-parent condition at the node `cd` stored at `c`: it occurs in
the children mapping of at most one node, that node is its parent
back-reference, and if it is absent from every children mapping it has no
parent. -/
def SingleParentAt (h : Heap) (c : Addr) (cd : NodeImpl) : Prop :=
  (∀ p < h.length, ∀ q < h.length, ListedIn h c p → ListedIn h c q → p = q) ∧
  (∀ p < h.length, ListedIn h c p → cd.parent = some p) ∧
  ((∀ p < h.length, ¬ ListedIn h c p) → cd.parent = none)

instance (h : Heap) (c : Addr) (cd : NodeImpl) : Decidable (SingleParentAt h c cd) := by
  unfold SingleParentAt
  infer_instance

/-- The single-parent invariant: the single-parent condition holds at every
node. -/
def SingleParent (h : Heap) : Prop :=
  ∀ c < h.length, ∀ cd ∈ h[c]?, SingleParentAt h c cd

instance (h : Heap) : Decidable (SingleParent h) := by
  unfold SingleParent
  infer_instance

/-- Every node is unattached: no parent and no children. -/
def Unattached (h : Heap) : Prop :=
  ∀ a < h.length, ∀ nd ∈ h[a]?, nd.parent = none ∧ nd.children = []

instance (h : Heap) : Decidable (Unattached h) := by
  unfold Unattached
  infer_instance

/-- The calls the single-parent invariant holds for: an attach, on a node of
the heap, of a node that at the time of the call has no parent and is neither
the target nor one of its ancestors; and a detach naming an identifier present
among the children of its target. -/
def Op.Orderly (h : Heap) : Op → Prop
  | Op.link n node =>
    ∃ _nd ∈ h[n]?, ∃ cd ∈ h[node]?, cd.parent = none ∧ node ∉ selfAndAncestors h n
  | Op.unlink n nodeId => ∃ nd ∈ h[n]?, (mapGet nd.children nodeId).isSome = true

instance (h : Heap) (op : Op) : Decidable (op.Orderly h) :=
  match op with
  | Op.link n node =>
    inferInstanceAs (Decidable (∃ _nd ∈ h[n]?, ∃ cd ∈ h[node]?,
      cd.parent = none ∧ node ∉ selfAndAncestors h n))
  | Op.unlink n nodeId =>
    inferInstanceAs (Decidable (∃ nd ∈ h[n]?, (mapGet nd.children nodeId).isSome = true))

/-- Every call of the list is orderly in the heap it is made in. -/
def OrderlySeq : Heap → List Op → Prop
  | _, [] => True
  | h, op :: rest => op.Orderly h ∧ ∀ h1 ∈ op.run h, OrderlySeq h1 rest

instance decOrderlySeq : (ops : List Op) → (h : Heap) → Decidable (OrderlySeq h ops)
  | [], _ => isTrue trivial
  | op :: rest, h =>
    have : ∀ h1, Decidable (OrderlySeq h1 rest) := fun h1 => decOrderlySeq rest h1
    inferInstanceAs (Decidable (op.Orderly h ∧ ∀ h1 ∈ op.run h, OrderlySeq h1 rest))

/-! ## Proof devices -/

/-- The common shape of the two delta adjustments: apply `g` to the node, then
to its parent, and so on up to the root. -/
def climb (g : NodeImpl → NodeImpl) : Nat → Heap → Addr → Option Heap
  | 0, _, _ => none
  | fuel + 1, h, n =>
    match h[n]? with
    | none => none
    | some nd =>
      match nd.parent with
      | some p => climb g fuel (h.set n (g nd)) p
      | none => some (h.set n (g nd))

def addMax (d : Int) (nd : NodeImpl) : NodeImpl :=
  { nd with maxVolumeCount := nd.maxVolumeCount + d }

def addActive (d : Int) (nd : NodeImpl) : NodeImpl :=
  { nd with activeVolumeCount := nd.activeVolumeCount + d }

def setMaxId (v : VolumeId) (nd : NodeImpl) : NodeImpl :=
  { nd with maxVolumeId := v }

/-- Along the chain `l`, no node has a larger `maxVolumeId` than its parent. -/
def ChainMono (h : Heap) (l : List Addr) : Prop :=
  ∀ x ∈ l, ∀ p ∈ l, ∀ xd pd, h[x]? = some xd → xd.parent = some p → h[p]? = some pd →
    xd.maxVolumeId ≤ pd.maxVolumeId

/-- The part of a node record that no upward adjustment touches. -/
def shape (nd : NodeImpl) : NodeId × List (NodeId × Addr) × String :=
  (nd.id, nd.children, nd.nodeType)

/-- No node has a larger `maxVolumeId` than its parent. -/
def LocalMono (h : Heap) : Prop :=
  ∀ (a p : Addr) (ad pd : NodeImpl), h[a]? = some ad → ad.parent = some p → h[p]? = some pd →
    ad.maxVolumeId ≤ pd.maxVolumeId

/-- A node record after an attach or detach below it: both counters moved by
the given deltas, `maxVolumeId` and the children map replaced. -/
def bumped (dMax dAct : Int) (v : VolumeId) (ch : List (NodeId × Addr)) (md : NodeImpl) :
    NodeImpl :=
  { md with
    maxVolumeCount := md.maxVolumeCount + dMax
    activeVolumeCount := md.activeVolumeCount + dAct
    maxVolumeId := v
    children := ch }

def withParent (p : Option Addr) (nd : NodeImpl) : NodeImpl :=
  { nd with parent := p }

def withChildren (ch : List (NodeId × Addr)) (nd : NodeImpl) : NodeImpl :=
  { nd with children := ch }

/-- The value of a counter at an address (zero outside the heap). -/
def valOf (f : NodeImpl → Int) (h : Heap) (a : Addr) : Int :=
  match h[a]? with
  | some cn => f cn
  | none => 0

/-- The heap `h'` is `h` after the node `c` was attached to or detached from
`n`, whose parent chain is `l`: the back-reference of `c` is `pc`, every node of
`l` had its counters moved by `dMax` and `dAct`, the children of `n` are `chN`,
and nothing else changed (`maxVolumeId` may have grown along `l`). -/
def Moved (h : Heap) (n c : Addr) (cd : NodeImpl) (l : List Addr) (dMax dAct : Int)
    (chN : List (NodeId × Addr)) (pc : Option Addr) (h' : Heap) : Prop :=
  h'.length = h.length ∧
  h'[c]? = some (withParent pc cd) ∧
  (∀ m : Addr, m ∉ l → m ≠ c → h'[m]? = h[m]?) ∧
  (∀ m ∈ l, ∀ md : NodeImpl, h[m]? = some md →
    ∃ v, h'[m]? = some (bumped dMax dAct v (if m = n then chN else md.children) md) ∧
      md.maxVolumeId ≤ v)

/-- The pointer structure of `h'` is that of `h` except for the back-reference
of `c` and the children of `n`. -/
def Reshaped (h : Heap) (n c : Addr) (chN : List (NodeId × Addr)) (pc : Option Addr)
    (h' : Heap) : Prop :=
  h'.length = h.length ∧
  ∀ (a : Addr) (ad : NodeImpl), h[a]? = some ad →
    ∃ ad', h'[a]? = some ad' ∧ ad'.id = ad.id ∧ ad'.nodeType = ad.nodeType ∧
      ad'.parent = (if a = c then pc else ad.parent) ∧
      ad'.children = (if a = n then chN else ad.children)

/-- The node record with its kind forgotten (no operation on the pointer
structure reads the kind). -/
def untype (nd : NodeImpl) : NodeImpl :=
  { nd with nodeType := "" }

/-! ## The heap -/

theorem lt_of_lookup {h : Heap} {a : Nat} {nd : NodeImpl} (e : h[a]? = some nd) :
    a < h.length := by
  obtain ⟨ha, _⟩ := List.getElem?_eq_some.mp e
  exact ha

theorem lookup_set_self {h : Heap} {a : Addr} {nd : NodeImpl} (e : h[a]? = some nd)
    (v : NodeImpl) : (h.set a v)[a]? = some v := by
  simp [List.getElem?_set, lt_of_lookup e]

theorem lookup_set_ne {h : Heap} {a b : Addr} (ne : a ≠ b) (v : NodeImpl) :
    (h.set a v)[b]? = h[b]? := by
  simp [List.getElem?_set, ne]

/-! ## Parent chains -/

theorem pathToRoot_zero (h : Heap) (a : Addr) : pathToRoot 0 h a = none := rfl

theorem pathToRoot_root {f : Nat} {h : Heap} {a : Addr} {nd : NodeImpl}
    (e : h[a]? = some nd) (hp : nd.parent = none) : pathToRoot (f + 1) h a = some [a] := by
  simp [pathToRoot, e, hp]

theorem pathToRoot_step {f : Nat} {h : Heap} {a p : Addr} {nd : NodeImpl}
    (e : h[a]? = some nd) (hp : nd.parent = some p) :
    pathToRoot (f + 1) h a = (pathToRoot f h p).map (fun l => a :: l) := by
  simp only [pathToRoot, e, hp]
  cases pathToRoot f h p <;> rfl

theorem pathToRoot_cases {f : Nat} {h : Heap} {a : Addr} {l : List Addr}
    (e : pathToRoot f h a = some l) :
    ∃ g nd, f = g + 1 ∧ h[a]? = some nd ∧
      ((nd.parent = none ∧ l = [a]) ∨
       ∃ p t, nd.parent = some p ∧ pathToRoot g h p = some t ∧ l = a :: t) := by
  cases f with
  | zero => simp [pathToRoot] at e
  | succ g =>
    refine ⟨g, ?_⟩
    cases hn : h[a]? with
    | none => simp [pathToRoot, hn] at e
    | some nd =>
      refine ⟨nd, rfl, rfl, ?_⟩
      cases hp : nd.parent with
      | none =>
        rw [pathToRoot_root hn hp] at e
        exact Or.inl ⟨rfl, (Option.some.inj e).symm⟩
      | some p =>
        rw [pathToRoot_step hn hp] at e
        cases ht : pathToRoot g h p with
        | none => simp [ht] at e
        | some t =>
          rw [ht] at e
          exact Or.inr ⟨p, t, rfl, ht, (Option.some.inj e).symm⟩

theorem pathToRoot_mono {f : Nat} : ∀ {h : Heap} {a : Addr} {l : List Addr} {f' : Nat},
    pathToRoot f h a = some l → f ≤ f' → pathToRoot f' h a = some l := by
  induction f with
  | zero => intro h a l f' e; simp [pathToRoot] at e
  | succ g ih =>
    intro h a l f' e hle
    obtain ⟨g', nd, hg, hn, hc⟩ := pathToRoot_cases e
    obtain ⟨k, rfl⟩ : ∃ k, f' = k + 1 := ⟨f' - 1, by omega⟩
    have hgg : g' = g := by omega
    subst hgg
    rcases hc with ⟨hp, rfl⟩ | ⟨p, t, hp, ht, rfl⟩
    · exact pathToRoot_root hn hp
    · rw [pathToRoot_step hn hp, ih ht (by omega)]
      rfl

theorem pathToRoot_det {f f' : Nat} {h : Heap} {a : Addr} {l l' : List Addr}
    (e : pathToRoot f h a = some l) (e' : pathToRoot f' h a = some l') : l = l' := by
  have h1 := pathToRoot_mono e (Nat.le_max_left f f')
  have h2 := pathToRoot_mono e' (Nat.le_max_right f f')
  rw [h1] at h2
  exact Option.some.inj h2

theorem pathToRoot_exact {f : Nat} : ∀ {h : Heap} {a : Addr} {l : List Addr},
    pathToRoot f h a = some l → pathToRoot l.length h a = some l := by
  induction f with
  | zero => intro h a l e; simp [pathToRoot] at e
  | succ g ih =>
    intro h a l e
    obtain ⟨g', nd, hg, hn, hc⟩ := pathToRoot_cases e
    have hgg : g' = g := by omega
    subst hgg
    rcases hc with ⟨hp, rfl⟩ | ⟨p, t, hp, ht, rfl⟩
    · exact pathToRoot_root hn hp
    · have := ih ht
      simp only [List.length_cons]
      rw [pathToRoot_step hn hp, this]
      rfl

theorem pathToRoot_lt {f : Nat} : ∀ {h : Heap} {a : Addr} {l : List Addr},
    pathToRoot f h a = some l → ∀ m : Nat, m ∈ l → m < h.length := by
  induction f with
  | zero => intro h a l e; simp [pathToRoot] at e
  | succ g ih =>
    intro h a l e m hm
    obtain ⟨g', nd, hg, hn, hc⟩ := pathToRoot_cases e
    have hgg : g' = g := by omega
    subst hgg
    rcases hc with ⟨_, rfl⟩ | ⟨p, t, _, ht, rfl⟩
    · simp at hm; subst hm; exact lt_of_lookup hn
    · rcases List.mem_cons.mp hm with rfl | hm'
      · exact lt_of_lookup hn
      · exact ih ht m hm'

/-- Every node on a parent chain has its own parent chain, a suffix of it. -/
theorem pathToRoot_suffix {f : Nat} : ∀ {h : Heap} {a : Addr} {l : List Addr},
    pathToRoot f h a = some l → ∀ m ∈ l,
      ∃ pre s, l = pre ++ s ∧ pathToRoot f h m = some s := by
  induction f with
  | zero => intro h a l e; simp [pathToRoot] at e
  | succ g ih =>
    intro h a l e m hm
    obtain ⟨g', nd, hg, hn, hc⟩ := pathToRoot_cases e
    have hgg : g' = g := by omega
    subst hgg
    rcases hc with ⟨_, rfl⟩ | ⟨p, t, _, ht, rfl⟩
    · simp at hm; subst hm; exact ⟨[], [m], rfl, e⟩
    · rcases List.mem_cons.mp hm with rfl | hm'
      · exact ⟨[], m :: t, rfl, e⟩
      · obtain ⟨pre, s, hs, hms⟩ := ih ht m hm'
        exact ⟨a :: pre, s, by simp [hs], pathToRoot_mono hms (Nat.le_succ _)⟩

theorem pathToRoot_nodup {f : Nat} : ∀ {h : Heap} {a : Addr} {l : List Addr},
    pathToRoot f h a = some l → l.Nodup := by
  induction f with
  | zero => intro h a l e; simp [pathToRoot] at e
  | succ g ih =>
    intro h a l e
    obtain ⟨g', nd, hg, hn, hc⟩ := pathToRoot_cases e
    have hgg : g' = g := by omega
    subst hgg
    rcases hc with ⟨_, rfl⟩ | ⟨p, t, _, ht, rfl⟩
    · simp
    · refine List.nodup_cons.mpr ⟨?_, ih ht⟩
      intro hat
      obtain ⟨pre, s, hs, hms⟩ := pathToRoot_suffix ht a hat
      have := pathToRoot_det hms e
      have hl : s.length ≤ t.length := by rw [hs]; simp
      rw [this] at hl
      simp at hl

/-- A parent chain only reads the parent pointers. -/
theorem pathToRoot_congr {h1 h : Heap}
    (hp : ∀ a : Addr, (h1[a]?).map (fun nd : NodeImpl => nd.parent) =
      (h[a]?).map (fun nd : NodeImpl => nd.parent)) :
    ∀ (f : Nat) (a : Addr), pathToRoot f h1 a = pathToRoot f h a := by
  intro f
  induction f with
  | zero => intro a; rfl
  | succ g ih =>
    intro a
    have ha := hp a
    cases e1 : h1[a]? with
    | none =>
      cases e : h[a]? with
      | none => simp [pathToRoot, e1, e]
      | some nd => simp [e1, e] at ha
    | some nd1 =>
      cases e : h[a]? with
      | none => simp [e1, e] at ha
      | some nd =>
        simp only [e1, e, Option.map_some', Option.some.injEq] at ha
        cases hpar : nd.parent with
        | none =>
          rw [pathToRoot_root e hpar, pathToRoot_root e1 (by rw [ha, hpar])]
        | some p =>
          rw [pathToRoot_step e hpar, pathToRoot_step e1 (by rw [ha, hpar]), ih p]

theorem pathToRoot_congr_on {f : Nat} : ∀ {h1 h : Heap} {a : Addr} {l : List Addr},
    pathToRoot f h a = some l →
    (∀ m ∈ l, (h1[m]?).map (fun nd : NodeImpl => nd.parent) =
      (h[m]?).map (fun nd : NodeImpl => nd.parent)) →
    pathToRoot f h1 a = some l := by
  induction f with
  | zero => intro h1 h a l e; simp [pathToRoot] at e
  | succ g ih =>
    intro h1 h a l e hp
    obtain ⟨g', nd, hg, hn, hc⟩ := pathToRoot_cases e
    have hgg : g' = g := by omega
    subst hgg
    have hal : a ∈ l := by
      rcases hc with ⟨_, rfl⟩ | ⟨p, t, _, _, rfl⟩ <;> simp
    have ha := hp a hal
    rw [hn] at ha
    cases e1 : h1[a]? with
    | none => simp [e1] at ha
    | some nd1 =>
      simp only [e1, Option.map_some', Option.some.injEq] at ha
      rcases hc with ⟨hpar, rfl⟩ | ⟨p, t, hpar, ht, rfl⟩
      · exact pathToRoot_root e1 (by rw [ha, hpar])
      · rw [pathToRoot_step e1 (by rw [ha, hpar]),
          ih ht (fun m hm => hp m (List.mem_cons_of_mem _ hm))]
        rfl

theorem UpAdjustMaxVolumeCountDelta_eq_climb (d : Int) :
    ∀ (f : Nat) (h : Heap) (n : Addr),
      UpAdjustMaxVolumeCountDelta f h n d = climb (addMax d) f h n := by
  intro f
  induction f with
  | zero => intro h n; rfl
  | succ g ih =>
    intro h n
    simp only [UpAdjustMaxVolumeCountDelta, climb, addMax]
    cases h[n]? with
    | none => rfl
    | some nd =>
      simp only []
      cases nd.parent with
      | none => rfl
      | some p => exact ih _ _

theorem UpAdjustActiveVolumeCountDelta_eq_climb (d : Int) :
    ∀ (f : Nat) (h : Heap) (n : Addr),
      UpAdjustActiveVolumeCountDelta f h n d = climb (addActive d) f h n := by
  intro f
  induction f with
  | zero => intro h n; rfl
  | succ g ih =>
    intro h n
    simp only [UpAdjustActiveVolumeCountDelta, climb, addActive]
    cases h[n]? with
    | none => rfl
    | some nd =>
      simp only []
      cases nd.parent with
      | none => rfl
      | some p => exact ih _ _

/-- The effect of a climb along a finite parent chain: it returns, and
it has applied the step once to every node of the parent chain and to no other
node. -/
theorem climb_spec {g : NodeImpl → NodeImpl} {f : Nat} : ∀ {h : Heap} {n : Addr} {l : List Addr},
    pathToRoot f h n = some l →
    ∃ h', climb g f h n = some h' ∧ h'.length = h.length ∧
      ∀ m, h'[m]? = if m ∈ l then (h[m]?).map g else h[m]? := by
  induction f with
  | zero => intro h n l e; simp [pathToRoot] at e
  | succ k ih =>
    intro h n l e
    have hnd := pathToRoot_nodup e
    obtain ⟨k', nd, hk, hn, hc⟩ := pathToRoot_cases e
    have hkk : k' = k := by omega
    subst hkk
    rcases hc with ⟨hpar, rfl⟩ | ⟨p, t, hpar, ht, rfl⟩
    · refine ⟨h.set n (g nd), by simp [climb, hn, hpar], by simp, ?_⟩
      intro m
      by_cases hm : m = n
      · subst hm; simp [lookup_set_self hn, hn]
      · simp [hm, lookup_set_ne (Ne.symm hm)]
    · have hnt : n ∉ t := (List.nodup_cons.mp hnd).1
      have ht1 : pathToRoot k' (h.set n (g nd)) p = some t := by
        apply pathToRoot_congr_on ht
        intro m hm
        have : n ≠ m := fun e => hnt (e ▸ hm)
        rw [lookup_set_ne this]
      obtain ⟨h', hcl, hlen, hlk⟩ := ih ht1
      refine ⟨h', by simp [climb, hn, hpar, hcl], by simp [hlen], ?_⟩
      intro m
      rw [hlk m]
      by_cases hm : m = n
      · subst hm; simp [hnt, lookup_set_self hn, hn]
      · have hne : n ≠ m := fun e => hm e.symm
        simp [hm, lookup_set_ne hne]

theorem setMaxId_self (nd : NodeImpl) : setMaxId nd.maxVolumeId nd = nd := rfl

theorem pathToRoot_head {f : Nat} {h : Heap} {a : Addr} {l : List Addr}
    (e : pathToRoot f h a = some l) : ∃ t, l = a :: t := by
  obtain ⟨_, _, _, _, hc⟩ := pathToRoot_cases e
  rcases hc with ⟨_, rfl⟩ | ⟨_, t, _, _, rfl⟩
  · exact ⟨[], rfl⟩
  · exact ⟨t, rfl⟩

theorem pathToRoot_self_mem {f : Nat} {h : Heap} {a : Addr} {l : List Addr}
    (e : pathToRoot f h a = some l) : a ∈ l := by
  obtain ⟨t, rfl⟩ := pathToRoot_head e
  simp

/-- Along a monotone chain every node is at least the node the chain starts at. -/
theorem chain_ge {f : Nat} : ∀ {h : Heap} {n : Addr} {l : List Addr} {nd : NodeImpl},
    pathToRoot f h n = some l → ChainMono h l → h[n]? = some nd →
    ∀ m ∈ l, ∀ md, h[m]? = some md → nd.maxVolumeId ≤ md.maxVolumeId := by
  induction f with
  | zero => intro h n l nd e; simp [pathToRoot] at e
  | succ k ih =>
    intro h n l nd e hmono hn m hm md hmd
    obtain ⟨k', nd', hk, hn', hc⟩ := pathToRoot_cases e
    have hkk : k' = k := by omega
    subst hkk
    rw [hn] at hn'
    obtain rfl := Option.some.inj hn'
    rcases hc with ⟨_, rfl⟩ | ⟨p, t, hpar, ht, rfl⟩
    · simp at hm; subst hm; rw [hn] at hmd; obtain rfl := Option.some.inj hmd; exact le_refl _
    · rcases List.mem_cons.mp hm with rfl | hmt
      · rw [hn] at hmd; obtain rfl := Option.some.inj hmd; exact le_refl _
      · have hpt : p ∈ t := pathToRoot_self_mem ht
        obtain ⟨_, pd, _, hpd, _⟩ := pathToRoot_cases ht
        have h1 : nd.maxVolumeId ≤ pd.maxVolumeId :=
          hmono n (by simp) p (List.mem_cons_of_mem _ hpt) nd pd hn hpar hpd
        have hmono' : ChainMono h t := fun x hx q hq =>
          hmono x (List.mem_cons_of_mem _ hx) q (List.mem_cons_of_mem _ hq)
        exact le_trans h1 (ih ht hmono' hpd m hmt md hmd)

/-- The effect of `UpAdjustMaxVolumeId` along a finite parent chain. -/
theorem UpAdjustMaxVolumeId_spec (vid : VolumeId) {f : Nat} :
    ∀ {h : Heap} {n : Addr} {l : List Addr},
    pathToRoot f h n = some l →
    ∃ h', UpAdjustMaxVolumeId f h n vid = some h' ∧ h'.length = h.length ∧
      (∀ m : Addr, m ∉ l → h'[m]? = h[m]?) ∧
      (∀ (m : Addr) (md : NodeImpl), h[m]? = some md →
        ∃ v, h'[m]? = some (setMaxId v md) ∧ md.maxVolumeId ≤ v ∧ v ≤ max md.maxVolumeId vid) ∧
      (∀ nd' : NodeImpl, h'[n]? = some nd' → vid ≤ nd'.maxVolumeId) ∧
      (ChainMono h l → ∀ m ∈ l, ∀ md : NodeImpl, h[m]? = some md →
        h'[m]? = some (setMaxId (max md.maxVolumeId vid) md)) := by
  induction f with
  | zero => intro h n l e; simp [pathToRoot] at e
  | succ k ih =>
    intro h n l e
    have hnd := pathToRoot_nodup e
    obtain ⟨k', nd, hk, hn, hc⟩ := pathToRoot_cases e
    have hkk : k' = k := by omega
    subst hkk
    by_cases hlt : nd.maxVolumeId < vid
    · rcases hc with ⟨hpar, rfl⟩ | ⟨p, t, hpar, ht, rfl⟩
      · refine ⟨h.set n (setMaxId vid nd), ?_, by simp, ?_, ?_, ?_, ?_⟩
        · simp [UpAdjustMaxVolumeId, hn, hpar, hlt, setMaxId]
        · intro m hm
          have : n ≠ m := fun e => hm (by simp [e])
          exact lookup_set_ne this _
        · intro m md hmd
          by_cases hmn : m = n
          · subst hmn
            rw [hn] at hmd; obtain rfl := Option.some.inj hmd
            exact ⟨vid, by rw [lookup_set_self hn], le_of_lt hlt, le_max_right _ _⟩
          · refine ⟨md.maxVolumeId, ?_, le_refl _, le_max_left _ _⟩
            rw [lookup_set_ne (Ne.symm hmn), hmd]; rfl
        · intro nd' hnd'
          rw [lookup_set_self hn] at hnd'
          obtain rfl := Option.some.inj hnd'
          exact le_refl _
        · intro _ m hm md hmd
          simp at hm; subst hm
          rw [hn] at hmd; obtain rfl := Option.some.inj hmd
          rw [lookup_set_self hn, max_eq_right (le_of_lt hlt)]
      · have hnt : n ∉ t := (List.nodup_cons.mp hnd).1
        have ht1 : pathToRoot k' (h.set n (setMaxId vid nd)) p = some t := by
          apply pathToRoot_congr_on ht
          intro m hm
          have : n ≠ m := fun e => hnt (e ▸ hm)
          rw [lookup_set_ne this]
        obtain ⟨h', hcl, hlen, hoff, hall, _, hmono⟩ := ih ht1
        have hn' : h'[n]? = some (setMaxId vid nd) := by
          rw [hoff n hnt, lookup_set_self hn]
        refine ⟨h', ?_, by simp [hlen], ?_, ?_, ?_, ?_⟩
        · have hcl' := hcl
          simp only [setMaxId, hpar] at hcl'
          simp only [UpAdjustMaxVolumeId, hn, hpar, hlt, if_true]
          exact hcl'
        · intro m hm
          have hmn : n ≠ m := fun e => hm (by simp [e])
          have hmt : m ∉ t := fun e => hm (List.mem_cons_of_mem _ e)
          rw [hoff m hmt, lookup_set_ne hmn]
        · intro m md hmd
          by_cases hmn : m = n
          · subst hmn
            rw [hn] at hmd; obtain rfl := Option.some.inj hmd
            exact ⟨vid, hn', le_of_lt hlt, le_max_right _ _⟩
          · have h1 : (h.set n (setMaxId vid nd))[m]? = some md := by
              rw [lookup_set_ne (Ne.symm hmn), hmd]
            exact hall m md h1
        · intro nd' hnd'
          rw [hn'] at hnd'
          obtain rfl := Option.some.inj hnd'
          exact le_refl _
        · intro hch m hm md hmd
          rcases List.mem_cons.mp hm with rfl | hmt
          · rw [hn] at hmd; obtain rfl := Option.some.inj hmd
            rw [hn', max_eq_right (le_of_lt hlt)]
          · have hmn : n ≠ m := fun e => hnt (e ▸ hmt)
            have hch1 : ChainMono (h.set n (setMaxId vid nd)) t := by
              intro x hx q hq xd qd hxd hxp hqd
              have hxn : n ≠ x := fun e => hnt (e ▸ hx)
              have hqn : n ≠ q := fun e => hnt (e ▸ hq)
              rw [lookup_set_ne hxn] at hxd
              rw [lookup_set_ne hqn] at hqd
              exact hch x (List.mem_cons_of_mem _ hx) q (List.mem_cons_of_mem _ hq)
                xd qd hxd hxp hqd
            have h1 : (h.set n (setMaxId vid nd))[m]? = some md := by
              rw [lookup_set_ne hmn, hmd]
            exact hmono hch1 m hmt md h1
    · have hge : vid ≤ nd.maxVolumeId := not_lt.mp hlt
      have hl : l = l := rfl
      refine ⟨h, ?_, rfl, fun _ _ => rfl, ?_, ?_, ?_⟩
      · simp [UpAdjustMaxVolumeId, hn, hlt]
      · intro m md hmd
        exact ⟨md.maxVolumeId, by rw [hmd]; rfl, le_refl _, le_max_left _ _⟩
      · intro nd' hnd'
        rw [hn] at hnd'; obtain rfl := Option.some.inj hnd'
        exact hge
      · intro hch m hm md hmd
        have := chain_ge e hch hn m hm md hmd
        rw [hmd, max_eq_left (le_trans hge this)]
        rfl

theorem setParent_eq {h : Heap} {a : Addr} {nd : NodeImpl} (e : h[a]? = some nd)
    (p : Option Addr) : setParent h a p = some (h.set a (withParent p nd)) := by
  simp [setParent, e, withParent]

/-- The state after the body of `LinkChildNode`, for a target with a finite
parent chain `l` and a child that is not on it. -/
theorem linkBody_spec {h : Heap} {n c : Addr} {nd cd : NodeImpl} {l : List Addr}
    (hn : h[n]? = some nd) (hc : h[c]? = some cd)
    (hl : pathToRoot (h.length + 1) h n = some l) (hcl : c ∉ l) :
    ∃ h5, linkBody h n c = some h5 ∧ h5.length = h.length ∧
      h5[c]? = some (withParent (some n) cd) ∧
      (∀ m : Addr, m ∉ l → m ≠ c → h5[m]? = h[m]?) ∧
      (∀ m ∈ l, ∀ md : NodeImpl, h[m]? = some md →
        ∃ v, h5[m]? = some (bumped cd.maxVolumeCount cd.activeVolumeCount v
            (if m = n then mapSet md.children cd.id c else md.children) md) ∧
          md.maxVolumeId ≤ v ∧ v ≤ max md.maxVolumeId cd.maxVolumeId ∧
          (m = n → cd.maxVolumeId ≤ v) ∧
          (ChainMono h l → v = max md.maxVolumeId cd.maxVolumeId)) := by
  have hnl : n ∈ l := pathToRoot_self_mem hl
  have hcn : n ≠ c := fun e => hcl (e ▸ hnl)
  -- the child enters the children map
  obtain ⟨nd1, hnd1⟩ : ∃ x, x = withChildren (mapSet nd.children cd.id c) nd := ⟨_, rfl⟩
  obtain ⟨h1, hh1⟩ : ∃ x, x = h.set n nd1 := ⟨_, rfl⟩
  have h1len : h1.length = h.length := by simp [hh1]
  have h1n : h1[n]? = some nd1 := by rw [hh1]; exact lookup_set_self hn _
  have h1ne : ∀ m : Addr, m ≠ n → h1[m]? = h[m]? := fun m hm => by
    rw [hh1]; exact lookup_set_ne (Ne.symm hm) _
  have h1c : h1[c]? = some cd := by rw [h1ne c (Ne.symm hcn), hc]
  have hl1 : pathToRoot (h.length + 1) h1 n = some l := by
    apply pathToRoot_congr_on hl
    intro m _
    by_cases hm : m = n
    · subst hm; rw [h1n, hn, hnd1]; rfl
    · rw [h1ne m hm]
  -- first adjustment
  obtain ⟨h2, e2, h2len, h2lk⟩ := climb_spec (g := addMax cd.maxVolumeCount) hl1
  have h2c : h2[c]? = some cd := by rw [h2lk c, if_neg hcl, h1c]
  have hl2 : pathToRoot (h.length + 1) h2 n = some l := by
    apply pathToRoot_congr_on hl1
    intro m hm
    rw [h2lk m, if_pos hm, Option.map_map]
    rfl
  -- second adjustment
  obtain ⟨h3, e3, h3len, h3off, h3all, h3n, h3mono⟩ :=
    UpAdjustMaxVolumeId_spec cd.maxVolumeId hl2
  have h3c : h3[c]? = some cd := by rw [h3off c hcl, h2c]
  have hl3 : pathToRoot (h.length + 1) h3 n = some l := by
    apply pathToRoot_congr_on hl2
    intro m _
    cases hm2 : h2[m]? with
    | none =>
      have : h3[m]? = none := by
        apply List.getElem?_eq_none
        rw [h3len]
        exact List.getElem?_eq_none_iff.mp hm2
      rw [this]
    | some md2 =>
      obtain ⟨v, hv, _⟩ := h3all m md2 hm2
      rw [hv]; rfl
  -- third adjustment
  obtain ⟨h4, e4, h4len, h4lk⟩ := climb_spec (g := addActive cd.activeVolumeCount) hl3
  have h4c : h4[c]? = some cd := by rw [h4lk c, if_neg hcl, h3c]
  refine ⟨h4.set c (withParent (some n) cd), ?_, ?_, lookup_set_self h4c _, ?_, ?_⟩
  · have e1 : h.set n { nd with children := mapSet nd.children cd.id c } = h1 := by
      rw [hh1, hnd1]; rfl
    simp only [linkBody, hn, hc]
    rw [e1]
    simp only [h1c, UpAdjustMaxVolumeCountDelta_eq_climb, e2, h2c, e3, h3c,
      UpAdjustActiveVolumeCountDelta_eq_climb, e4]
    exact setParent_eq h4c _
  · simp [h4len, h3len, h2len, h1len]
  · intro m hml hmc
    have hmn : m ≠ n := fun e => hml (e ▸ hnl)
    rw [lookup_set_ne (Ne.symm hmc), h4lk m, if_neg hml, h3off m hml, h2lk m, if_neg hml,
      h1ne m hmn]
  · intro m hml md hmd
    have hmc : c ≠ m := fun e => hcl (e ▸ hml)
    have hm1 : h1[m]? = some (withChildren
        (if m = n then mapSet md.children cd.id c else md.children) md) := by
      by_cases hmn : m = n
      · subst hmn
        rw [hn] at hmd; obtain rfl := Option.some.inj hmd
        rw [h1n, if_pos rfl, hnd1]
      · rw [h1ne m hmn, hmd, if_neg hmn]; rfl
    have hm2 := h2lk m
    rw [if_pos hml, hm1, Option.map_some'] at hm2
    obtain ⟨v, hv, hle, hub⟩ := h3all m _ hm2
    refine ⟨v, ?_, hle, hub, ?_, ?_⟩
    · rw [lookup_set_ne hmc, h4lk m, if_pos hml, hv]; rfl
    · intro hmn
      subst hmn
      exact h3n _ hv
    · intro hch
      have hch2 : ChainMono h2 l := by
        intro x hx q hq xd qd hxd hxp hqd
        have hx2 := h2lk x
        have hq2 := h2lk q
        rw [if_pos hx, hxd] at hx2
        rw [if_pos hq, hqd] at hq2
        cases hx1 : h1[x]? with
        | none => rw [hx1] at hx2; simp at hx2
        | some xd1 =>
          cases hq1 : h1[q]? with
          | none => rw [hq1] at hq2; simp at hq2
          | some qd1 =>
            rw [hx1] at hx2; rw [hq1] at hq2
            have hx2' : xd = addMax cd.maxVolumeCount xd1 := Option.some.inj hx2
            have hq2' : qd = addMax cd.maxVolumeCount qd1 := Option.some.inj hq2
            subst hx2' hq2'
            -- back to the initial heap
            have hx0 : ∃ xd0, h[x]? = some xd0 ∧ xd0.parent = xd1.parent ∧
                xd0.maxVolumeId = xd1.maxVolumeId := by
              by_cases hxn : x = n
              · subst hxn
                rw [h1n] at hx1; obtain rfl := Option.some.inj hx1
                exact ⟨nd, hn, by rw [hnd1]; rfl, by rw [hnd1]; rfl⟩
              · rw [h1ne x hxn] at hx1; exact ⟨xd1, hx1, rfl, rfl⟩
            have hq0 : ∃ qd0, h[q]? = some qd0 ∧ qd0.maxVolumeId = qd1.maxVolumeId := by
              by_cases hqn : q = n
              · subst hqn
                rw [h1n] at hq1; obtain rfl := Option.some.inj hq1
                exact ⟨nd, hn, by rw [hnd1]; rfl⟩
              · rw [h1ne q hqn] at hq1; exact ⟨qd1, hq1, rfl⟩
            obtain ⟨xd0, hxd0, hxp0, hxv0⟩ := hx0
            obtain ⟨qd0, hqd0, hqv0⟩ := hq0
            have hxp' : xd0.parent = some q := hxp0.trans hxp
            have := hch x hx q hq xd0 qd0 hxd0 hxp' hqd0
            rw [hxv0, hqv0] at this
            exact this
      have := h3mono hch2 m hml _ hm2
      rw [hv] at this
      have hv' := congrArg NodeImpl.maxVolumeId (Option.some.inj this)
      exact hv'

/-- Distinct addresses of a heap are at most as many as its cells. -/
theorem length_le_of_nodup_lt {l : List Nat} {n : Nat} (hnd : l.Nodup)
    (hlt : ∀ x ∈ l, x < n) : l.length ≤ n := by
  have hsub : l.toFinset ⊆ Finset.range n := by
    intro x hx
    exact Finset.mem_range.mpr (hlt x (List.mem_toFinset.mp hx))
  have := Finset.card_le_card hsub
  rwa [List.toFinset_card_of_nodup hnd, Finset.card_range] at this

theorem String_of_path {f : Nat} : ∀ {h : Heap} {a : Addr} {l : List Addr},
    pathToRoot f h a = some l → ∃ s, NodeImpl.String f h a = some s := by
  induction f with
  | zero => intro h a l e; simp [pathToRoot] at e
  | succ k ih =>
    intro h a l e
    obtain ⟨k', nd, hk, hn, hc⟩ := pathToRoot_cases e
    have hkk : k' = k := by omega
    subst hkk
    rcases hc with ⟨hpar, _⟩ | ⟨p, t, hpar, ht, _⟩
    · exact ⟨nd.id, by simp [NodeImpl.String, hn, hpar]⟩
    · obtain ⟨s, hs⟩ := ih ht
      exact ⟨s ++ ":" ++ nd.id, by simp [NodeImpl.String, hn, hpar, hs]⟩

theorem printlnNodes_of_paths {h : Heap} {n c : Addr} {l l' : List Addr}
    (hn : pathToRoot (h.length + 1) h n = some l)
    (hc : pathToRoot (h.length + 1) h c = some l') : printlnNodes h n c = some () := by
  obtain ⟨s, hs⟩ := String_of_path hn
  obtain ⟨s', hs'⟩ := String_of_path hc
  simp [printlnNodes, hs, hs']

/-- The parent chain of a node whose parent has a known chain. -/
theorem pathToRoot_cons {h : Heap} {a p : Addr} {nd : NodeImpl} {l : List Addr} {f : Nat}
    (ha : h[a]? = some nd) (hp : nd.parent = some p)
    (hl : pathToRoot f h p = some l) (hal : a ∉ l) :
    pathToRoot (h.length + 1) h a = some (a :: l) ∧ pathToRoot h.length h a = some (a :: l) := by
  have hlt : ∀ x ∈ a :: l, x < h.length := by
    intro x hx
    rcases List.mem_cons.mp hx with rfl | hx'
    · exact lt_of_lookup ha
    · exact pathToRoot_lt hl x hx'
  have hnd : (a :: l).Nodup := List.nodup_cons.mpr ⟨hal, pathToRoot_nodup hl⟩
  have hlen := length_le_of_nodup_lt hnd hlt
  simp only [List.length_cons] at hlen
  have hex := pathToRoot_exact hl
  have h1 : pathToRoot (l.length + 1) h a = some (a :: l) := by
    rw [pathToRoot_step ha hp, hex]; rfl
  exact ⟨pathToRoot_mono h1 (by omega), pathToRoot_mono h1 hlen⟩

/-- The state after `LinkChildNode` when the identifier is new, the target has
a finite parent chain `l` and the child is not on it. -/
theorem LinkChildNode_spec {h : Heap} {n c : Addr} {nd cd : NodeImpl} {l : List Addr}
    (hn : h[n]? = some nd) (hc : h[c]? = some cd)
    (hl : pathToRoot (h.length + 1) h n = some l) (hcl : c ∉ l)
    (habs : mapGet nd.children cd.id = none) :
    ∃ h5, LinkChildNode h n c = some h5 ∧ h5.length = h.length ∧
      h5[c]? = some (withParent (some n) cd) ∧
      (∀ m : Addr, m ∉ l → m ≠ c → h5[m]? = h[m]?) ∧
      (∀ m ∈ l, ∀ md : NodeImpl, h[m]? = some md →
        ∃ v, h5[m]? = some (bumped cd.maxVolumeCount cd.activeVolumeCount v
            (if m = n then mapSet md.children cd.id c else md.children) md) ∧
          md.maxVolumeId ≤ v ∧ v ≤ max md.maxVolumeId cd.maxVolumeId ∧
          (m = n → cd.maxVolumeId ≤ v) ∧
          (ChainMono h l → v = max md.maxVolumeId cd.maxVolumeId)) := by
  obtain ⟨h5, e5, hlen, h5c, hoff, hon⟩ := linkBody_spec hn hc hl hcl
  refine ⟨h5, ?_, hlen, h5c, hoff, hon⟩
  have hp5 : pathToRoot (h5.length + 1) h5 n = some l := by
    rw [hlen]
    apply pathToRoot_congr_on hl
    intro m hm
    cases hmd : h[m]? with
    | none =>
      have hlt := pathToRoot_lt hl m hm
      have hge := List.getElem?_eq_none_iff.mp hmd
      omega
    | some md =>
      obtain ⟨v, hv, _⟩ := hon m hm md hmd
      rw [hv]; rfl
  have hc5 : pathToRoot (h5.length + 1) h5 c = some (c :: l) :=
    (pathToRoot_cons h5c rfl hp5 hcl).1
  simp only [LinkChildNode, hn, hc, habs, if_true, e5, printlnNodes_of_paths hp5 hc5]

/-- The state after `UnlinkChildNode` of a present identifier, for a target
with a finite parent chain `l` and a child that is not on it. -/
theorem UnlinkChildNode_spec {h : Heap} {n c : Addr} {nd cd : NodeImpl} {l : List Addr}
    {nodeId : NodeId}
    (hn : h[n]? = some nd) (hget : mapGet nd.children nodeId = some c) (hc : h[c]? = some cd)
    (hl : pathToRoot (h.length + 1) h n = some l) (hcl : c ∉ l) :
    ∃ h3, UnlinkChildNode h n nodeId = some h3 ∧ h3.length = h.length ∧
      h3[c]? = some (withParent none cd) ∧
      (∀ m : Addr, m ∉ l → m ≠ c → h3[m]? = h[m]?) ∧
      (∀ m ∈ l, ∀ md : NodeImpl, h[m]? = some md →
        h3[m]? = some (bumped (-cd.maxVolumeCount) (-cd.activeVolumeCount) md.maxVolumeId
            (if m = n then mapDelete md.children cd.id else md.children) md)) := by
  have hnl : n ∈ l := pathToRoot_self_mem hl
  have hcn : n ≠ c := fun e => hcl (e ▸ hnl)
  -- the back-reference is cleared
  obtain ⟨cd0, hcd0⟩ : ∃ x, x = withParent none cd := ⟨_, rfl⟩
  obtain ⟨h0, hh0⟩ : ∃ x, x = h.set c cd0 := ⟨_, rfl⟩
  have h0len : h0.length = h.length := by simp [hh0]
  have h0c : h0[c]? = some cd0 := by rw [hh0]; exact lookup_set_self hc _
  have h0ne : ∀ m : Addr, m ≠ c → h0[m]? = h[m]? := fun m hm => by
    rw [hh0]; exact lookup_set_ne (Ne.symm hm) _
  have h0n : h0[n]? = some nd := by rw [h0ne n hcn, hn]
  have hl0 : pathToRoot (h.length + 1) h0 n = some l := by
    apply pathToRoot_congr_on hl
    intro m hm
    have : m ≠ c := fun e => hcl (e ▸ hm)
    rw [h0ne m this]
  -- the child leaves the children map
  obtain ⟨nd1, hnd1⟩ : ∃ x, x = withChildren (mapDelete nd.children cd.id) nd := ⟨_, rfl⟩
  obtain ⟨h1, hh1⟩ : ∃ x, x = h0.set n nd1 := ⟨_, rfl⟩
  have h1len : h1.length = h.length := by simp [hh1, h0len]
  have h1n : h1[n]? = some nd1 := by rw [hh1]; exact lookup_set_self h0n _
  have h1ne : ∀ m : Addr, m ≠ n → h1[m]? = h0[m]? := fun m hm => by
    rw [hh1]; exact lookup_set_ne (Ne.symm hm) _
  have h1c : h1[c]? = some cd0 := by rw [h1ne c (Ne.symm hcn), h0c]
  have hl1 : pathToRoot (h.length + 1) h1 n = some l := by
    apply pathToRoot_congr_on hl0
    intro m _
    by_cases hm : m = n
    · subst hm; rw [h1n, h0n, hnd1]; rfl
    · rw [h1ne m hm]
  obtain ⟨h2, e2, h2len, h2lk⟩ := climb_spec (g := addActive (-cd0.activeVolumeCount)) hl1
  have h2c : h2[c]? = some cd0 := by rw [h2lk c, if_neg hcl, h1c]
  have hl2 : pathToRoot (h.length + 1) h2 n = some l := by
    apply pathToRoot_congr_on hl1
    intro m hm
    rw [h2lk m, if_pos hm, Option.map_map]
    rfl
  obtain ⟨h3, e3, h3len, h3lk⟩ := climb_spec (g := addMax (-cd0.maxVolumeCount)) hl2
  have h3c : h3[c]? = some cd0 := by rw [h3lk c, if_neg hcl, h2c]
  have h3len' : h3.length = h.length := by rw [h3len, h2len, h1len]
  have hon : ∀ m ∈ l, ∀ md : NodeImpl, h[m]? = some md →
      h3[m]? = some (bumped (-cd.maxVolumeCount) (-cd.activeVolumeCount) md.maxVolumeId
          (if m = n then mapDelete md.children cd.id else md.children) md) := by
    intro m hml md hmd
    have hmc : m ≠ c := fun e => hcl (e ▸ hml)
    have hm1 : h1[m]? = some (withChildren
        (if m = n then mapDelete md.children cd.id else md.children) md) := by
      by_cases hmn : m = n
      · subst hmn
        rw [hn] at hmd; obtain rfl := Option.some.inj hmd
        rw [h1n, if_pos rfl, hnd1]
      · rw [h1ne m hmn, h0ne m hmc, hmd, if_neg hmn]; rfl
    rw [h3lk m, if_pos hml, h2lk m, if_pos hml, hm1, hcd0]
    rfl
  refine ⟨h3, ?_, h3len', by rw [h3c, hcd0], ?_, hon⟩
  · have hp3 : pathToRoot (h3.length + 1) h3 n = some l := by
      rw [h3len']
      apply pathToRoot_congr_on hl2
      intro m hm
      rw [h3lk m, if_pos hm, Option.map_map]
      rfl
    have hc3 : pathToRoot (h3.length + 1) h3 c = some [c] :=
      pathToRoot_root h3c (by rw [hcd0]; rfl)
    have e1 : h0.set n { nd with children := mapDelete nd.children cd0.id } = h1 := by
      rw [hh1, hnd1, hcd0]; rfl
    have eb : unlinkBody h0 n c = some h3 := by
      simp only [unlinkBody, h0n, h0c]
      rw [e1]
      simp only [h1c, UpAdjustActiveVolumeCountDelta_eq_climb, h0len, e2, h2c,
        UpAdjustMaxVolumeCountDelta_eq_climb, e3]
    have es : setParent h c none = some h0 := by
      rw [setParent_eq hc, hh0, hcd0]
    simp only [UnlinkChildNode, hn, hget, es, eb, printlnNodes_of_paths hp3 hc3]
  · intro m hml hmc
    have hmn : m ≠ n := fun e => hml (e ▸ hnl)
    rw [h3lk m, if_neg hml, h2lk m, if_neg hml, h1ne m hmn, h0ne m hmc]

/-! ## Well-formed heaps -/

theorem WellFormed.parent_listed {h : Heap} (wf : WellFormed h) {a p : Addr} {nd : NodeImpl}
    (ha : h[a]? = some nd) (hp : nd.parent = some p) :
    ∃ pn, h[p]? = some pn ∧ (nd.id, a) ∈ pn.children := by
  obtain ⟨pn, hpn, hmem⟩ := wf.1 a (lt_of_lookup ha) nd ha p hp
  exact ⟨pn, hpn, hmem⟩

theorem WellFormed.child_ok {h : Heap} (wf : WellFormed h) {p : Addr} {pn : NodeImpl}
    (hp : h[p]? = some pn) {e : NodeId × Addr} (he : e ∈ pn.children) :
    ∃ cn, h[e.2]? = some cn ∧ cn.parent = some p ∧ cn.id = e.1 := by
  obtain ⟨cn, hcn, h1, h2⟩ := wf.2.1 p (lt_of_lookup hp) pn hp e he
  exact ⟨cn, hcn, h1, h2⟩

theorem WellFormed.keys_nodup {h : Heap} (wf : WellFormed h) {p : Addr} {pn : NodeImpl}
    (hp : h[p]? = some pn) : (pn.children.map Prod.fst).Nodup :=
  wf.2.2.1 p (lt_of_lookup hp) pn hp

theorem WellFormed.path {h : Heap} (wf : WellFormed h) {a : Addr} {nd : NodeImpl}
    (ha : h[a]? = some nd) :
    ∃ l, pathToRoot h.length h a = some l ∧ pathToRoot (h.length + 1) h a = some l := by
  have := wf.2.2.2.1 a (lt_of_lookup ha)
  obtain ⟨l, hl⟩ := Option.isSome_iff_exists.mp this
  exact ⟨l, hl, pathToRoot_mono hl (Nat.le_succ _)⟩

theorem WellFormed.leaf {h : Heap} (wf : WellFormed h) {a : Addr} {nd : NodeImpl}
    (ha : h[a]? = some nd) (hd : IsDataNode nd = true) : nd.children = [] :=
  wf.2.2.2.2 a (lt_of_lookup ha) nd ha hd

/-- The addresses in a children map are distinct. -/
theorem WellFormed.addrs_nodup {h : Heap} (wf : WellFormed h) {p : Addr} {pn : NodeImpl}
    (hp : h[p]? = some pn) : (pn.children.map Prod.snd).Nodup := by
  have hk := wf.keys_nodup hp
  have hinj : ∀ e ∈ pn.children, ∀ e' ∈ pn.children, e.2 = e'.2 → e.1 = e'.1 := by
    intro e he e' he' heq
    obtain ⟨cn, hcn, _, hid⟩ := wf.child_ok hp he
    obtain ⟨cn', hcn', _, hid'⟩ := wf.child_ok hp he'
    rw [heq, hcn'] at hcn
    obtain rfl := Option.some.inj hcn
    rw [← hid, ← hid']
  generalize pn.children = ch at hk hinj
  induction ch with
  | nil => simp
  | cons x xs ih =>
    simp only [List.map_cons, List.nodup_cons] at hk ⊢
    refine ⟨?_, ih hk.2 (fun e he e' he' => hinj e (List.mem_cons_of_mem _ he) e'
      (List.mem_cons_of_mem _ he'))⟩
    intro hx
    obtain ⟨y, hy, hyx⟩ := List.mem_map.mp hx
    have := hinj y (List.mem_cons_of_mem _ hy) x (List.mem_cons_self _ _) hyx
    exact hk.1 (List.mem_map.mpr ⟨y, hy, this⟩)

/-- The parent chain of a node with a parent is the node followed by the
parent chain of the parent. -/
theorem pathToRoot_of_parent {f f' : Nat} {h : Heap} {a p : Addr} {nd : NodeImpl}
    {s l : List Addr} (ha : h[a]? = some nd) (hp : nd.parent = some p)
    (hs : pathToRoot f h a = some s) (hl : pathToRoot f' h p = some l) : s = a :: l := by
  obtain ⟨g, nd', _, hn', hc⟩ := pathToRoot_cases hs
  rw [ha] at hn'
  obtain rfl := Option.some.inj hn'
  rcases hc with ⟨hnone, _⟩ | ⟨q, t, hq, ht, rfl⟩
  · rw [hp] at hnone; simp at hnone
  · rw [hp] at hq
    obtain rfl := Option.some.inj hq
    rw [pathToRoot_det ht hl]

/-- A node on a chain whose parent is `m` puts `m` on the chain as well. -/
theorem parent_mem_path {f : Nat} {h : Heap} {n x m : Addr} {xd : NodeImpl} {l : List Addr}
    (hl : pathToRoot f h n = some l) (hx : x ∈ l) (hxd : h[x]? = some xd)
    (hp : xd.parent = some m) : m ∈ l := by
  obtain ⟨pre, s, hs, hxs⟩ := pathToRoot_suffix hl x hx
  obtain ⟨g, xd', _, hx', hc⟩ := pathToRoot_cases hxs
  rw [hxd] at hx'
  obtain rfl := Option.some.inj hx'
  rcases hc with ⟨hnone, _⟩ | ⟨q, t, hq, ht, rfl⟩
  · rw [hp] at hnone; simp at hnone
  · rw [hp] at hq
    obtain rfl := Option.some.inj hq
    rw [hs]
    simp [pathToRoot_self_mem ht]

/-- A node is not on the parent chain of its own parent. -/
theorem child_not_on_path {f : Nat} {h : Heap} {p c : Addr} {cd : NodeImpl} {l : List Addr}
    (hl : pathToRoot f h p = some l) (hc : h[c]? = some cd) (hp : cd.parent = some p) :
    c ∉ l := by
  intro hcl
  obtain ⟨pre, s, hs, hcs⟩ := pathToRoot_suffix hl c hcl
  have := pathToRoot_of_parent hc hp hcs hl
  rw [this] at hs
  have hlen := congrArg List.length hs
  simp at hlen
  omega

/-- Two nodes of one chain with the same parent are the same node. -/
theorem same_parent_on_path {f : Nat} {h : Heap} {n x y m : Addr} {xd yd : NodeImpl}
    {l : List Addr} (hl : pathToRoot f h n = some l) (hx : x ∈ l) (hy : y ∈ l)
    (hxd : h[x]? = some xd) (hyd : h[y]? = some yd)
    (hxp : xd.parent = some m) (hyp : yd.parent = some m) : x = y := by
  obtain ⟨pre, s, hs, hxs⟩ := pathToRoot_suffix hl x hx
  obtain ⟨pre', s', hs', hys⟩ := pathToRoot_suffix hl y hy
  have hm : m ∈ l := parent_mem_path hl hx hxd hxp
  obtain ⟨_, t, _, hmt⟩ := pathToRoot_suffix hl m hm
  have e1 := pathToRoot_of_parent hxd hxp hxs hmt
  have e2 := pathToRoot_of_parent hyd hyp hys hmt
  subst e1 e2
  rw [hs] at hs'
  have := (List.append_inj' hs' (by simp)).2
  exact (List.cons.inj this).1

/-- Every node of a chain other than its first node is the parent of a node
of the chain. -/
theorem pred_on_path {f : Nat} : ∀ {h : Heap} {n : Addr} {l : List Addr},
    pathToRoot f h n = some l → ∀ m ∈ l, m ≠ n →
    ∃ k kd, k ∈ l ∧ h[k]? = some kd ∧ kd.parent = some m := by
  induction f with
  | zero => intro h n l e; simp [pathToRoot] at e
  | succ g ih =>
    intro h n l e m hm hmn
    obtain ⟨g', nd, hg, hn, hc⟩ := pathToRoot_cases e
    have hgg : g' = g := by omega
    subst hgg
    rcases hc with ⟨_, rfl⟩ | ⟨p, t, hpar, ht, rfl⟩
    · simp at hm; exact absurd hm hmn
    · rcases List.mem_cons.mp hm with rfl | hmt
      · exact absurd rfl hmn
      · by_cases hmp : m = p
        · subst hmp
          exact ⟨n, nd, by simp, hn, hpar⟩
        · obtain ⟨k, kd, hk, hkd, hkp⟩ := ih ht m hmt hmp
          exact ⟨k, kd, List.mem_cons_of_mem _ hk, hkd, hkp⟩

/-! ## Sums over children -/

theorem childSum_congr {f : NodeImpl → Int} {h h' : Heap} {ch : List (NodeId × Addr)}
    (hv : ∀ e ∈ ch, valOf f h' e.2 = valOf f h e.2) : childSum f h' ch = childSum f h ch := by
  unfold childSum
  congr 1
  apply List.map_congr_left
  intro e he
  exact hv e he

theorem sum_indicator {ch : List (NodeId × Addr)} {k : Addr} {d : Int}
    (hnd : (ch.map Prod.snd).Nodup) (hk : k ∈ ch.map Prod.snd) :
    (ch.map (fun e => if e.2 = k then d else 0)).sum = d := by
  induction ch with
  | nil => simp at hk
  | cons x xs ih =>
    simp only [List.map_cons, List.nodup_cons, List.mem_cons, List.sum_cons] at hnd hk ⊢
    by_cases hx : x.2 = k
    · have hz : (xs.map (fun e : NodeId × Addr => if e.2 = k then d else 0)).sum = 0 := by
        apply List.sum_eq_zero
        intro v hv
        obtain ⟨e, he, rfl⟩ := List.mem_map.mp hv
        have : e.2 ≠ k := by
          intro hek
          apply hnd.1
          rw [hx, ← hek]
          exact List.mem_map.mpr ⟨e, he, rfl⟩
        simp [this]
      rw [if_pos hx, hz, add_zero]
    · rw [if_neg hx, zero_add]
      rcases hk with hk | hk
      · exact absurd hk.symm hx
      · exact ih hnd.2 hk

/-- When exactly the child `k` moved by `d`, the sum over the children moved by `d`. -/
theorem childSum_shift {f : NodeImpl → Int} {h h' : Heap} {ch : List (NodeId × Addr)}
    {k : Addr} {d : Int} (hnd : (ch.map Prod.snd).Nodup) (hk : k ∈ ch.map Prod.snd)
    (hv : ∀ e ∈ ch, valOf f h' e.2 = valOf f h e.2 + if e.2 = k then d else 0) :
    childSum f h' ch = childSum f h ch + d := by
  have h1 : childSum f h' ch =
      (ch.map (fun e => valOf f h e.2 + if e.2 = k then d else 0)).sum := by
    unfold childSum
    congr 1
    apply List.map_congr_left
    intro e he
    exact hv e he
  rw [h1, List.sum_map_add, sum_indicator hnd hk]
  rfl

theorem Moved.reshaped {h h' : Heap} {n c : Addr} {cd : NodeImpl} {l : List Addr}
    {dMax dAct : Int} {chN : List (NodeId × Addr)} {pc : Option Addr}
    (mv : Moved h n c cd l dMax dAct chN pc h') (hc : h[c]? = some cd) (hcl : c ∉ l)
    (hnl : n ∈ l) : Reshaped h n c chN pc h' := by
  obtain ⟨hlen, hc', hoff, hon⟩ := mv
  refine ⟨hlen, ?_⟩
  intro a ad ha
  have hcn : c ≠ n := fun e => hcl (e ▸ hnl)
  by_cases hac : a = c
  · subst hac
    rw [hc] at ha; obtain rfl := Option.some.inj ha
    exact ⟨_, hc', rfl, rfl, by rw [if_pos rfl]; rfl, by rw [if_neg hcn]; rfl⟩
  · by_cases hal : a ∈ l
    · obtain ⟨v, hv, _⟩ := hon a hal ad ha
      exact ⟨_, hv, rfl, rfl, by rw [if_neg hac]; rfl, rfl⟩
    · have han : a ≠ n := fun e => hal (e ▸ hnl)
      refine ⟨ad, by rw [hoff a hal hac, ha], rfl, rfl, by rw [if_neg hac], by rw [if_neg han]⟩

theorem Reshaped.back {h h' : Heap} {n c : Addr} {chN : List (NodeId × Addr)}
    {pc : Option Addr} (rs : Reshaped h n c chN pc h') {a : Addr} {ad' : NodeImpl}
    (ha' : h'[a]? = some ad') :
    ∃ ad, h[a]? = some ad ∧ ad'.id = ad.id ∧ ad'.nodeType = ad.nodeType ∧
      ad'.parent = (if a = c then pc else ad.parent) ∧
      ad'.children = (if a = n then chN else ad.children) := by
  have hlt : a < h.length := by rw [← rs.1]; exact lt_of_lookup ha'
  obtain ⟨ad, had⟩ : ∃ ad, h[a]? = some ad := ⟨h[a], List.getElem?_eq_getElem hlt⟩
  obtain ⟨ad'', h1, h2, h3, h4, h5⟩ := rs.2 a ad had
  rw [ha'] at h1
  obtain rfl := Option.some.inj h1
  exact ⟨ad, had, h2, h3, h4, h5⟩

/-- The value of a counter after a move: shifted by `d` on the chain, the same
elsewhere. -/
theorem Moved.valOf_shift {h h' : Heap} {n c : Addr} {cd : NodeImpl} {l : List Addr}
    {dMax dAct : Int} {chN : List (NodeId × Addr)} {pc : Option Addr}
    (mv : Moved h n c cd l dMax dAct chN pc h') (hc : h[c]? = some cd) (hcl : c ∉ l)
    (hlt : ∀ m : Nat, m ∈ l → m < h.length)
    {f : NodeImpl → Int} {d : Int}
    (hfb : ∀ v ch md, f (bumped dMax dAct v ch md) = f md + d)
    (hfp : ∀ p nd, f (withParent p nd) = f nd) (x : Addr) :
    Topology.valOf f h' x = Topology.valOf f h x + if x ∈ l then d else 0 := by
  obtain ⟨hlen, hc', hoff, hon⟩ := mv
  by_cases hxl : x ∈ l
  · have hx := hlt x hxl
    obtain ⟨xd, hxd⟩ : ∃ xd, h[x]? = some xd := ⟨h[x], List.getElem?_eq_getElem hx⟩
    obtain ⟨v, hv, _⟩ := hon x hxl xd hxd
    simp only [Topology.valOf, hv, hxd, if_pos hxl, hfb]
  · by_cases hxc : x = c
    · subst hxc
      simp only [Topology.valOf, hc', hc, if_neg hxl, hfp, add_zero]
    · simp only [Topology.valOf, hoff x hxl hxc, if_neg hxl, add_zero]

/-- Away from the target the aggregate equation survives a move. -/
theorem Moved.agg_off_target {h h' : Heap} {n c : Addr} {cd : NodeImpl} {l : List Addr}
    {dMax dAct : Int} {chN : List (NodeId × Addr)} {pc : Option Addr} {k : Nat}
    (mv : Moved h n c cd l dMax dAct chN pc h') (wf : WellFormed h)
    (hl : pathToRoot k h n = some l) (hc : h[c]? = some cd) (hcl : c ∉ l)
    {f : NodeImpl → Int} {d : Int}
    (hfb : ∀ v ch md, f (bumped dMax dAct v ch md) = f md + d)
    (hfp : ∀ p nd, f (withParent p nd) = f nd)
    {m : Addr} {md md' : NodeImpl} (hmn : m ≠ n) (hm : h[m]? = some md)
    (hm' : h'[m]? = some md') (inv : f md = childSum f h md.children) :
    f md' = childSum f h' md'.children := by
  have hval := fun x => mv.valOf_shift hc hcl (pathToRoot_lt hl) hfb hfp x
  obtain ⟨hlen, hc', hoff, hon⟩ := mv
  by_cases hmc : m = c
  · subst hmc
    rw [hc] at hm; obtain rfl := Option.some.inj hm
    rw [hc'] at hm'; obtain rfl := Option.some.inj hm'
    rw [hfp, inv]
    symm
    apply childSum_congr
    intro e he
    obtain ⟨cn, hcn, hpar, _⟩ := wf.child_ok hc he
    have : e.2 ∉ l := fun hel => hcl (parent_mem_path hl hel hcn hpar)
    rw [hval e.2, if_neg this, add_zero]
  · by_cases hml : m ∈ l
    · obtain ⟨v, hv, _⟩ := hon m hml md hm
      rw [hv] at hm'; obtain rfl := Option.some.inj hm'
      rw [hfb, inv]
      have hch : (bumped dMax dAct v (if m = n then chN else md.children) md).children =
          md.children := by rw [if_neg hmn]; rfl
      rw [hch]
      obtain ⟨q, qd, hq, hqd, hqp⟩ := pred_on_path hl m hml hmn
      obtain ⟨pn, hpn, hmem⟩ := wf.parent_listed hqd hqp
      rw [hm] at hpn; obtain rfl := Option.some.inj hpn
      symm
      apply childSum_shift (wf.addrs_nodup hm) (List.mem_map.mpr ⟨_, hmem, rfl⟩)
      intro e he
      rw [hval e.2]
      obtain ⟨cn, hcn, hpar, _⟩ := wf.child_ok hm he
      by_cases hel : e.2 ∈ l
      · have := same_parent_on_path hl hel hq hcn hqd hpar hqp
        rw [if_pos hel, if_pos this]
      · have : e.2 ≠ q := fun e' => hel (e' ▸ hq)
        rw [if_neg hel, if_neg this]
    · rw [hoff m hml hmc, hm] at hm'; obtain rfl := Option.some.inj hm'
      rw [inv]
      symm
      apply childSum_congr
      intro e he
      obtain ⟨cn, hcn, hpar, _⟩ := wf.child_ok hm he
      have : e.2 ∉ l := fun hel => hml (parent_mem_path hl hel hcn hpar)
      rw [hval e.2, if_neg this, add_zero]

/-! ## Maps -/

theorem mapGet_none_iff {ch : List (NodeId × Addr)} {k : NodeId} :
    mapGet ch k = none ↔ k ∉ ch.map Prod.fst := by
  induction ch with
  | nil => simp [mapGet]
  | cons x xs ih =>
    by_cases hx : x.1 = k
    · simp [mapGet, hx]
    · simp only [mapGet, hx, if_false, ih, List.map_cons, List.mem_cons, not_or]
      exact ⟨fun h => ⟨fun e => hx e.symm, h⟩, fun h => h.2⟩

theorem mapGet_some_mem {ch : List (NodeId × Addr)} {k : NodeId} {c : Addr}
    (e : mapGet ch k = some c) : (k, c) ∈ ch := by
  induction ch with
  | nil => simp [mapGet] at e
  | cons x xs ih =>
    by_cases hx : x.1 = k
    · simp only [mapGet, hx, if_true, Option.some.injEq] at e
      subst hx e
      exact List.mem_cons_self _ _
    · simp only [mapGet, hx, if_false] at e
      exact List.mem_cons_of_mem _ (ih e)

theorem mapGet_of_mem {ch : List (NodeId × Addr)} {k : NodeId} {c : Addr}
    (hnd : (ch.map Prod.fst).Nodup) (hmem : (k, c) ∈ ch) : mapGet ch k = some c := by
  induction ch with
  | nil => simp at hmem
  | cons x xs ih =>
    simp only [List.map_cons, List.nodup_cons] at hnd
    rcases List.mem_cons.mp hmem with rfl | hm
    · simp [mapGet]
    · have hx : x.1 ≠ k := by
        intro e
        apply hnd.1
        rw [e]
        exact List.mem_map.mpr ⟨(k, c), hm, rfl⟩
      simp only [mapGet, hx, if_false]
      exact ih hnd.2 hm

theorem mem_mapDelete {ch : List (NodeId × Addr)} {k : NodeId} {e : NodeId × Addr} :
    e ∈ mapDelete ch k ↔ e ∈ ch ∧ e.1 ≠ k := by
  simp [mapDelete]

theorem mapDelete_absent {ch : List (NodeId × Addr)} {k : NodeId}
    (e : mapGet ch k = none) : mapDelete ch k = ch := by
  rw [mapGet_none_iff] at e
  unfold mapDelete
  apply List.filter_eq_self.mpr
  intro x hx
  have : x.1 ≠ k := fun hk => e (hk ▸ List.mem_map.mpr ⟨x, hx, rfl⟩)
  simp [this]

theorem mapSet_absent {ch : List (NodeId × Addr)} {k : NodeId} (v : Addr)
    (e : mapGet ch k = none) : mapSet ch k v = ch ++ [(k, v)] := by
  rw [mapSet, mapDelete_absent e]

theorem mapDelete_keys_nodup {ch : List (NodeId × Addr)} (k : NodeId)
    (hnd : (ch.map Prod.fst).Nodup) : ((mapDelete ch k).map Prod.fst).Nodup :=
  hnd.sublist ((List.filter_sublist ch).map Prod.fst)

theorem mapGet_mapDelete (ch : List (NodeId × Addr)) (k : NodeId) :
    mapGet (mapDelete ch k) k = none := by
  rw [mapGet_none_iff]
  intro hk
  obtain ⟨e, he, hek⟩ := List.mem_map.mp hk
  exact (mem_mapDelete.mp he).2 hek

theorem childSum_append (f : NodeImpl → Int) (h : Heap) (ch ch' : List (NodeId × Addr)) :
    childSum f h (ch ++ ch') = childSum f h ch + childSum f h ch' := by
  simp [childSum]

theorem childSum_single (f : NodeImpl → Int) (h : Heap) (e : NodeId × Addr) :
    childSum f h [e] = valOf f h e.2 := by
  simp [childSum, valOf]

theorem childSum_delete {f : NodeImpl → Int} {h : Heap} {ch : List (NodeId × Addr)}
    {k : NodeId} {c : Addr} (hnd : (ch.map Prod.fst).Nodup) (hmem : (k, c) ∈ ch) :
    childSum f h ch = childSum f h (mapDelete ch k) + valOf f h c := by
  induction ch with
  | nil => simp at hmem
  | cons x xs ih =>
    simp only [List.map_cons, List.nodup_cons] at hnd
    rcases List.mem_cons.mp hmem with rfl | hm
    · have habs : mapGet xs k = none := mapGet_none_iff.mpr hnd.1
      have : mapDelete ((k, c) :: xs) k = xs := by
        have h1 := mapDelete_absent habs
        simp only [mapDelete] at h1 ⊢
        rw [List.filter_cons, h1]
        simp
      rw [this]
      simp only [childSum, List.map_cons, List.sum_cons, valOf]
      ring
    · have hx : x.1 ≠ k := by
        intro e
        apply hnd.1
        rw [e]
        exact List.mem_map.mpr ⟨(k, c), hm, rfl⟩
      have : mapDelete (x :: xs) k = x :: mapDelete xs k := by
        simp [mapDelete, List.filter_cons, hx]
      rw [this]
      have := ih hnd.2 hm
      simp only [childSum, List.map_cons, List.sum_cons] at this ⊢
      rw [this]
      ring

/-! ## The aggregate equation at the target -/

theorem Moved.agg_link_target {h h' : Heap} {n c : Addr} {nd cd : NodeImpl} {l : List Addr}
    {dMax dAct : Int} {pc : Option Addr} {k : Nat}
    (mv : Moved h n c cd l dMax dAct (mapSet nd.children cd.id c) pc h')
    (wf : WellFormed h) (hl : pathToRoot k h n = some l)
    (hn : h[n]? = some nd) (hc : h[c]? = some cd) (hcl : c ∉ l)
    (habs : mapGet nd.children cd.id = none)
    {f : NodeImpl → Int}
    (hfb : ∀ v ch md, f (bumped dMax dAct v ch md) = f md + f cd)
    (hfp : ∀ p nd, f (withParent p nd) = f nd)
    {nd' : NodeImpl} (hn' : h'[n]? = some nd') (inv : f nd = childSum f h nd.children) :
    f nd' = childSum f h' nd'.children := by
  have hval := fun x => mv.valOf_shift hc hcl (pathToRoot_lt hl) hfb hfp x
  obtain ⟨hlen, hc', hoff, hon⟩ := mv
  obtain ⟨v, hv, _⟩ := hon n (pathToRoot_self_mem hl) nd hn
  rw [hv] at hn'; obtain rfl := Option.some.inj hn'
  have hch : (bumped dMax dAct v (if n = n then mapSet nd.children cd.id c else nd.children)
      nd).children = nd.children ++ [(cd.id, c)] := by
    rw [if_pos rfl, mapSet_absent c habs]; rfl
  rw [hfb, hch, childSum_append, childSum_single, inv, hval c, if_neg hcl, add_zero]
  have h1 : childSum f h' nd.children = childSum f h nd.children := by
    apply childSum_congr
    intro e he
    obtain ⟨cn, hcn, hpar, _⟩ := wf.child_ok hn he
    rw [hval e.2, if_neg (child_not_on_path hl hcn hpar), add_zero]
  rw [h1]
  simp [Topology.valOf, hc]

theorem Moved.agg_unlink_target {h h' : Heap} {n c : Addr} {nd cd : NodeImpl}
    {l : List Addr} {dMax dAct : Int} {pc : Option Addr} {k : Nat}
    (mv : Moved h n c cd l dMax dAct (mapDelete nd.children cd.id) pc h')
    (wf : WellFormed h) (hl : pathToRoot k h n = some l)
    (hn : h[n]? = some nd) (hc : h[c]? = some cd) (hcl : c ∉ l)
    (hmem : (cd.id, c) ∈ nd.children)
    {f : NodeImpl → Int}
    (hfb : ∀ v ch md, f (bumped dMax dAct v ch md) = f md + -f cd)
    (hfp : ∀ p nd, f (withParent p nd) = f nd)
    {nd' : NodeImpl} (hn' : h'[n]? = some nd') (inv : f nd = childSum f h nd.children) :
    f nd' = childSum f h' nd'.children := by
  have hval := fun x => mv.valOf_shift hc hcl (pathToRoot_lt hl) hfb hfp x
  obtain ⟨hlen, hc', hoff, hon⟩ := mv
  obtain ⟨v, hv, _⟩ := hon n (pathToRoot_self_mem hl) nd hn
  rw [hv] at hn'; obtain rfl := Option.some.inj hn'
  have hch : (bumped dMax dAct v (if n = n then mapDelete nd.children cd.id else nd.children)
      nd).children = mapDelete nd.children cd.id := by
    rw [if_pos rfl]; rfl
  rw [hfb, hch, inv, childSum_delete (wf.keys_nodup hn) hmem]
  have h1 : childSum f h' (mapDelete nd.children cd.id) =
      childSum f h (mapDelete nd.children cd.id) := by
    apply childSum_congr
    intro e he
    obtain ⟨cn, hcn, hpar, _⟩ := wf.child_ok hn (mem_mapDelete.mp he).1
    rw [hval e.2, if_neg (child_not_on_path hl hcn hpar), add_zero]
  rw [h1]
  simp [Topology.valOf, hc]

/-! ## Well-formedness is preserved -/

theorem pathToRoot_fuel {f : Nat} {h : Heap} {a : Addr} {l : List Addr}
    (e : pathToRoot f h a = some l) : pathToRoot h.length h a = some l :=
  pathToRoot_mono (pathToRoot_exact e)
    (length_le_of_nodup_lt (pathToRoot_nodup e) (pathToRoot_lt e))

theorem WellFormed.intro {h : Heap}
    (h1 : ∀ (a : Addr) (nd : NodeImpl) (p : Addr), h[a]? = some nd → nd.parent = some p →
      ∃ pn, h[p]? = some pn ∧ (nd.id, a) ∈ pn.children)
    (h2 : ∀ (p : Addr) (pn : NodeImpl) (e : NodeId × Addr), h[p]? = some pn →
      e ∈ pn.children → ∃ cn, h[e.2]? = some cn ∧ cn.parent = some p ∧ cn.id = e.1)
    (h3 : ∀ (p : Addr) (pn : NodeImpl), h[p]? = some pn → (pn.children.map Prod.fst).Nodup)
    (h4 : ∀ (a : Addr) (nd : NodeImpl), h[a]? = some nd → ∃ f l, pathToRoot f h a = some l)
    (h5 : ∀ (a : Addr) (nd : NodeImpl), h[a]? = some nd → IsDataNode nd = true →
      nd.children = []) : WellFormed h := by
  refine ⟨?_, ?_, ?_, ?_, ?_⟩
  · intro a _ nd hnd p hp
    obtain ⟨pn, hpn, hmem⟩ := h1 a nd p hnd hp
    exact ⟨pn, hpn, hmem⟩
  · intro p _ pn hpn e he
    obtain ⟨cn, hcn, hx⟩ := h2 p pn e hpn he
    exact ⟨cn, hcn, hx⟩
  · intro p _ pn hpn
    exact h3 p pn hpn
  · intro a ha
    obtain ⟨f, l, hl⟩ := h4 a h[a] (List.getElem?_eq_getElem ha)
    rw [pathToRoot_fuel hl]
    rfl
  · intro a _ nd hnd hd
    exact h5 a nd hnd hd

theorem IsDataNode_congr {a b : NodeImpl} (e : a.nodeType = b.nodeType) :
    IsDataNode a = IsDataNode b := by
  simp [IsDataNode, e]

/-- After a detach every parent chain still ends. -/
theorem path_after_detach {h h' : Heap} {n c : Addr} {chN : List (NodeId × Addr)}
    (rs : Reshaped h n c chN none h') {f : Nat} :
    ∀ {a : Addr} {l : List Addr}, pathToRoot f h a = some l →
      ∃ l', pathToRoot f h' a = some l' := by
  induction f with
  | zero => intro a l e; simp [pathToRoot] at e
  | succ g ih =>
    intro a l e
    obtain ⟨g', ad, hg, ha, hc⟩ := pathToRoot_cases e
    have hgg : g' = g := by omega
    subst hgg
    obtain ⟨ad', ha', _, _, hpar, _⟩ := rs.2 a ad ha
    by_cases hac : a = c
    · rw [if_pos hac] at hpar
      exact ⟨[a], pathToRoot_root ha' hpar⟩
    · rw [if_neg hac] at hpar
      rcases hc with ⟨hnone, _⟩ | ⟨p, t, hp, ht, _⟩
      · exact ⟨[a], pathToRoot_root ha' (hpar.trans hnone)⟩
      · obtain ⟨t', ht'⟩ := ih ht
        exact ⟨a :: t', by rw [pathToRoot_step ha' (hpar.trans hp), ht']; rfl⟩

/-- After an attach under a node whose chain is unchanged, every parent chain
still ends. -/
theorem path_after_attach {h h' : Heap} {n c : Addr} {chN : List (NodeId × Addr)}
    (rs : Reshaped h n c chN (some n) h') {k : Nat} {l : List Addr}
    (hl' : pathToRoot k h' n = some l) {f : Nat} :
    ∀ {a : Addr} {la : List Addr}, pathToRoot f h a = some la →
      ∃ l', pathToRoot (f + k) h' a = some l' := by
  induction f with
  | zero => intro a la e; simp [pathToRoot] at e
  | succ g ih =>
    intro a la e
    obtain ⟨g', ad, hg, ha, hc⟩ := pathToRoot_cases e
    have hgg : g' = g := by omega
    subst hgg
    obtain ⟨ad', ha', _, _, hpar, _⟩ := rs.2 a ad ha
    have hfu : g' + 1 + k = (g' + k) + 1 := by omega
    by_cases hac : a = c
    · rw [if_pos hac] at hpar
      refine ⟨a :: l, ?_⟩
      rw [hfu, pathToRoot_step ha' hpar, pathToRoot_mono hl' (Nat.le_add_left _ _)]
      rfl
    · rw [if_neg hac] at hpar
      rcases hc with ⟨hnone, _⟩ | ⟨p, t, hp, ht, _⟩
      · exact ⟨[a], by rw [hfu]; exact pathToRoot_root ha' (hpar.trans hnone)⟩
      · obtain ⟨t', ht'⟩ := ih ht
        exact ⟨a :: t', by rw [hfu, pathToRoot_step ha' (hpar.trans hp), ht']; rfl⟩

theorem link_wf {h h' : Heap} {n c : Addr} {nd cd : NodeImpl} {l : List Addr} {k : Nat}
    (wf : WellFormed h)
    (rs : Reshaped h n c (nd.children ++ [(cd.id, c)]) (some n) h')
    (hn : h[n]? = some nd) (hc : h[c]? = some cd) (hroot : cd.parent = none)
    (hl : pathToRoot k h n = some l) (hcl : c ∉ l)
    (habs : mapGet nd.children cd.id = none) (hleaf : IsDataNode nd = false) :
    WellFormed h' := by
  have hcn : c ≠ n := fun e => hcl (e ▸ pathToRoot_self_mem hl)
  apply WellFormed.intro
  · intro a ad' p ha' hp
    obtain ⟨ad, ha, hid, _, hpar, _⟩ := rs.back ha'
    by_cases hac : a = c
    · subst hac
      rw [if_pos rfl] at hpar
      rw [hpar] at hp
      obtain rfl := Option.some.inj hp
      rw [hc] at ha; obtain rfl := Option.some.inj ha
      obtain ⟨nd', hn', _, _, _, hch⟩ := rs.2 _ nd hn
      rw [if_pos rfl] at hch
      exact ⟨nd', hn', by rw [hch, hid]; simp⟩
    · rw [if_neg hac] at hpar
      obtain ⟨pn, hpn, hmem⟩ := wf.parent_listed ha (hpar ▸ hp)
      obtain ⟨pn', hpn', _, _, _, hch⟩ := rs.2 p pn hpn
      refine ⟨pn', hpn', ?_⟩
      rw [hch, hid]
      by_cases hpn2 : p = n
      · subst hpn2
        rw [hn] at hpn; obtain rfl := Option.some.inj hpn
        rw [if_pos rfl]
        exact List.mem_append_left _ hmem
      · rw [if_neg hpn2]; exact hmem
  · intro p pn' e hp' he
    obtain ⟨pn, hp, _, _, _, hch⟩ := rs.back hp'
    have hold : e ∈ pn.children → ∃ cn, h'[e.2]? = some cn ∧ cn.parent = some p ∧
        cn.id = e.1 := by
      intro hmem
      obtain ⟨cn, hcn, hpar, hid⟩ := wf.child_ok hp hmem
      have hec : e.2 ≠ c := by
        intro hec
        rw [hec, hc] at hcn
        obtain rfl := Option.some.inj hcn
        rw [hroot] at hpar
        simp at hpar
      obtain ⟨cn', hcn', hid', _, hpar', _⟩ := rs.2 e.2 cn hcn
      rw [if_neg hec] at hpar'
      exact ⟨cn', hcn', hpar'.trans hpar, hid'.trans hid⟩
    by_cases hpn2 : p = n
    · subst hpn2
      rw [hn] at hp; obtain rfl := Option.some.inj hp
      rw [if_pos rfl] at hch
      rw [hch] at he
      rcases List.mem_append.mp he with hmem | hnew
      · exact hold hmem
      · simp only [List.mem_singleton] at hnew
        subst hnew
        obtain ⟨cd', hc', hid', _, hpar', _⟩ := rs.2 c cd hc
        rw [if_pos rfl] at hpar'
        exact ⟨cd', hc', hpar', hid'⟩
    · rw [if_neg hpn2] at hch
      rw [hch] at he
      exact hold he
  · intro p pn' hp'
    obtain ⟨pn, hp, _, _, _, hch⟩ := rs.back hp'
    by_cases hpn2 : p = n
    · subst hpn2
      rw [hn] at hp; obtain rfl := Option.some.inj hp
      rw [if_pos rfl] at hch
      rw [hch, List.map_append, List.nodup_append]
      refine ⟨wf.keys_nodup hn, by simp, ?_⟩
      intro x hx hx'
      simp only [List.map_cons, List.map_nil, List.mem_singleton] at hx'
      subst hx'
      exact mapGet_none_iff.mp habs hx
    · rw [if_neg hpn2] at hch
      rw [hch]
      exact wf.keys_nodup hp
  · intro a ad' ha'
    obtain ⟨ad, ha, _⟩ := rs.back ha'
    obtain ⟨la, hla, _⟩ := wf.path ha
    have hl' : pathToRoot k h' n = some l := by
      apply pathToRoot_congr_on hl
      intro m hm
      have hmc : m ≠ c := fun e => hcl (e ▸ hm)
      have hlt := pathToRoot_lt hl m hm
      obtain ⟨md', hmd', _, _, hpar, _⟩ := rs.2 m h[m] (List.getElem?_eq_getElem hlt)
      rw [if_neg hmc] at hpar
      rw [hmd', List.getElem?_eq_getElem hlt]
      simp [hpar]
    obtain ⟨l', hl''⟩ := path_after_attach rs hl' hla
    exact ⟨_, l', hl''⟩
  · intro a ad' ha' hd
    obtain ⟨ad, ha, _, hty, _, hch⟩ := rs.back ha'
    rw [IsDataNode_congr hty] at hd
    by_cases han : a = n
    · subst han
      rw [hn] at ha; obtain rfl := Option.some.inj ha
      rw [hleaf] at hd
      simp at hd
    · rw [if_neg han] at hch
      rw [hch]
      exact wf.leaf ha hd

theorem unlink_wf {h h' : Heap} {n c : Addr} {nd cd : NodeImpl}
    (wf : WellFormed h)
    (rs : Reshaped h n c (mapDelete nd.children cd.id) none h')
    (hn : h[n]? = some nd) (hc : h[c]? = some cd) (hpar : cd.parent = some n)
    (hmem : (cd.id, c) ∈ nd.children) : WellFormed h' := by
  apply WellFormed.intro
  · intro a ad' p ha' hp
    obtain ⟨ad, ha, hid, _, hpar', _⟩ := rs.back ha'
    by_cases hac : a = c
    · rw [if_pos hac, hp] at hpar'
      simp at hpar'
    · rw [if_neg hac] at hpar'
      obtain ⟨pn, hpn, hm⟩ := wf.parent_listed ha (hpar' ▸ hp)
      obtain ⟨pn', hpn', _, _, _, hch⟩ := rs.2 p pn hpn
      refine ⟨pn', hpn', ?_⟩
      rw [hch, hid]
      by_cases hpn2 : p = n
      · subst hpn2
        rw [hn] at hpn; obtain rfl := Option.some.inj hpn
        rw [if_pos rfl]
        refine mem_mapDelete.mpr ⟨hm, ?_⟩
        intro hk
        have h1 := mapGet_of_mem (wf.keys_nodup hn) hm
        have h2 := mapGet_of_mem (wf.keys_nodup hn) hmem
        simp only at hk
        rw [hk, h2] at h1
        exact hac (Option.some.inj h1).symm
      · rw [if_neg hpn2]; exact hm
  · intro p pn' e hp' he
    obtain ⟨pn, hp, _, _, _, hch⟩ := rs.back hp'
    have hold : e ∈ pn.children → (p = n → e.1 ≠ cd.id) →
        ∃ cn, h'[e.2]? = some cn ∧ cn.parent = some p ∧ cn.id = e.1 := by
      intro hm hkey
      obtain ⟨cn, hcn, hpar2, hid⟩ := wf.child_ok hp hm
      have hec : e.2 ≠ c := by
        intro hec
        rw [hec, hc] at hcn
        obtain rfl := Option.some.inj hcn
        rw [hpar] at hpar2
        have hpn : p = n := (Option.some.inj hpar2).symm
        exact hkey hpn hid.symm
      obtain ⟨cn', hcn', hid', _, hpar', _⟩ := rs.2 e.2 cn hcn
      rw [if_neg hec] at hpar'
      exact ⟨cn', hcn', hpar'.trans hpar2, hid'.trans hid⟩
    by_cases hpn2 : p = n
    · subst hpn2
      rw [hn] at hp; obtain rfl := Option.some.inj hp
      rw [if_pos rfl] at hch
      rw [hch] at he
      exact hold (mem_mapDelete.mp he).1 (fun _ => (mem_mapDelete.mp he).2)
    · rw [if_neg hpn2] at hch
      rw [hch] at he
      exact hold he (fun e' => absurd e' hpn2)
  · intro p pn' hp'
    obtain ⟨pn, hp, _, _, _, hch⟩ := rs.back hp'
    by_cases hpn2 : p = n
    · subst hpn2
      rw [hn] at hp; obtain rfl := Option.some.inj hp
      rw [if_pos rfl] at hch
      rw [hch]
      exact mapDelete_keys_nodup _ (wf.keys_nodup hn)
    · rw [if_neg hpn2] at hch
      rw [hch]
      exact wf.keys_nodup hp
  · intro a ad' ha'
    obtain ⟨ad, ha, _⟩ := rs.back ha'
    obtain ⟨la, hla, _⟩ := wf.path ha
    obtain ⟨l', hl'⟩ := path_after_detach rs hla
    exact ⟨_, l', hl'⟩
  · intro a ad' ha' hd
    obtain ⟨ad, ha, _, hty, _, hch⟩ := rs.back ha'
    rw [IsDataNode_congr hty] at hd
    have := wf.leaf ha hd
    by_cases han : a = n
    · subst han
      rw [hn] at ha; obtain rfl := Option.some.inj ha
      rw [if_pos rfl] at hch
      rw [hch, this]
      rfl
    · rw [if_neg han] at hch
      rw [hch]
      exact this

/-! ## One attach, one detach -/

theorem selfAndAncestors_eq {h : Heap} {a : Addr} {l : List Addr}
    (e : pathToRoot (h.length + 1) h a = some l) : selfAndAncestors h a = l := by
  simp [selfAndAncestors, e]

theorem LinkChildNode_moved {h : Heap} {n c : Addr} {nd cd : NodeImpl} {l : List Addr}
    (hn : h[n]? = some nd) (hc : h[c]? = some cd)
    (hl : pathToRoot (h.length + 1) h n = some l) (hcl : c ∉ l)
    (habs : mapGet nd.children cd.id = none) :
    ∃ h5, LinkChildNode h n c = some h5 ∧
      Moved h n c cd l cd.maxVolumeCount cd.activeVolumeCount
        (mapSet nd.children cd.id c) (some n) h5 := by
  obtain ⟨h5, e5, hlen, h5c, hoff, hon⟩ := LinkChildNode_spec hn hc hl hcl habs
  refine ⟨h5, e5, hlen, h5c, hoff, ?_⟩
  intro m hm md hmd
  obtain ⟨v, hv, hle, _⟩ := hon m hm md hmd
  refine ⟨v, ?_, hle⟩
  rw [hv]
  by_cases hmn : m = n
  · subst hmn
    rw [hn] at hmd; obtain rfl := Option.some.inj hmd
    rfl
  · rw [if_neg hmn, if_neg hmn]

theorem UnlinkChildNode_moved {h : Heap} {n c : Addr} {nd cd : NodeImpl} {l : List Addr}
    {nodeId : NodeId}
    (hn : h[n]? = some nd) (hget : mapGet nd.children nodeId = some c) (hc : h[c]? = some cd)
    (hl : pathToRoot (h.length + 1) h n = some l) (hcl : c ∉ l) :
    ∃ h3, UnlinkChildNode h n nodeId = some h3 ∧
      Moved h n c cd l (-cd.maxVolumeCount) (-cd.activeVolumeCount)
        (mapDelete nd.children cd.id) none h3 := by
  obtain ⟨h3, e3, hlen, h3c, hoff, hon⟩ := UnlinkChildNode_spec hn hget hc hl hcl
  refine ⟨h3, e3, hlen, h3c, hoff, ?_⟩
  intro m hm md hmd
  refine ⟨md.maxVolumeId, ?_, le_refl _⟩
  rw [hon m hm md hmd]
  by_cases hmn : m = n
  · subst hmn
    rw [hn] at hmd; obtain rfl := Option.some.inj hmd
    rfl
  · rw [if_neg hmn, if_neg hmn]

/-- What a well-formed heap says about a child found in a children map. -/
theorem WellFormed.child_of_get {h : Heap} (wf : WellFormed h) {n c : Addr} {nd : NodeImpl}
    {nodeId : NodeId} (hn : h[n]? = some nd) (hget : mapGet nd.children nodeId = some c) :
    ∃ cd l, h[c]? = some cd ∧ cd.parent = some n ∧ cd.id = nodeId ∧
      (cd.id, c) ∈ nd.children ∧ pathToRoot (h.length + 1) h n = some l ∧ c ∉ l := by
  have hmem := mapGet_some_mem hget
  obtain ⟨cd, hcd, hpar, hid⟩ := wf.child_ok hn hmem
  obtain ⟨l, _, hl⟩ := wf.path hn
  refine ⟨cd, l, hcd, hpar, hid, ?_, hl, child_not_on_path hl hcd hpar⟩
  simp only at hid
  rw [hid]
  exact hmem

theorem link_step {h : Heap} {n c : Addr} {nd cd : NodeImpl}
    (wf : WellFormed h) (inv : AggInv h) (hn : h[n]? = some nd) (hc : h[c]? = some cd)
    (hleaf : IsDataNode nd = false) (hroot : cd.parent = none)
    (hcl : c ∉ selfAndAncestors h n) :
    ∃ h', LinkChildNode h n c = some h' ∧ WellFormed h' ∧ AggInv h' := by
  by_cases habs : mapGet nd.children cd.id = none
  · obtain ⟨l, _, hl⟩ := wf.path hn
    rw [selfAndAncestors_eq hl] at hcl
    obtain ⟨h', e', mv⟩ := LinkChildNode_moved hn hc hl hcl habs
    have rs := mv.reshaped hc hcl (pathToRoot_self_mem hl)
    have rs' := rs
    rw [mapSet_absent c habs] at rs'
    refine ⟨h', e', link_wf wf rs' hn hc hroot hl hcl habs hleaf, ?_⟩
    intro a _ ad' ha' hd
    obtain ⟨ad, ha, _, hty, _, _⟩ := rs.back ha'
    have hd0 : IsDataNode ad = false := by rw [← IsDataNode_congr hty]; exact hd
    obtain ⟨i1, i2⟩ := inv a (lt_of_lookup ha) ad ha hd0
    by_cases han : a = n
    · subst han
      rw [hn] at ha; obtain rfl := Option.some.inj ha
      exact ⟨mv.agg_link_target wf hl hn hc hcl habs (f := fun x => x.maxVolumeCount)
          (fun _ _ _ => rfl) (fun _ _ => rfl) ha' i1,
        mv.agg_link_target wf hl hn hc hcl habs (f := fun x => x.activeVolumeCount)
          (fun _ _ _ => rfl) (fun _ _ => rfl) ha' i2⟩
    · exact ⟨mv.agg_off_target wf hl hc hcl (f := fun x => x.maxVolumeCount)
          (d := cd.maxVolumeCount) (fun _ _ _ => rfl) (fun _ _ => rfl) han ha ha' i1,
        mv.agg_off_target wf hl hc hcl (f := fun x => x.activeVolumeCount)
          (d := cd.activeVolumeCount) (fun _ _ _ => rfl) (fun _ _ => rfl) han ha ha' i2⟩
  · refine ⟨h, ?_, wf, inv⟩
    simp [LinkChildNode, hn, hc, habs]

theorem unlink_step {h : Heap} {n : Addr} {nd : NodeImpl} {nodeId : NodeId}
    (wf : WellFormed h) (inv : AggInv h) (hn : h[n]? = some nd)
    (hpres : (mapGet nd.children nodeId).isSome = true) :
    ∃ h', UnlinkChildNode h n nodeId = some h' ∧ WellFormed h' ∧ AggInv h' := by
  obtain ⟨c, hget⟩ := Option.isSome_iff_exists.mp hpres
  obtain ⟨cd, l, hc, hpar, _, hmem, hl, hcl⟩ := wf.child_of_get hn hget
  obtain ⟨h', e', mv⟩ := UnlinkChildNode_moved hn hget hc hl hcl
  have rs := mv.reshaped hc hcl (pathToRoot_self_mem hl)
  refine ⟨h', e', unlink_wf wf rs hn hc hpar hmem, ?_⟩
  intro a _ ad' ha' hd
  obtain ⟨ad, ha, _, hty, _, _⟩ := rs.back ha'
  have hd0 : IsDataNode ad = false := by rw [← IsDataNode_congr hty]; exact hd
  obtain ⟨i1, i2⟩ := inv a (lt_of_lookup ha) ad ha hd0
  by_cases han : a = n
  · subst han
    rw [hn] at ha; obtain rfl := Option.some.inj ha
    exact ⟨mv.agg_unlink_target wf hl hn hc hcl hmem (f := fun x => x.maxVolumeCount)
        (fun _ _ _ => rfl) (fun _ _ => rfl) ha' i1,
      mv.agg_unlink_target wf hl hn hc hcl hmem (f := fun x => x.activeVolumeCount)
        (fun _ _ _ => rfl) (fun _ _ => rfl) ha' i2⟩
  · exact ⟨mv.agg_off_target wf hl hc hcl (f := fun x => x.maxVolumeCount)
        (d := -cd.maxVolumeCount) (fun _ _ _ => rfl) (fun _ _ => rfl) han ha ha' i1,
      mv.agg_off_target wf hl hc hcl (f := fun x => x.activeVolumeCount)
        (d := -cd.activeVolumeCount) (fun _ _ _ => rfl) (fun _ _ => rfl) han ha ha' i2⟩

/-! ## Claims -/

/-- C1 (aggregate invariant).  Start from a well-formed heap in which every node
that is not a storage node has `maxVolumeCount` and `activeVolumeCount` equal
to the sums over its children.  Run any sequence of `LinkChildNode` calls (on a
non-leaf target, attaching a parentless node that is neither the target nor one
of its ancestors) and `UnlinkChildNode` calls (on an identifier present among
the target's children).  Then every prefix of the sequence runs to completion,
and after it the heap is again well-formed and satisfies the aggregate
invariant. -/
theorem aggregate_invariant_after_each_call (ops : List Op) :
    ∀ (h : Heap), WellFormed h → AggInv h → AdmissibleSeq h ops →
      ∀ k, k ≤ ops.length →
        ∃ h', runOps h (ops.take k) = some h' ∧ WellFormed h' ∧ AggInv h' := by
  induction ops with
  | nil =>
    intro h wf inv _ k _
    exact ⟨h, by simp [runOps], wf, inv⟩
  | cons op rest ih =>
    intro h wf inv adm k hk
    cases k with
    | zero => exact ⟨h, by simp [runOps], wf, inv⟩
    | succ j =>
      obtain ⟨hadm, hrest⟩ := adm
      have hstep : ∃ h1, op.run h = some h1 ∧ WellFormed h1 ∧ AggInv h1 := by
        cases op with
        | link n c =>
          obtain ⟨nd, hn, cd, hc, hleaf, hroot, hcl⟩ := hadm
          exact link_step wf inv hn hc hleaf hroot hcl
        | unlink n nodeId =>
          obtain ⟨nd, hn, hpres⟩ := hadm
          exact unlink_step wf inv hn hpres
      obtain ⟨h1, e1, wf1, inv1⟩ := hstep
      have hj : j ≤ rest.length := by simpa using hk
      obtain ⟨h', e', wf', inv'⟩ := ih h1 wf1 inv1 (hrest h1 e1) j hj
      exact ⟨h', by simp [runOps, e1, e'], wf', inv'⟩

theorem aggregate_invariant_after_each_call_witness :
    WellFormed loose ∧ AggInv loose ∧
    AdmissibleSeq loose [Op.link 1 2, Op.link 0 1, Op.link 1 3, Op.unlink 1 "d1"] ∧
    ∃ h', runOps loose
        ([Op.link 1 2, Op.link 0 1, Op.link 1 3, Op.unlink 1 "d1"].take 4) = some h' ∧
      WellFormed h' ∧ AggInv h' :=
  ⟨by decide, by decide, by decide,
    aggregate_invariant_after_each_call _ loose (by decide) (by decide) (by decide) 4
      (by decide)⟩

/-! ## Frame facts that need no well-formedness -/

theorem climb_view {α : Type} (shape : NodeImpl → α) {g : NodeImpl → NodeImpl}
    (hg : ∀ nd, shape (g nd) = shape nd) {f : Nat} :
    ∀ {h h' : Heap} {n : Addr}, climb g f h n = some h' →
      ∀ m : Addr, (h'[m]?).map shape = (h[m]?).map shape := by
  induction f with
  | zero => intro h h' n e; simp [climb] at e
  | succ k ih =>
    intro h h' n e m
    cases hn : h[n]? with
    | none => simp [climb, hn] at e
    | some nd =>
      have hset : ((h.set n (g nd))[m]?).map shape = (h[m]?).map shape := by
        by_cases hm : n = m
        · subst hm; rw [lookup_set_self hn, hn]; simp [hg]
        · rw [lookup_set_ne hm]
      cases hp : nd.parent with
      | none =>
        simp only [climb, hn, hp, Option.some.injEq] at e
        subst e
        exact hset
      | some p =>
        simp only [climb, hn, hp] at e
        rw [ih e m, hset]

theorem UpAdjustMaxVolumeId_view {α : Type} (shape : NodeImpl → α)
    (hs : ∀ v nd, shape (setMaxId v nd) = shape nd) {vid : VolumeId} {f : Nat} :
    ∀ {h h' : Heap} {n : Addr}, UpAdjustMaxVolumeId f h n vid = some h' →
      ∀ m : Addr, (h'[m]?).map shape = (h[m]?).map shape := by
  induction f with
  | zero => intro h h' n e; simp [UpAdjustMaxVolumeId] at e
  | succ k ih =>
    intro h h' n e m
    cases hn : h[n]? with
    | none => simp [UpAdjustMaxVolumeId, hn] at e
    | some nd =>
      by_cases hlt : nd.maxVolumeId < vid
      · have hset : ((h.set n (setMaxId vid nd))[m]?).map shape = (h[m]?).map shape := by
          by_cases hm : n = m
          · subst hm; rw [lookup_set_self hn, hn]; simp [hs]
          · rw [lookup_set_ne hm]
        cases hp : nd.parent with
        | none =>
          simp only [UpAdjustMaxVolumeId, hn, hlt, if_true, hp, Option.some.injEq] at e
          subst e
          simpa [setMaxId, hp] using hset
        | some p =>
          simp only [UpAdjustMaxVolumeId, hn, hlt, if_true, hp] at e
          rw [ih e m]
          simpa [setMaxId, hp] using hset
      · simp only [UpAdjustMaxVolumeId, hn, hlt, if_false, Option.some.injEq] at e
        subst e
        rfl

theorem setParent_shape {h h' : Heap} {a : Addr} {p : Option Addr}
    (e : setParent h a p = some h') (m : Addr) :
    (h'[m]?).map shape = (h[m]?).map shape := by
  cases ha : h[a]? with
  | none => simp [setParent, ha] at e
  | some ad =>
    rw [setParent_eq ha] at e
    obtain rfl := Option.some.inj e
    by_cases hm : a = m
    · subst hm; rw [lookup_set_self ha, ha]; rfl
    · rw [lookup_set_ne hm]

/-- Whenever the body of `LinkChildNode` returns, the identifiers, node types
and children maps are those of the heap right after the insertion. -/
theorem linkBody_shape {h h5 : Heap} {n c : Addr} {nd cd : NodeImpl}
    (hn : h[n]? = some nd) (hc : h[c]? = some cd) (e : linkBody h n c = some h5) (m : Addr) :
    (h5[m]?).map shape =
      ((h.set n (withChildren (mapSet nd.children cd.id c) nd))[m]?).map shape := by
  simp only [linkBody, hn, hc, UpAdjustMaxVolumeCountDelta_eq_climb,
    UpAdjustActiveVolumeCountDelta_eq_climb] at e
  split at e
  · simp at e
  · split at e
    · simp at e
    · rename_i h2 e2
      split at e
      · simp at e
      · split at e
        · simp at e
        · rename_i h3 e3
          split at e
          · simp at e
          · split at e
            · simp at e
            · rename_i h4 e4
              rw [setParent_shape e m, climb_view shape (g := addActive _) (fun _ => rfl) e4 m,
                UpAdjustMaxVolumeId_view shape (fun _ _ => rfl) e3 m,
                climb_view shape (g := addMax _) (fun _ => rfl) e2 m]
              rfl

theorem mapGet_mapSet (ch : List (NodeId × Addr)) (k : NodeId) (v : Addr) :
    mapGet (mapSet ch k v) k ≠ none := by
  rw [Ne, mapGet_none_iff]
  simp [mapSet]

/-- C2 (idempotent attach).  If the children of `n` already hold an entry under
the identifier of `c`, then `n.LinkChildNode(c)` returns and leaves the whole
heap as it was: every counter, every children map and every back-reference.
In particular, after one `LinkChildNode(c)` that returned, a second
`LinkChildNode(c)` returns the state of the first. -/
theorem link_existing_identifier_is_noop (h : Heap) (n c : Addr) :
    (∀ nd cd, h[n]? = some nd → h[c]? = some cd → mapGet nd.children cd.id ≠ none →
      LinkChildNode h n c = some h) ∧
    (∀ h1, LinkChildNode h n c = some h1 → LinkChildNode h1 n c = some h1) := by
  have part1 : ∀ (g : Heap) (nd cd : NodeImpl), g[n]? = some nd → g[c]? = some cd →
      mapGet nd.children cd.id ≠ none → LinkChildNode g n c = some g := by
    intro g nd cd hn hc hpres
    simp [LinkChildNode, hn, hc, hpres]
  refine ⟨part1 h, ?_⟩
  intro h1 e
  cases hn : h[n]? with
  | none => simp [LinkChildNode, hn] at e
  | some nd =>
    cases hc : h[c]? with
    | none => simp [LinkChildNode, hn, hc] at e
    | some cd =>
      by_cases habs : mapGet nd.children cd.id = none
      · simp only [LinkChildNode, hn, hc, habs, if_true] at e
        cases hb : linkBody h n c with
        | none => simp [hb] at e
        | some h5 =>
          have e5 : h5 = h1 := by
            rw [hb] at e
            cases hpr : printlnNodes h5 n c with
            | none => simp [hpr] at e
            | some u => simpa [hpr] using e
          subst e5
          have shn := linkBody_shape hn hc hb n
          have shc := linkBody_shape hn hc hb c
          rw [lookup_set_self hn] at shn
          have hcid : ((h.set n (withChildren (mapSet nd.children cd.id c) nd))[c]?).map
              (fun x : NodeImpl => x.id) = some cd.id := by
            by_cases hnc : n = c
            · subst hnc
              rw [lookup_set_self hn]
              rw [hn] at hc
              obtain rfl := Option.some.inj hc
              rfl
            · rw [lookup_set_ne hnc, hc]; rfl
          cases hn5 : h5[n]? with
          | none => rw [hn5] at shn; simp at shn
          | some nd5 =>
            cases hc5 : h5[c]? with
            | none =>
              rw [hc5] at shc
              cases hx : (h.set n (withChildren (mapSet nd.children cd.id c) nd))[c]? with
              | none => rw [hx] at hcid; simp at hcid
              | some x => rw [hx] at shc; simp at shc
            | some cd5 =>
              rw [hn5] at shn
              rw [hc5] at shc
              have hch : nd5.children = mapSet nd.children cd.id c := by
                have := Option.some.inj shn
                exact congrArg (fun s => s.2.1) this
              have hid : cd5.id = cd.id := by
                cases hx : (h.set n (withChildren (mapSet nd.children cd.id c) nd))[c]? with
                | none => rw [hx] at hcid; simp at hcid
                | some x =>
                  rw [hx] at shc hcid
                  have h1 := congrArg (fun s => s.1) (Option.some.inj shc)
                  have h2 := Option.some.inj hcid
                  exact h1.trans h2
              apply part1 h5 nd5 cd5 hn5 hc5
              rw [hch, hid]
              exact mapGet_mapSet _ _ _
      · have := part1 h nd cd hn hc habs
        rw [this] at e
        obtain rfl := Option.some.inj e
        exact this

theorem link_existing_identifier_is_noop_witness :
    (mapGet [("d1", 2)] "d1" ≠ none ∧
      LinkChildNode [mkNode "r1" 0 0 0 "Rack" |> withChildren [("d1", 2)],
        mkNode "d1" 1 4 7 "DataNode", mkNode "d1" 5 9 8 "DataNode"] 0 1 =
        some [mkNode "r1" 0 0 0 "Rack" |> withChildren [("d1", 2)],
        mkNode "d1" 1 4 7 "DataNode", mkNode "d1" 5 9 8 "DataNode"]) ∧
    ∃ h1, LinkChildNode loose 1 2 = some h1 ∧ LinkChildNode h1 1 2 = some h1 :=
  ⟨⟨by decide,
    (link_existing_identifier_is_noop _ 0 1).1 _ _ rfl rfl (by decide)⟩,
   (Option.isSome_iff_exists.mp (show (LinkChildNode loose 1 2).isSome = true by decide)).elim
     (fun h1 e => ⟨h1, e, (link_existing_identifier_is_noop loose 1 2).2 h1 e⟩)⟩

theorem Moved.chain_kept {h h' : Heap} {n c : Addr} {cd : NodeImpl} {l : List Addr}
    {dMax dAct : Int} {chN : List (NodeId × Addr)} {pc : Option Addr} {k : Nat}
    (mv : Moved h n c cd l dMax dAct chN pc h') (hl : pathToRoot k h n = some l) :
    pathToRoot k h' n = some l := by
  obtain ⟨_, _, _, hon⟩ := mv
  apply pathToRoot_congr_on hl
  intro m hm
  have hlt := pathToRoot_lt hl m hm
  obtain ⟨v, hv, _⟩ := hon m hm h[m] (List.getElem?_eq_getElem hlt)
  rw [hv, List.getElem?_eq_getElem hlt]
  rfl

theorem mapGet_append_absent {ch : List (NodeId × Addr)} {k : NodeId} (v : Addr)
    (e : mapGet ch k = none) : mapGet (ch ++ [(k, v)]) k = some v := by
  induction ch with
  | nil => simp [mapGet]
  | cons x xs ih =>
    by_cases hx : x.1 = k
    · simp [mapGet, hx] at e
    · simp only [mapGet, hx, if_false] at e
      simp only [List.cons_append, mapGet, hx, if_false]
      exact ih e

theorem mapDelete_append_absent {ch : List (NodeId × Addr)} {k : NodeId} (v : Addr)
    (e : mapGet ch k = none) : mapDelete (ch ++ [(k, v)]) k = ch := by
  have := mapDelete_absent e
  simp only [mapDelete] at this ⊢
  rw [List.filter_append, this]
  simp

/-- C4 (detaching an absent identifier), as the code behaves: when `nodeId` is
not a key of the children of `n`, `n.UnlinkChildNode(nodeId)` does not complete.
Line 140 calls `setParent` on the nil value that the lookup returned, before
the nil test of line 141. -/
theorem unlink_absent_identifier_panics (h : Heap) (n : Addr) (nd : NodeImpl)
    (nodeId : NodeId) (hn : h[n]? = some nd) (habs : mapGet nd.children nodeId = none) :
    UnlinkChildNode h n nodeId = none := by
  simp [UnlinkChildNode, hn, habs]

theorem unlink_absent_identifier_panics_witness :
    mapGet (mkNode "r1" 0 0 0 "Rack").children "zz" = none ∧
      UnlinkChildNode loose 1 "zz" = none :=
  ⟨by decide, unlink_absent_identifier_panics loose 1 _ "zz" rfl (by decide)⟩

/-- C6 (detach postcondition).  In a well-formed heap, let `nodeId` be present
among the children of `n` with child `c`.  Then `n.UnlinkChildNode(nodeId)`
returns; afterwards `nodeId` is no key of the children of `n`, `c` has no
parent, `n` and every ancestor of `n` have `maxVolumeCount` lowered by exactly
`c.maxVolumeCount` and `activeVolumeCount` lowered by exactly
`c.activeVolumeCount`, and the `maxVolumeId` of every node is unchanged. -/
theorem detach_postcondition (h : Heap) (n c : Addr) (nodeId : NodeId) (nd cd : NodeImpl)
    (wf : WellFormed h) (hn : h[n]? = some nd) (hget : mapGet nd.children nodeId = some c)
    (hc : h[c]? = some cd) :
    ∃ h', UnlinkChildNode h n nodeId = some h' ∧
      (∃ nd', h'[n]? = some nd' ∧ mapGet nd'.children nodeId = none) ∧
      (∃ cd', h'[c]? = some cd' ∧ cd'.parent = none) ∧
      (∀ a ∈ selfAndAncestors h n, ∀ ad : NodeImpl, h[a]? = some ad →
        ∃ ad', h'[a]? = some ad' ∧
          ad'.maxVolumeCount = ad.maxVolumeCount - cd.maxVolumeCount ∧
          ad'.activeVolumeCount = ad.activeVolumeCount - cd.activeVolumeCount) ∧
      (∀ (a : Addr) (ad : NodeImpl), h[a]? = some ad →
        ∃ ad', h'[a]? = some ad' ∧ ad'.maxVolumeId = ad.maxVolumeId) := by
  obtain ⟨cd0, l, hc0, _, hid, _, hl, hcl⟩ := wf.child_of_get hn hget
  rw [hc] at hc0
  obtain rfl := Option.some.inj hc0
  obtain ⟨h3, e3, _, h3c, hoff, hon⟩ := UnlinkChildNode_spec hn hget hc hl hcl
  rw [selfAndAncestors_eq hl]
  refine ⟨h3, e3, ?_, ⟨_, h3c, rfl⟩, ?_, ?_⟩
  · refine ⟨_, hon n (pathToRoot_self_mem hl) nd hn, ?_⟩
    show mapGet (if n = n then mapDelete nd.children cd.id else nd.children) nodeId = none
    rw [if_pos rfl, hid]
    exact mapGet_mapDelete _ _
  · intro a ha ad had
    exact ⟨_, hon a ha ad had, by simp [bumped, sub_eq_add_neg],
      by simp [bumped, sub_eq_add_neg]⟩
  · intro a ad had
    by_cases hal : a ∈ l
    · exact ⟨_, hon a hal ad had, rfl⟩
    · by_cases hac : a = c
      · subst hac
        rw [hc] at had
        obtain rfl := Option.some.inj had
        exact ⟨_, h3c, rfl⟩
      · exact ⟨ad, by rw [hoff a hal hac, had], rfl⟩

theorem detach_postcondition_witness :
    WellFormed sample ∧
    ∃ h', UnlinkChildNode sample 1 "d1" = some h' ∧
      (∃ nd', h'[1]? = some nd' ∧ mapGet nd'.children "d1" = none) ∧
      (∃ cd', h'[2]? = some cd' ∧ cd'.parent = none) ∧
      (∀ a ∈ selfAndAncestors sample 1, ∀ ad : NodeImpl, sample[a]? = some ad →
        ∃ ad', h'[a]? = some ad' ∧
          ad'.maxVolumeCount = ad.maxVolumeCount - 4 ∧
          ad'.activeVolumeCount = ad.activeVolumeCount - 1) ∧
      (∀ (a : Addr) (ad : NodeImpl), sample[a]? = some ad →
        ∃ ad', h'[a]? = some ad' ∧ ad'.maxVolumeId = ad.maxVolumeId) :=
  ⟨by decide,
    detach_postcondition sample 1 2 "d1" _ (mkNode "d1" 1 4 7 "DataNode" |> withParent (some 1))
      (by decide) rfl (by decide) rfl⟩

theorem chainMono_of_children {h : Heap} (wf : WellFormed h) (mono : MaxIdAboveChildren h)
    (l : List Addr) : ChainMono h l := by
  intro x _ p _ xd pd hxd hxp hpd
  obtain ⟨pn, hpn, hmem⟩ := wf.parent_listed hxd hxp
  rw [hpd] at hpn
  obtain rfl := Option.some.inj hpn
  exact mono p (lt_of_lookup hpd) pd hpd _ hmem xd hxd

/-- C5 as stated fails: a rack without parent and without children is itself a
parentless node whose identifier is not among its own children, yet attaching
it to itself does not complete.  The body makes the node its own parent, and
the `String` call of the `Println` that follows never returns. -/
theorem attach_root_to_itself_diverges :
    WellFormed solo ∧ MaxIdAboveChildren solo ∧
    (∃ nd, solo[0]? = some nd ∧ nd.parent = none ∧ mapGet nd.children nd.id = none) ∧
    (linkBody solo 0 0).map (fun h1 => h1.map (fun nd => nd.parent)) = some [some 0] ∧
    LinkChildNode solo 0 0 = none := by
  refine ⟨by decide, by decide, ⟨_, rfl, by decide, by decide⟩, by decide, by decide⟩

/-- C5, amended (attach postcondition).  In a well-formed heap in which every
node has a `maxVolumeId` at least that of its children, let `c` be a parentless
node that is neither `n` nor an ancestor of `n` and whose identifier is not
among the children of `n`.  Then `n.LinkChildNode(c)` returns; afterwards `c` is
stored in the children of `n` under its identifier, the parent of `c` is `n`,
and `n` and every ancestor of `n` have `maxVolumeCount` raised by exactly
`c.maxVolumeCount`, `activeVolumeCount` raised by exactly
`c.activeVolumeCount`, and `maxVolumeId` equal to the maximum of its previous
value and `c.maxVolumeId`. -/
theorem attach_postcondition (h : Heap) (n c : Addr) (nd cd : NodeImpl)
    (wf : WellFormed h) (mono : MaxIdAboveChildren h)
    (hn : h[n]? = some nd) (hc : h[c]? = some cd) (_hroot : cd.parent = none)
    (habs : mapGet nd.children cd.id = none) (hcl : c ∉ selfAndAncestors h n) :
    ∃ h', LinkChildNode h n c = some h' ∧
      (∃ nd', h'[n]? = some nd' ∧ mapGet nd'.children cd.id = some c) ∧
      (∃ cd', h'[c]? = some cd' ∧ cd'.parent = some n ∧ cd'.id = cd.id) ∧
      (∀ a ∈ selfAndAncestors h n, ∀ ad : NodeImpl, h[a]? = some ad →
        ∃ ad', h'[a]? = some ad' ∧
          ad'.maxVolumeCount = ad.maxVolumeCount + cd.maxVolumeCount ∧
          ad'.activeVolumeCount = ad.activeVolumeCount + cd.activeVolumeCount ∧
          ad'.maxVolumeId = max ad.maxVolumeId cd.maxVolumeId) := by
  obtain ⟨l, _, hl⟩ := wf.path hn
  rw [selfAndAncestors_eq hl] at hcl ⊢
  obtain ⟨h5, e5, _, h5c, _, hon⟩ := LinkChildNode_spec hn hc hl hcl habs
  refine ⟨h5, e5, ?_, ⟨_, h5c, rfl, rfl⟩, ?_⟩
  · obtain ⟨v, hv, _⟩ := hon n (pathToRoot_self_mem hl) nd hn
    refine ⟨_, hv, ?_⟩
    show mapGet (if n = n then mapSet nd.children cd.id c else nd.children) cd.id = some c
    rw [if_pos rfl, mapSet_absent c habs]
    exact mapGet_append_absent c habs
  · intro a ha ad had
    obtain ⟨v, hv, _, _, _, hmax⟩ := hon a ha ad had
    exact ⟨_, hv, rfl, rfl, hmax (chainMono_of_children wf mono l)⟩

theorem attach_postcondition_witness :
    WellFormed sample ∧ MaxIdAboveChildren sample ∧ 4 ∉ selfAndAncestors sample 1 ∧
    ∃ h', LinkChildNode sample 1 4 = some h' ∧
      (∃ nd', h'[1]? = some nd' ∧ mapGet nd'.children "d3" = some 4) ∧
      (∃ cd', h'[4]? = some cd' ∧ cd'.parent = some 1 ∧ cd'.id = "d3") ∧
      (∀ a ∈ selfAndAncestors sample 1, ∀ ad : NodeImpl, sample[a]? = some ad →
        ∃ ad', h'[a]? = some ad' ∧
          ad'.maxVolumeCount = ad.maxVolumeCount + 5 ∧
          ad'.activeVolumeCount = ad.activeVolumeCount + 2 ∧
          ad'.maxVolumeId = max ad.maxVolumeId 9) :=
  ⟨by decide, by decide, by decide,
    attach_postcondition sample 1 4 _ (mkNode "d3" 2 5 9 "DataNode")
      (by decide) (by decide) rfl rfl rfl (by decide) (by decide)⟩

/-- C3 as stated fails: for a rack without parent and without children, attached
to itself, the attach does not complete; and the state its body leaves, once the
detach has run on it, holds the counters 0 and 0 where they were 1 and 1. -/
theorem attach_detach_of_root_does_not_restore :
    WellFormed solo ∧
    (∃ nd, solo[0]? = some nd ∧ nd.parent = none ∧ mapGet nd.children nd.id = none) ∧
    LinkChildNode solo 0 0 = none ∧
    solo.map (fun nd => (nd.maxVolumeCount, nd.activeVolumeCount)) = [(1, 1)] ∧
    ((linkBody solo 0 0).bind (fun h1 => UnlinkChildNode h1 0 "r")).map
      (fun h2 => h2.map (fun nd => (nd.maxVolumeCount, nd.activeVolumeCount))) =
      some [(0, 0)] := by
  refine ⟨by decide, ⟨_, rfl, by decide, by decide⟩, by decide, by decide, by decide⟩

/-- C3, amended (detach reversal).  In a well-formed heap let `c` be a
parentless node that is neither `n` nor an ancestor of `n` and whose identifier
is not among the children of `n`.  Then `n.LinkChildNode(c)` followed by
`n.UnlinkChildNode(c.Id())` returns; afterwards every node, in particular `n`
and each of its ancestors, has its `maxVolumeCount` and `activeVolumeCount` of
before the attach, the children map of `n` is the one of before, `c` has no
parent, and the `maxVolumeId` of every node is at least its value of before. -/
theorem attach_then_detach_restores (h : Heap) (n c : Addr) (nd cd : NodeImpl)
    (wf : WellFormed h) (hn : h[n]? = some nd) (hc : h[c]? = some cd)
    (_hroot : cd.parent = none) (habs : mapGet nd.children cd.id = none)
    (hcl : c ∉ selfAndAncestors h n) :
    ∃ h1 h2, LinkChildNode h n c = some h1 ∧ UnlinkChildNode h1 n cd.id = some h2 ∧
      (∀ (a : Addr) (ad : NodeImpl), h[a]? = some ad →
        ∃ ad2, h2[a]? = some ad2 ∧ ad2.maxVolumeCount = ad.maxVolumeCount ∧
          ad2.activeVolumeCount = ad.activeVolumeCount ∧
          ad.maxVolumeId ≤ ad2.maxVolumeId) ∧
      (∃ nd2, h2[n]? = some nd2 ∧ nd2.children = nd.children) ∧
      (∃ cd2, h2[c]? = some cd2 ∧ cd2.parent = none) := by
  obtain ⟨l, _, hl⟩ := wf.path hn
  rw [selfAndAncestors_eq hl] at hcl
  obtain ⟨h1, e1, mv⟩ := LinkChildNode_moved hn hc hl hcl habs
  have hl1 : pathToRoot (h1.length + 1) h1 n = some l := by
    rw [mv.1]; exact mv.chain_kept hl
  obtain ⟨hlen, h1c, hoff, hon⟩ := mv
  have hnl := pathToRoot_self_mem hl
  obtain ⟨v, hv, _⟩ := hon n hnl nd hn
  rw [if_pos rfl] at hv
  have hget : mapGet (bumped cd.maxVolumeCount cd.activeVolumeCount v
      (mapSet nd.children cd.id c) nd).children cd.id = some c := by
    show mapGet (mapSet nd.children cd.id c) cd.id = some c
    rw [mapSet_absent c habs]
    exact mapGet_append_absent c habs
  obtain ⟨h2, e2, _, h2c, hoff2, hon2⟩ := UnlinkChildNode_spec hv hget h1c hl1 hcl
  refine ⟨h1, h2, e1, e2, ?_, ?_, ⟨_, h2c, rfl⟩⟩
  · intro a ad had
    by_cases hal : a ∈ l
    · obtain ⟨w, hw, hle⟩ := hon a hal ad had
      refine ⟨_, hon2 a hal _ hw, ?_, ?_, hle⟩
      · simp [bumped, withParent]
      · simp [bumped, withParent]
    · by_cases hac : a = c
      · subst hac
        rw [hc] at had
        obtain rfl := Option.some.inj had
        exact ⟨_, h2c, rfl, rfl, le_refl _⟩
      · exact ⟨ad, by rw [hoff2 a hal hac, hoff a hal hac, had], rfl, rfl, le_refl _⟩
  · refine ⟨_, hon2 n hnl _ hv, ?_⟩
    show (if n = n then mapDelete (mapSet nd.children cd.id c) cd.id
      else mapSet nd.children cd.id c) = nd.children
    rw [if_pos rfl, mapSet_absent c habs]
    exact mapDelete_append_absent c habs

theorem attach_then_detach_restores_witness :
    WellFormed sample ∧ 4 ∉ selfAndAncestors sample 1 ∧
    ∃ h1 h2, LinkChildNode sample 1 4 = some h1 ∧ UnlinkChildNode h1 1 "d3" = some h2 ∧
      (∀ (a : Addr) (ad : NodeImpl), sample[a]? = some ad →
        ∃ ad2, h2[a]? = some ad2 ∧ ad2.maxVolumeCount = ad.maxVolumeCount ∧
          ad2.activeVolumeCount = ad.activeVolumeCount ∧
          ad.maxVolumeId ≤ ad2.maxVolumeId) ∧
      (∃ nd2, h2[1]? = some nd2 ∧ nd2.children = [("d1", 2), ("d2", 3)]) ∧
      (∃ cd2, h2[4]? = some cd2 ∧ cd2.parent = none) :=
  ⟨by decide, by decide,
    attach_then_detach_restores sample 1 4 _ (mkNode "d3" 2 5 9 "DataNode")
      (by decide) rfl rfl rfl (by decide) (by decide)⟩

/-! ## The order of `maxVolumeId` along parent chains -/

theorem ancestors_of_path {h : Heap} {a : Addr} {l : List Addr}
    (e : pathToRoot (h.length + 1) h a = some l) : ancestors h a = l.tail := by
  simp [ancestors, selfAndAncestors_eq e]

theorem localMono_of_desc {h : Heap} (wf : WellFormed h) (desc : MaxIdAboveDescendants h) :
    LocalMono h := by
  intro a p ad pd ha hp hpd
  obtain ⟨l, _, hl⟩ := wf.path ha
  obtain ⟨g, ad', _, ha', hc⟩ := pathToRoot_cases hl
  rw [ha] at ha'
  obtain rfl := Option.some.inj ha'
  rcases hc with ⟨hnone, _⟩ | ⟨q, t, hq, ht, rfl⟩
  · rw [hp] at hnone; simp at hnone
  · rw [hp] at hq
    obtain rfl := Option.some.inj hq
    apply desc a (lt_of_lookup ha) ad ha p _ pd hpd
    rw [ancestors_of_path hl]
    exact pathToRoot_self_mem ht

theorem chainMono_of_local {h : Heap} (lm : LocalMono h) (l : List Addr) : ChainMono h l :=
  fun x _ p _ xd pd hxd hxp hpd => lm x p xd pd hxd hxp hpd

theorem desc_of_localMono {h : Heap} (lm : LocalMono h) : MaxIdAboveDescendants h := by
  intro a _ ad ha m hm md hmd
  cases hl : pathToRoot (h.length + 1) h a with
  | none => simp [ancestors, selfAndAncestors, hl] at hm
  | some l =>
    rw [ancestors_of_path hl] at hm
    exact chain_ge hl (chainMono_of_local lm l) ha m (List.mem_of_mem_tail hm) md hmd

/-- The order survives any change that keeps every `maxVolumeId` and either
keeps or clears each back-reference. -/
theorem localMono_transfer {h h' : Heap} (lm : LocalMono h)
    (hk : ∀ (a : Addr) (ad' : NodeImpl), h'[a]? = some ad' →
      ∃ ad, h[a]? = some ad ∧ ad'.maxVolumeId = ad.maxVolumeId ∧
        (ad'.parent = ad.parent ∨ ad'.parent = none)) : LocalMono h' := by
  intro a p ad' pd' ha' hp hpd'
  obtain ⟨ad, ha, hv, hpar⟩ := hk a ad' ha'
  obtain ⟨pd, hpd, hpv, _⟩ := hk p pd' hpd'
  rcases hpar with hpar | hpar
  · rw [hv, hpv]
    exact lm a p ad pd ha (hpar ▸ hp) hpd
  · rw [hp] at hpar; simp at hpar

theorem UpAdjustMaxVolumeId_mono {h : Heap} {n : Addr} {nd : NodeImpl} (vid : VolumeId)
    (wf : WellFormed h) (desc : MaxIdAboveDescendants h) (hn : h[n]? = some nd) :
    ∃ h', UpAdjustMaxVolumeId (h.length + 1) h n vid = some h' ∧
      MaxIdAboveDescendants h' ∧ MaxIdNotLowered h h' := by
  have lm := localMono_of_desc wf desc
  obtain ⟨l, _, hl⟩ := wf.path hn
  obtain ⟨h', e', hlen, hoff, hall, _, hmono⟩ := UpAdjustMaxVolumeId_spec vid hl
  have hch := hmono (chainMono_of_local lm l)
  refine ⟨h', e', desc_of_localMono ?_, ?_⟩
  · intro a p ad' pd' ha' hp hpd'
    have halt : a < h.length := by rw [← hlen]; exact lt_of_lookup ha'
    have hplt : p < h.length := by rw [← hlen]; exact lt_of_lookup hpd'
    have ha := List.getElem?_eq_getElem halt
    have hpd := List.getElem?_eq_getElem hplt
    obtain ⟨va, hva, _, _⟩ := hall a _ ha
    obtain ⟨vp, hvp, hvp1, _⟩ := hall p _ hpd
    have hpar : (h[a]).parent = some p := by
      rw [hva] at ha'
      obtain rfl := Option.some.inj ha'
      exact hp
    have hle := lm a p _ _ ha hpar hpd
    by_cases hal : a ∈ l
    · have hpl := parent_mem_path hl hal ha hpar
      have e1 := hch a hal _ ha
      have e2 := hch p hpl _ hpd
      rw [ha'] at e1; rw [hpd'] at e2
      obtain rfl := Option.some.inj e1
      obtain rfl := Option.some.inj e2
      exact max_le_max hle (le_refl _)
    · rw [hoff a hal, ha] at ha'
      obtain rfl := Option.some.inj ha'
      rw [hpd'] at hvp
      obtain rfl := Option.some.inj hvp
      exact le_trans hle hvp1
  · intro a _ ad ha
    obtain ⟨v, hv, hle, _⟩ := hall a ad ha
    exact ⟨_, hv, hle⟩

theorem linkBody_parents {h h5 : Heap} {n c : Addr} {nd cd : NodeImpl}
    (hn : h[n]? = some nd) (hc : h[c]? = some cd) (e : linkBody h n c = some h5) :
    (∀ m : Addr, m ≠ c → (h5[m]?).map (fun x => x.parent) = (h[m]?).map (fun x => x.parent)) ∧
    (h5[c]?).map (fun x => x.parent) = some (some n) := by
  have h1 : ∀ m : Addr, ((h.set n (withChildren (mapSet nd.children cd.id c) nd))[m]?).map
      (fun x => x.parent) = (h[m]?).map (fun x => x.parent) := by
    intro m
    by_cases hm : n = m
    · subst hm; rw [lookup_set_self hn, hn]; rfl
    · rw [lookup_set_ne hm]
  simp only [linkBody, hn, hc, UpAdjustMaxVolumeCountDelta_eq_climb,
    UpAdjustActiveVolumeCountDelta_eq_climb] at e
  split at e
  · simp at e
  · split at e
    · simp at e
    · rename_i h2 e2
      split at e
      · simp at e
      · split at e
        · simp at e
        · rename_i h3 e3
          split at e
          · simp at e
          · split at e
            · simp at e
            · rename_i h4 e4
              have h4p : ∀ m : Addr, (h4[m]?).map (fun x => x.parent) =
                  (h[m]?).map (fun x => x.parent) := by
                intro m
                rw [climb_view (fun x => x.parent) (g := addActive _) (fun _ => rfl) e4 m,
                  UpAdjustMaxVolumeId_view (fun x => x.parent) (fun _ _ => rfl) e3 m,
                  climb_view (fun x => x.parent) (g := addMax _) (fun _ => rfl) e2 m]
                exact h1 m
              cases hc4 : h4[c]? with
              | none => simp [setParent, hc4] at e
              | some c4 =>
                rw [setParent_eq hc4] at e
                obtain rfl := Option.some.inj e
                refine ⟨?_, by rw [lookup_set_self hc4]; rfl⟩
                intro m hm
                rw [lookup_set_ne (Ne.symm hm), h4p m]

theorem path_of_String {f : Nat} : ∀ {h : Heap} {a : Addr} {s : String},
    NodeImpl.String f h a = some s → ∃ l, pathToRoot f h a = some l := by
  induction f with
  | zero => intro h a s e; simp [NodeImpl.String] at e
  | succ k ih =>
    intro h a s e
    cases ha : h[a]? with
    | none => simp [NodeImpl.String, ha] at e
    | some ad =>
      cases hp : ad.parent with
      | none => exact ⟨[a], pathToRoot_root ha hp⟩
      | some p =>
        cases hs : NodeImpl.String k h p with
        | none => simp [NodeImpl.String, ha, hp, hs] at e
        | some s' =>
          obtain ⟨t, ht⟩ := ih hs
          exact ⟨a :: t, by rw [pathToRoot_step ha hp, ht]; rfl⟩

/-- Once `c` hangs below a node whose chain passed through `c`, that chain
passes through `c` forever. -/
theorem chain_still_through {h h5 : Heap} {c : Addr}
    (hsame : ∀ m : Addr, m ≠ c →
      (h5[m]?).map (fun x => x.parent) = (h[m]?).map (fun x => x.parent)) {f : Nat} :
    ∀ {n : Addr} {l : List Addr}, pathToRoot f h n = some l → c ∈ l →
      ∀ {g : Nat} {L : List Addr}, pathToRoot g h5 n = some L → c ∈ L := by
  induction f with
  | zero => intro n l e; simp [pathToRoot] at e
  | succ k ih =>
    intro n l e hcl g L e5
    by_cases hnc : n = c
    · subst hnc; exact pathToRoot_self_mem e5
    · obtain ⟨k', nd, hk, hn, hcs⟩ := pathToRoot_cases e
      have hkk : k' = k := by omega
      subst hkk
      rcases hcs with ⟨_, rfl⟩ | ⟨p, t, hp, ht, rfl⟩
      · simp at hcl; exact absurd hcl.symm hnc
      · have hct : c ∈ t := by
          rcases List.mem_cons.mp hcl with hx | hx
          · exact absurd hx.symm hnc
          · exact hx
        obtain ⟨g', nd5, _, hn5, hcs5⟩ := pathToRoot_cases e5
        have hpar := hsame n hnc
        rw [hn5, hn] at hpar
        simp only [Option.map_some', Option.some.injEq] at hpar
        rcases hcs5 with ⟨hnone, _⟩ | ⟨q, T, hq, hT, rfl⟩
        · rw [hpar, hp] at hnone; simp at hnone
        · rw [hpar, hp] at hq
          obtain rfl := Option.some.inj hq
          exact List.mem_cons_of_mem _ (ih ht hct hT)

/-- Attaching a node lying on the parent chain of the target does not
complete. -/
theorem LinkChildNode_on_chain {h : Heap} {n c : Addr} {nd cd : NodeImpl} {l : List Addr}
    {k : Nat} (hn : h[n]? = some nd) (hc : h[c]? = some cd)
    (habs : mapGet nd.children cd.id = none)
    (hl : pathToRoot k h n = some l) (hcl : c ∈ l) : LinkChildNode h n c = none := by
  simp only [LinkChildNode, hn, hc, habs, if_true]
  cases hb : linkBody h n c with
  | none => rfl
  | some h5 =>
    obtain ⟨hsame, hcp⟩ := linkBody_parents hn hc hb
    have hstr : NodeImpl.String (h5.length + 1) h5 n = none := by
      cases hs : NodeImpl.String (h5.length + 1) h5 n with
      | none => rfl
      | some s =>
        exfalso
        obtain ⟨L, hL⟩ := path_of_String hs
        have hcL := chain_still_through hsame hl hcl hL
        obtain ⟨pre, S, hS, hcS⟩ := pathToRoot_suffix hL c hcL
        cases hc5 : h5[c]? with
        | none => rw [hc5] at hcp; simp at hcp
        | some c5 =>
          rw [hc5] at hcp
          simp only [Option.map_some', Option.some.injEq] at hcp
          have := pathToRoot_of_parent hc5 hcp hcS hL
          rw [this] at hS
          have hlen := congrArg List.length hS
          simp at hlen
          omega
    simp [printlnNodes, hstr]

theorem maxIdNotLowered_refl (h : Heap) : MaxIdNotLowered h h :=
  fun _ _ ad ha => ⟨ad, ha, le_refl _⟩

theorem link_mono {h : Heap} {n c : Addr} {nd cd : NodeImpl}
    (wf : WellFormed h) (desc : MaxIdAboveDescendants h)
    (hn : h[n]? = some nd) (hc : h[c]? = some cd) :
    (∀ h', LinkChildNode h n c = some h' →
      MaxIdAboveDescendants h' ∧ MaxIdNotLowered h h') ∧
    (c ∉ selfAndAncestors h n → ∃ h', LinkChildNode h n c = some h') := by
  obtain ⟨l, _, hl⟩ := wf.path hn
  rw [selfAndAncestors_eq hl]
  by_cases habs : mapGet nd.children cd.id = none
  · by_cases hcl : c ∈ l
    · rw [LinkChildNode_on_chain hn hc habs hl hcl]
      exact ⟨fun h' e => by simp at e, fun hne => absurd hcl hne⟩
    · have lm := localMono_of_desc wf desc
      obtain ⟨h5, e5, hlen, h5c, hoff, hon⟩ := LinkChildNode_spec hn hc hl hcl habs
      have hnl := pathToRoot_self_mem hl
      have d5 : ∀ (x : Addr) (xd : NodeImpl), h[x]? = some xd →
          ∃ xd5, h5[x]? = some xd5 ∧ xd.maxVolumeId ≤ xd5.maxVolumeId ∧
            xd5.parent = (if x = c then some n else xd.parent) ∧
            (x ∈ l → xd5.maxVolumeId = max xd.maxVolumeId cd.maxVolumeId) ∧
            (x ∉ l → xd5.maxVolumeId = xd.maxVolumeId) := by
        intro x xd hx
        by_cases hxl : x ∈ l
        · have hxc : x ≠ c := fun e => hcl (e ▸ hxl)
          obtain ⟨v, hv, hle, _, _, hmx⟩ := hon x hxl xd hx
          exact ⟨_, hv, hle, by rw [if_neg hxc]; rfl,
            fun _ => hmx (chainMono_of_local lm l), fun hne => absurd hxl hne⟩
        · by_cases hxc : x = c
          · subst hxc
            rw [hc] at hx
            obtain rfl := Option.some.inj hx
            exact ⟨_, h5c, le_refl _, by rw [if_pos rfl]; rfl, fun e => absurd e hxl,
              fun _ => rfl⟩
          · exact ⟨xd, by rw [hoff x hxl hxc, hx], le_refl _, by rw [if_neg hxc],
              fun e => absurd e hxl, fun _ => rfl⟩
      refine ⟨?_, fun _ => ⟨h5, e5⟩⟩
      intro h' e'
      rw [e5] at e'
      obtain rfl := Option.some.inj e'
      refine ⟨desc_of_localMono ?_, ?_⟩
      · intro a p ad5 pd5 ha5 hp hpd5
        have halt : a < h.length := by rw [← hlen]; exact lt_of_lookup ha5
        have hplt : p < h.length := by rw [← hlen]; exact lt_of_lookup hpd5
        have ha := List.getElem?_eq_getElem halt
        have hpd := List.getElem?_eq_getElem hplt
        obtain ⟨ad5', ha5', _, hpar, hain, haout⟩ := d5 a _ ha
        obtain ⟨pd5', hpd5', hple, _, hpin, _⟩ := d5 p _ hpd
        rw [ha5] at ha5'; obtain rfl := Option.some.inj ha5'
        rw [hpd5] at hpd5'; obtain rfl := Option.some.inj hpd5'
        by_cases hac : a = c
        · subst hac
          rw [if_pos rfl, hp] at hpar
          obtain rfl := Option.some.inj hpar
          rw [haout hcl, hpin hnl]
          rw [hc] at ha
          rw [← Option.some.inj ha]
          exact le_max_right _ _
        · rw [if_neg hac, hp] at hpar
          have hle := lm a p _ _ ha hpar.symm hpd
          by_cases hal : a ∈ l
          · have hpl := parent_mem_path hl hal ha hpar.symm
            rw [hain hal, hpin hpl]
            exact max_le_max hle (le_refl _)
          · rw [haout hal]
            exact le_trans hle hple
      · intro a _ ad ha
        obtain ⟨ad5, ha5, hle, _⟩ := d5 a ad ha
        exact ⟨ad5, ha5, hle⟩
  · have e : LinkChildNode h n c = some h := by simp [LinkChildNode, hn, hc, habs]
    rw [e]
    refine ⟨?_, fun _ => ⟨h, rfl⟩⟩
    intro h' e'
    obtain rfl := Option.some.inj e'
    exact ⟨desc, maxIdNotLowered_refl _⟩

theorem unlink_mono {h : Heap} {n : Addr} {nd : NodeImpl} {nodeId : NodeId}
    (wf : WellFormed h) (desc : MaxIdAboveDescendants h) (hn : h[n]? = some nd)
    (hpres : (mapGet nd.children nodeId).isSome = true) :
    ∃ h', UnlinkChildNode h n nodeId = some h' ∧
      MaxIdAboveDescendants h' ∧ MaxIdNotLowered h h' := by
  obtain ⟨c, hget⟩ := Option.isSome_iff_exists.mp hpres
  obtain ⟨cd, l, hc, _, _, _, hl, hcl⟩ := wf.child_of_get hn hget
  obtain ⟨h3, e3, hlen, h3c, hoff, hon⟩ := UnlinkChildNode_spec hn hget hc hl hcl
  have d3 : ∀ (x : Addr) (xd : NodeImpl), h[x]? = some xd →
      ∃ xd3, h3[x]? = some xd3 ∧ xd3.maxVolumeId = xd.maxVolumeId ∧
        (xd3.parent = xd.parent ∨ xd3.parent = none) := by
    intro x xd hx
    by_cases hxl : x ∈ l
    · exact ⟨_, hon x hxl xd hx, rfl, Or.inl rfl⟩
    · by_cases hxc : x = c
      · subst hxc
        rw [hc] at hx
        obtain rfl := Option.some.inj hx
        exact ⟨_, h3c, rfl, Or.inr rfl⟩
      · exact ⟨xd, by rw [hoff x hxl hxc, hx], rfl, Or.inl rfl⟩
  refine ⟨h3, e3, desc_of_localMono (localMono_transfer (localMono_of_desc wf desc) ?_), ?_⟩
  · intro a ad3 ha3
    have halt : a < h.length := by rw [← hlen]; exact lt_of_lookup ha3
    have ha := List.getElem?_eq_getElem halt
    obtain ⟨ad3', ha3', hv, hp⟩ := d3 a _ ha
    rw [ha3] at ha3'; obtain rfl := Option.some.inj ha3'
    exact ⟨_, ha, hv, hp⟩
  · intro a _ ad ha
    obtain ⟨ad3, ha3, hv, _⟩ := d3 a ad ha
    exact ⟨ad3, ha3, le_of_eq hv.symm⟩

theorem climb_keeps_maxId {h : Heap} {n : Addr} {nd : NodeImpl} {g : NodeImpl → NodeImpl}
    (hg : ∀ x, (g x).maxVolumeId = x.maxVolumeId) (wf : WellFormed h) (hn : h[n]? = some nd) :
    ∃ h', climb g (h.length + 1) h n = some h' ∧
      ∀ a : Addr, (h'[a]?).map (fun x => x.maxVolumeId) =
        (h[a]?).map (fun x => x.maxVolumeId) := by
  obtain ⟨l, _, hl⟩ := wf.path hn
  obtain ⟨h', e', _, hlk⟩ := climb_spec (g := g) hl
  refine ⟨h', e', ?_⟩
  intro a
  rw [hlk a]
  by_cases hal : a ∈ l
  · rw [if_pos hal, Option.map_map]
    congr 1
    funext x
    exact hg x
  · rw [if_neg hal]

/-- C7 (monotonic max id).  In a well-formed heap in which every node has a
`maxVolumeId` at least that of each of its descendants:
`UpAdjustMaxVolumeId(vid)` on any node returns and keeps that property;
`LinkChildNode` of a parentless node keeps it whenever it returns, and it does
return when the node is not on the parent chain of the target;
`UnlinkChildNode` of a present identifier returns and keeps it; none of the
three lowers the `maxVolumeId` of any node; and the two counter adjustments
return and leave every `maxVolumeId` as it was. -/
theorem max_volume_id_monotone (h : Heap) (wf : WellFormed h)
    (desc : MaxIdAboveDescendants h) :
    (∀ (n : Addr) (nd : NodeImpl) (vid : VolumeId), h[n]? = some nd →
      ∃ h', UpAdjustMaxVolumeId (h.length + 1) h n vid = some h' ∧
        MaxIdAboveDescendants h' ∧ MaxIdNotLowered h h') ∧
    (∀ (n c : Addr) (nd cd : NodeImpl), h[n]? = some nd → h[c]? = some cd →
      cd.parent = none →
      (∀ h', LinkChildNode h n c = some h' →
        MaxIdAboveDescendants h' ∧ MaxIdNotLowered h h') ∧
      (c ∉ selfAndAncestors h n → ∃ h', LinkChildNode h n c = some h')) ∧
    (∀ (n : Addr) (nd : NodeImpl) (nodeId : NodeId), h[n]? = some nd →
      (mapGet nd.children nodeId).isSome = true →
      ∃ h', UnlinkChildNode h n nodeId = some h' ∧
        MaxIdAboveDescendants h' ∧ MaxIdNotLowered h h') ∧
    (∀ (n : Addr) (nd : NodeImpl) (d : Int), h[n]? = some nd →
      (∃ h', UpAdjustMaxVolumeCountDelta (h.length + 1) h n d = some h' ∧
        ∀ a : Addr, (h'[a]?).map (fun x => x.maxVolumeId) =
          (h[a]?).map (fun x => x.maxVolumeId)) ∧
      (∃ h', UpAdjustActiveVolumeCountDelta (h.length + 1) h n d = some h' ∧
        ∀ a : Addr, (h'[a]?).map (fun x => x.maxVolumeId) =
          (h[a]?).map (fun x => x.maxVolumeId))) := by
  refine ⟨?_, ?_, ?_, ?_⟩
  · intro n nd vid hn
    exact UpAdjustMaxVolumeId_mono vid wf desc hn
  · intro n c nd cd hn hc _
    exact link_mono wf desc hn hc
  · intro n nd nodeId hn hpres
    exact unlink_mono wf desc hn hpres
  · intro n nd d hn
    rw [UpAdjustMaxVolumeCountDelta_eq_climb, UpAdjustActiveVolumeCountDelta_eq_climb]
    exact ⟨climb_keeps_maxId (fun _ => rfl) wf hn, climb_keeps_maxId (fun _ => rfl) wf hn⟩

theorem max_volume_id_monotone_witness :
    WellFormed sample ∧ MaxIdAboveDescendants sample ∧
    (∃ h', UpAdjustMaxVolumeId 6 sample 3 8 = some h' ∧
      MaxIdAboveDescendants h' ∧ MaxIdNotLowered sample h') ∧
    (∃ h', LinkChildNode sample 1 4 = some h' ∧
      MaxIdAboveDescendants h' ∧ MaxIdNotLowered sample h') ∧
    (∃ h', UnlinkChildNode sample 1 "d1" = some h' ∧
      MaxIdAboveDescendants h' ∧ MaxIdNotLowered sample h') :=
  have t := max_volume_id_monotone sample (by decide) (by decide)
  ⟨by decide, by decide,
    t.1 3 _ 8 rfl,
    ((t.2.1 1 4 _ _ rfl rfl rfl).2 (by decide)).elim
      (fun h' e => ⟨h', e, (t.2.1 1 4 _ _ rfl rfl rfl).1 h' e⟩),
    t.2.2.1 1 _ "d1" rfl (by decide)⟩

/-! ## Laying out slots -/

theorem total_nil : total [] = 0 := rfl

theorem pick_cons (e : Addr × Int) (rest : List (Addr × Int)) (r : Int) :
    pick (e :: rest) r =
      if e.2 ≤ 0 then pick rest r else if r ≥ e.2 then pick rest (r - e.2) else some e.1 := rfl

theorem total_cons (e : Addr × Int) (s : List (Addr × Int)) : total (e :: s) = e.2 + total s := by
  simp [total]

theorem total_append (s t : List (Addr × Int)) : total (s ++ t) = total s + total t := by
  simp [total]

theorem total_nonneg {s : List (Addr × Int)} (hs : ∀ e ∈ s, 0 ≤ e.2) : 0 ≤ total s := by
  induction s with
  | nil => simp [total]
  | cons x xs ih =>
    rw [total_cons]
    have h1 := hs x (List.mem_cons_self _ _)
    have h2 := ih (fun e he => hs e (List.mem_cons_of_mem _ he))
    omega

/-- Slots without room are passed over. -/
theorem pick_skip {a b : List (Addr × Int)} (ha : ∀ e ∈ a, 0 ≤ e.2) (hz : total a ≤ 0)
    (r : Int) : pick (a ++ b) r = pick b r := by
  induction a with
  | nil => rfl
  | cons x xs ih =>
    rw [total_cons] at hz
    have h1 := ha x (List.mem_cons_self _ _)
    have hxs : ∀ e ∈ xs, 0 ≤ e.2 := fun e he => ha e (List.mem_cons_of_mem _ he)
    have h2 := total_nonneg hxs
    have hx : x.2 ≤ 0 := by omega
    simp only [List.cons_append, pick_cons, hx, if_true]
    exact ih hxs (by omega)

/-- An index beyond a block of slots is looked up behind it. -/
theorem pick_pass {a b : List (Addr × Int)} (ha : ∀ e ∈ a, 0 ≤ e.2) :
    ∀ r : Int, total a ≤ r → pick (a ++ b) r = pick b (r - total a) := by
  induction a with
  | nil => intro r _; simp [total]
  | cons x xs ih =>
    intro r hr
    rw [total_cons] at hr ⊢
    have h1 := ha x (List.mem_cons_self _ _)
    have hxs : ∀ e ∈ xs, 0 ≤ e.2 := fun e he => ha e (List.mem_cons_of_mem _ he)
    have h2 := total_nonneg hxs
    by_cases hx : x.2 ≤ 0
    · have hx0 : x.2 = 0 := by omega
      simp only [List.cons_append, pick_cons, hx, if_true]
      rw [ih hxs r (by omega), hx0, zero_add]
    · have hge : r ≥ x.2 := by omega
      simp only [List.cons_append, pick_cons, hx, if_false, hge, if_true]
      rw [ih hxs (r - x.2) (by omega)]
      congr 1
      ring

/-- An index inside a block of slots is found inside it. -/
theorem pick_hit {a : List (Addr × Int)} (b : List (Addr × Int)) (ha : ∀ e ∈ a, 0 ≤ e.2) :
    ∀ r : Int, r < total a → 0 < total a →
      ∃ L, pick a r = some L ∧ pick (a ++ b) r = some L ∧ L ∈ a.map Prod.fst := by
  induction a with
  | nil => intro r _ h0; simp [total] at h0
  | cons x xs ih =>
    intro r hr h0
    rw [total_cons] at hr h0
    have h1 := ha x (List.mem_cons_self _ _)
    have hxs : ∀ e ∈ xs, 0 ≤ e.2 := fun e he => ha e (List.mem_cons_of_mem _ he)
    have h2 := total_nonneg hxs
    by_cases hx : x.2 ≤ 0
    · have hx0 : x.2 = 0 := by omega
      obtain ⟨L, e1, e2, hm⟩ := ih hxs r (by omega) (by omega)
      refine ⟨L, ?_, ?_, List.mem_cons_of_mem _ hm⟩
      · simp only [pick_cons, hx, if_true]; exact e1
      · simp only [List.cons_append, pick_cons, hx, if_true]; exact e2
    · by_cases hge : r ≥ x.2
      · obtain ⟨L, e1, e2, hm⟩ := ih hxs (r - x.2) (by omega) (by omega)
        refine ⟨L, ?_, ?_, List.mem_cons_of_mem _ hm⟩
        · simp only [pick_cons, hx, if_false, hge, if_true]; exact e1
        · simp only [List.cons_append, pick_cons, hx, if_false, hge, if_true]; exact e2
      · refine ⟨x.1, ?_, ?_, by simp⟩
        · simp only [pick_cons, hx, if_false, hge]
        · simp only [List.cons_append, pick_cons, hx, if_false, hge]

/-- An index at or beyond the total falls into no range. -/
theorem pick_none {s : List (Addr × Int)} (hs : ∀ e ∈ s, 0 ≤ e.2) {r : Int}
    (hr : total s ≤ r) : pick s r = none := by
  have := pick_pass (b := []) hs r hr
  rw [List.append_nil] at this
  rw [this]
  rfl

/-- The index range of a listed node: it starts where the ranges of the nodes
before it end and is as long as the node has free space. -/
theorem pick_interval {pre post : List (Addr × Int)} {L : Addr} {f r : Int}
    (hpre : ∀ e ∈ pre, 0 ≤ e.2) (h1 : total pre ≤ r) (h2 : r < total pre + f) :
    pick (pre ++ (L, f) :: post) r = some L := by
  rw [pick_pass hpre r h1]
  have hx : ¬ f ≤ 0 := by omega
  have hge : ¬ r - total pre ≥ f := by omega
  simp only [pick_cons, hx, if_false, hge]

/-- Every index from 0 up to the total lies in the range of one listed node. -/
theorem locate {s : List (Addr × Int)} (hs : ∀ e ∈ s, 0 ≤ e.2) :
    ∀ r : Int, 0 ≤ r → r < total s →
      ∃ pre L f post, s = pre ++ (L, f) :: post ∧ total pre ≤ r ∧ r < total pre + f := by
  induction s with
  | nil => intro r h0 hr; simp [total] at hr; omega
  | cons x xs ih =>
    intro r h0 hr
    rw [total_cons] at hr
    have hxs : ∀ e ∈ xs, 0 ≤ e.2 := fun e he => hs e (List.mem_cons_of_mem _ he)
    by_cases hlt : r < x.2
    · exact ⟨[], x.1, x.2, xs, rfl, by simp [total]; exact h0, by simp [total]; exact hlt⟩
    · obtain ⟨pre, L, f, post, e, h1, h2⟩ := ih hxs (r - x.2) (by omega) (by omega)
      refine ⟨x :: pre, L, f, post, by rw [e]; rfl, ?_, ?_⟩
      · rw [total_cons]; omega
      · rw [total_cons]; omega

/-- A list without repeated nodes splits at a given node in one way only. -/
theorem split_unique {L : Addr} {f f' : Int} :
    ∀ {pre pre' post post' : List (Addr × Int)},
      ((pre ++ (L, f) :: post).map Prod.fst).Nodup →
      pre ++ (L, f) :: post = pre' ++ (L, f') :: post' → pre = pre' ∧ f = f' := by
  intro pre
  induction pre with
  | nil =>
    intro pre' post post' hnd e
    cases pre' with
    | nil =>
      simp only [List.nil_append, List.cons.injEq, Prod.mk.injEq, true_and] at e
      exact ⟨rfl, e.1⟩
    | cons y ys =>
      simp only [List.nil_append, List.cons_append, List.cons.injEq] at e
      obtain ⟨e1, e2⟩ := e
      simp only [List.nil_append, List.map_cons, List.nodup_cons] at hnd
      exfalso
      apply hnd.1
      rw [e2]
      simp
  | cons x xs ih =>
    intro pre' post post' hnd e
    cases pre' with
    | nil =>
      simp only [List.nil_append, List.cons_append, List.cons.injEq] at e
      obtain ⟨e1, e2⟩ := e
      simp only [List.cons_append, List.map_cons, List.nodup_cons] at hnd
      exfalso
      apply hnd.1
      rw [e1]
      simp
    | cons y ys =>
      simp only [List.cons_append, List.cons.injEq] at e
      obtain ⟨e1, e2⟩ := e
      simp only [List.cons_append, List.map_cons, List.nodup_cons] at hnd
      obtain ⟨h1, h2⟩ := ih hnd.2 e2
      exact ⟨by rw [e1, h1], h2⟩

/-- A node is found exactly when the index is below a positive total. -/
theorem pick_isSome_iff {s : List (Addr × Int)} (hs : ∀ e ∈ s, 0 ≤ e.2) :
    ∀ r : Int, (pick s r).isSome = true ↔ r < total s ∧ 0 < total s := by
  intro r
  constructor
  · intro hsome
    by_contra hcon
    have h0 := total_nonneg hs
    have : total s ≤ r ∨ total s ≤ 0 := by
      by_cases h : r < total s
      · right
        by_contra h'
        exact hcon ⟨h, by omega⟩
      · left; omega
    rcases this with h | h
    · rw [pick_none hs h] at hsome; simp at hsome
    · have := pick_skip (b := []) hs h r
      rw [List.append_nil] at this
      rw [this] at hsome
      simp [pick] at hsome
  · intro ⟨h1, h2⟩
    obtain ⟨L, e, _, _⟩ := pick_hit [] hs r h1 h2
    rw [e]
    rfl

/-! ## The placement selector lays out the storage nodes -/

theorem reserveLoop_nil (h : Heap) (rec : Addr → Int → Option (Bool × Option Addr)) (r : Int)
    (ret : Bool) (asg : Option Addr) : reserveLoop h rec [] r ret asg = some (ret, asg) := rfl

theorem slotsOf_nil (h : Heap) (srec : Addr → List (Addr × Int)) : slotsOf h srec [] = [] := rfl

theorem slotsOf_cons (h : Heap) (srec : Addr → List (Addr × Int)) (e : NodeId × Addr)
    (rest : List (NodeId × Addr)) :
    slotsOf h srec (e :: rest) =
      (match h[e.2]? with
        | none => []
        | some cn => if IsDataNode cn = true then [(e.2, FreeSpace cn)] else srec e.2) ++
      slotsOf h srec rest := rfl

theorem slots_succ {h : Heap} {n : Addr} {nd : NodeImpl} (k : Nat) (hn : h[n]? = some nd) :
    slots (k + 1) h n = slotsOf h (slots k h) nd.children := by
  simp [slots, hn]

theorem ReserveOneVolume_succ {h : Heap} {n : Addr} {nd : NodeImpl} (k : Nat)
    (hn : h[n]? = some nd) (r : Int) (vid : VolumeId) :
    ReserveOneVolume (k + 1) h n r vid =
      reserveLoop h (fun c r1 => ReserveOneVolume k h c r1 vid) nd.children r false none := by
  simp [ReserveOneVolume, hn]

theorem childSum_cons (f : NodeImpl → Int) (h : Heap) (e : NodeId × Addr)
    (rest : List (NodeId × Addr)) :
    childSum f h (e :: rest) = valOf f h e.2 + childSum f h rest := by
  simp [childSum, valOf]

theorem childSum_freeSpace (h : Heap) (ch : List (NodeId × Addr)) :
    childSum FreeSpace h ch =
      childSum (fun c => c.maxVolumeCount) h ch - childSum (fun c => c.activeVolumeCount) h ch := by
  induction ch with
  | nil => simp [childSum]
  | cons e rest ih =>
    rw [childSum_cons, childSum_cons, childSum_cons, ih]
    simp only [valOf]
    cases h[e.2]? with
    | none => simp
    | some cn => simp only [FreeSpace]; ring

/-- The loop of `ReserveOneVolume` over children whose nested calls lay out
their own storage nodes. -/
theorem reserveLoop_spec (h : Heap) (rec : Addr → Int → Option (Bool × Option Addr))
    (srec : Addr → List (Addr × Int)) :
    ∀ (cs : List (NodeId × Addr)),
    (∀ e ∈ cs, ∃ cn, h[e.2]? = some cn ∧
      (IsDataNode cn = true → 0 ≤ FreeSpace cn) ∧
      (IsDataNode cn = false →
        (∀ s ∈ srec e.2, 0 ≤ s.2) ∧ total (srec e.2) = FreeSpace cn ∧
        ∀ r, rec e.2 r = some (pickResult (pick (srec e.2) r)))) →
    (∀ s ∈ slotsOf h srec cs, 0 ≤ s.2) ∧
    total (slotsOf h srec cs) = childSum FreeSpace h cs ∧
    ∀ r, reserveLoop h rec cs r false none = some (pickResult (pick (slotsOf h srec cs) r)) := by
  intro cs
  induction cs with
  | nil =>
    intro _
    exact ⟨by simp [slotsOf], by simp [slotsOf, total, childSum], fun r => rfl⟩
  | cons e rest ih =>
    intro hch
    obtain ⟨cn, hcn, hleaf, hinner⟩ := hch e (List.mem_cons_self _ _)
    obtain ⟨ih1, ih2, ih3⟩ := ih (fun e' he' => hch e' (List.mem_cons_of_mem _ he'))
    -- the block of slots this child contributes
    obtain ⟨blk, hblk⟩ : ∃ b, b = (if IsDataNode cn = true then [(e.2, FreeSpace cn)]
        else srec e.2) := ⟨_, rfl⟩
    have hslots : slotsOf h srec (e :: rest) = blk ++ slotsOf h srec rest := by
      rw [slotsOf_cons, hcn, hblk]
    have hbn : ∀ s ∈ blk, 0 ≤ s.2 := by
      intro s hs
      rw [hblk] at hs
      by_cases hd : IsDataNode cn = true
      · rw [if_pos hd] at hs
        simp only [List.mem_singleton] at hs
        rw [hs]
        exact hleaf hd
      · rw [if_neg hd] at hs
        exact (hinner (by simpa using hd)).1 s hs
    have hbt : total blk = FreeSpace cn := by
      rw [hblk]
      by_cases hd : IsDataNode cn = true
      · rw [if_pos hd]; simp [total]
      · rw [if_neg hd]
        exact (hinner (by simpa using hd)).2.1
    rw [hslots]
    refine ⟨?_, ?_, ?_⟩
    · intro s hs
      rcases List.mem_append.mp hs with hs | hs
      · exact hbn s hs
      · exact ih1 s hs
    · rw [total_append, hbt, ih2, childSum_cons]
      simp [valOf, hcn]
    · intro r
      by_cases hle : FreeSpace cn ≤ 0
      · have : reserveLoop h rec (e :: rest) r false none =
            reserveLoop h rec rest r false none := by
          simp [reserveLoop, hcn, hle]
        rw [this, ih3 r, pick_skip hbn (by rw [hbt]; exact hle)]
      · by_cases hge : r ≥ FreeSpace cn
        · have : reserveLoop h rec (e :: rest) r false none =
              reserveLoop h rec rest (r - FreeSpace cn) false none := by
            simp [reserveLoop, hcn, hle, hge]
          rw [this, ih3, pick_pass hbn r (by rw [hbt]; exact hge), hbt]
        · have hpos : 0 < FreeSpace cn := by omega
          have hlt : r < FreeSpace cn := by omega
          by_cases hd : IsDataNode cn = true
          · have : reserveLoop h rec (e :: rest) r false none = some (true, some e.2) := by
              simp [reserveLoop, hcn, hle, hge, hd, hpos]
            rw [this, hblk, if_pos hd]
            simp [pick_cons, hle, hge, pickResult]
          · have hd' : IsDataNode cn = false := by simpa using hd
            obtain ⟨_, _, hrec⟩ := hinner hd'
            have hblk' : blk = srec e.2 := by rw [hblk, if_neg hd]
            obtain ⟨L, e1, e2, _⟩ := pick_hit (slotsOf h srec rest) hbn r
              (by rw [hbt]; exact hlt) (by rw [hbt]; exact hpos)
            have hr := hrec r
            rw [← hblk', e1] at hr
            have : reserveLoop h rec (e :: rest) r false none = some (true, some L) := by
              simp [reserveLoop, hcn, hle, hge, hd', hr, pickResult]
            rw [this, e2]
            rfl

/-- With enough fuel, `ReserveOneVolume` returns the node that `pick` finds in
the depth-first list of storage nodes, and that list has no negative entry and
adds up to the free space of the node. -/
theorem reserve_spec {h : Heap} (wf : WellFormed h) (inv : AggInv h)
    (hfree : ∀ (a : Addr) (ad : NodeImpl), h[a]? = some ad → IsDataNode ad = true →
      0 ≤ FreeSpace ad) :
    ∀ (k : Nat) (x : Addr) (xd : NodeImpl) (l : List Addr), h[x]? = some xd →
      pathToRoot h.length h x = some l → h.length + 1 ≤ k + l.length →
      (∀ s ∈ slots k h x, 0 ≤ s.2) ∧
      (IsDataNode xd = false → total (slots k h x) = FreeSpace xd) ∧
      ∀ (r : Int) (vid : VolumeId),
        ReserveOneVolume k h x r vid = some (pickResult (pick (slots k h x) r)) := by
  intro k
  induction k with
  | zero =>
    intro x xd l _ hl hk
    have := length_le_of_nodup_lt (pathToRoot_nodup hl) (pathToRoot_lt hl)
    omega
  | succ k ih =>
    intro x xd l hx hl hk
    have hchild : ∀ (vid : VolumeId), ∀ e ∈ xd.children, ∃ cn, h[e.2]? = some cn ∧
        (IsDataNode cn = true → 0 ≤ FreeSpace cn) ∧
        (IsDataNode cn = false →
          (∀ s ∈ slots k h e.2, 0 ≤ s.2) ∧ total (slots k h e.2) = FreeSpace cn ∧
          ∀ r, ReserveOneVolume k h e.2 r vid =
            some (pickResult (pick (slots k h e.2) r))) := by
      intro vid e he
      obtain ⟨cn, hcn, hpar, _⟩ := wf.child_ok hx he
      have hpath := (pathToRoot_cons hcn hpar hl (child_not_on_path hl hcn hpar)).2
      obtain ⟨i1, i2, i3⟩ := ih e.2 cn (e.2 :: l) hcn hpath (by simp; omega)
      exact ⟨cn, hcn, hfree e.2 cn hcn, fun hd => ⟨i1, i2 hd, fun r => i3 r vid⟩⟩
    rw [slots_succ k hx]
    obtain ⟨s1, s2, _⟩ := reserveLoop_spec h (fun c r1 => ReserveOneVolume k h c r1 0)
      (slots k h) xd.children (hchild 0)
    refine ⟨s1, ?_, ?_⟩
    · intro hd
      obtain ⟨i1, i2⟩ := inv x (lt_of_lookup hx) xd hx hd
      rw [s2, childSum_freeSpace, ← i1, ← i2]
      rfl
    · intro r vid
      rw [ReserveOneVolume_succ k hx]
      exact (reserveLoop_spec h (fun c r1 => ReserveOneVolume k h c r1 vid)
        (slots k h) xd.children (hchild vid)).2.2 r

/-! ## The listed slots are the storage nodes of the subtree -/

theorem mem_slotsOf {h : Heap} {srec : Addr → List (Addr × Int)} {s : Addr × Int} :
    ∀ {cs : List (NodeId × Addr)}, s ∈ slotsOf h srec cs ↔
      ∃ e ∈ cs, ∃ cn, h[e.2]? = some cn ∧
        ((IsDataNode cn = true ∧ s = (e.2, FreeSpace cn)) ∨
         (IsDataNode cn = false ∧ s ∈ srec e.2)) := by
  intro cs
  induction cs with
  | nil => simp [slotsOf]
  | cons x xs ih =>
    rw [slotsOf_cons, List.mem_append, ih]
    constructor
    · rintro (hx | ⟨e, he, cn, hcn, hd⟩)
      · cases hcx : h[x.2]? with
        | none => rw [hcx] at hx; simp at hx
        | some cn =>
          rw [hcx] at hx
          dsimp only at hx
          refine ⟨x, List.mem_cons_self _ _, cn, hcx, ?_⟩
          by_cases hd : IsDataNode cn = true
          · rw [if_pos hd] at hx
            exact Or.inl ⟨hd, by simpa using hx⟩
          · rw [if_neg hd] at hx
            exact Or.inr ⟨by simpa using hd, hx⟩
      · exact ⟨e, List.mem_cons_of_mem _ he, cn, hcn, hd⟩
    · rintro ⟨e, he, cn, hcn, hd⟩
      rcases List.mem_cons.mp he with rfl | he'
      · left
        rw [hcn]
        dsimp only
        rcases hd with ⟨hd, hs⟩ | ⟨hd, hs⟩
        · rw [if_pos hd, hs]; simp
        · rw [if_neg (by simp [hd])]; exact hs
      · exact Or.inr ⟨e, he', cn, hcn, hd⟩

/-- The parent of a node of a chain is a proper ancestor of the start of the
chain. -/
theorem anc_step {f : Nat} {h : Heap} {L c x : Addr} {cd : NodeImpl} {lL : List Addr}
    (hL : pathToRoot f h L = some lL) (hc : c ∈ lL) (hcd : h[c]? = some cd)
    (hp : cd.parent = some x) : x ∈ lL.tail := by
  obtain ⟨pre, s, hs, hcs⟩ := pathToRoot_suffix hL c hc
  obtain ⟨g, cd', _, hc', hcase⟩ := pathToRoot_cases hcs
  rw [hcd] at hc'
  obtain rfl := Option.some.inj hc'
  rcases hcase with ⟨hnone, _⟩ | ⟨q, t, hq, ht, rfl⟩
  · rw [hp] at hnone; simp at hnone
  · rw [hp] at hq
    obtain rfl := Option.some.inj hq
    have hxt := pathToRoot_self_mem ht
    rw [hs]
    cases pre with
    | nil => simpa using hxt
    | cons y ys => simp [hxt]

theorem slots_sound {h : Heap} (wf : WellFormed h) :
    ∀ (k : Nat) (x : Addr) (s : Addr × Int), s ∈ slots k h x →
      ∃ ld lL, h[s.1]? = some ld ∧ IsDataNode ld = true ∧ s.2 = FreeSpace ld ∧
        pathToRoot (h.length + 1) h s.1 = some lL ∧ x ∈ lL.tail := by
  intro k
  induction k with
  | zero => intro x s hs; simp [slots] at hs
  | succ k ih =>
    intro x s hs
    cases hx : h[x]? with
    | none => simp [slots, hx] at hs
    | some xd =>
      rw [slots_succ k hx, mem_slotsOf] at hs
      obtain ⟨e, he, cn, hcn, hd⟩ := hs
      obtain ⟨cn', hcn', hpar, _⟩ := wf.child_ok hx he
      rw [hcn] at hcn'
      obtain rfl := Option.some.inj hcn'
      rcases hd with ⟨hd, rfl⟩ | ⟨_, hs⟩
      · obtain ⟨lL, _, hlL⟩ := wf.path hcn
        exact ⟨cn, lL, hcn, hd, rfl, hlL, anc_step hlL (pathToRoot_self_mem hlL) hcn hpar⟩
      · obtain ⟨ld, lL, hld, hdl, hf, hlL, hmem⟩ := ih e.2 s hs
        exact ⟨ld, lL, hld, hdl, hf, hlL,
          anc_step hlL (List.mem_of_mem_tail hmem) hcn hpar⟩

theorem slots_nodup {h : Heap} (wf : WellFormed h) :
    ∀ (k : Nat) (x : Addr), ((slots k h x).map Prod.fst).Nodup := by
  intro k
  induction k with
  | zero => intro x; simp [slots]
  | succ k ih =>
    intro x
    cases hx : h[x]? with
    | none => simp [slots, hx]
    | some xd =>
      rw [slots_succ k hx]
      -- every slot of the block of a child has that child on its parent chain
      have honpath : ∀ e ∈ xd.children, ∀ cn, h[e.2]? = some cn →
          ∀ s : Addr × Int,
          ((IsDataNode cn = true ∧ s = (e.2, FreeSpace cn)) ∨
            (IsDataNode cn = false ∧ s ∈ slots k h e.2)) →
          ∃ lL, pathToRoot (h.length + 1) h s.1 = some lL ∧ e.2 ∈ lL := by
        intro e _ cn hcn s hd
        rcases hd with ⟨_, rfl⟩ | ⟨_, hs⟩
        · obtain ⟨lL, _, hlL⟩ := wf.path hcn
          exact ⟨lL, hlL, pathToRoot_self_mem hlL⟩
        · obtain ⟨_, lL, _, _, _, hlL, hmem⟩ := slots_sound wf k e.2 s hs
          exact ⟨lL, hlL, List.mem_of_mem_tail hmem⟩
      have hsub : ∀ cs : List (NodeId × Addr), (∀ e ∈ cs, e ∈ xd.children) →
          (cs.map Prod.snd).Nodup → ((slotsOf h (slots k h) cs).map Prod.fst).Nodup := by
        intro cs
        induction cs with
        | nil => intro _ _; simp [slotsOf]
        | cons e rest ihc =>
          intro hmem hnd
          simp only [List.map_cons, List.nodup_cons] at hnd
          have he := hmem e (List.mem_cons_self _ _)
          obtain ⟨cn, hcn, hpar, _⟩ := wf.child_ok hx he
          rw [slotsOf_cons, hcn, List.map_append, List.nodup_append]
          dsimp only
          refine ⟨?_, ihc (fun e' he' => hmem e' (List.mem_cons_of_mem _ he')) hnd.2, ?_⟩
          · by_cases hd : IsDataNode cn = true
            · rw [if_pos hd]; simp
            · rw [if_neg hd]; exact ih e.2
          · intro L hL1 hL2
            obtain ⟨s1, hs1, rfl⟩ := List.mem_map.mp hL1
            obtain ⟨s2, hs2, hs21⟩ := List.mem_map.mp hL2
            have hd1 : (IsDataNode cn = true ∧ s1 = (e.2, FreeSpace cn)) ∨
                (IsDataNode cn = false ∧ s1 ∈ slots k h e.2) := by
              by_cases hd : IsDataNode cn = true
              · rw [if_pos hd] at hs1
                exact Or.inl ⟨hd, by simpa using hs1⟩
              · rw [if_neg hd] at hs1
                exact Or.inr ⟨by simpa using hd, hs1⟩
            obtain ⟨l1, hl1, hm1⟩ := honpath e he cn hcn s1 hd1
            obtain ⟨e', he', cn', hcn', hd2⟩ := mem_slotsOf.mp hs2
            have he'c := hmem e' (List.mem_cons_of_mem _ he')
            obtain ⟨l2, hl2, hm2⟩ := honpath e' he'c cn' hcn' s2 hd2
            rw [hs21] at hl2
            obtain rfl := pathToRoot_det hl1 hl2
            obtain ⟨cn'', hcn'', hpar', _⟩ := wf.child_ok hx he'c
            rw [hcn'] at hcn''
            obtain rfl := Option.some.inj hcn''
            have := same_parent_on_path hl1 hm1 hm2 hcn hcn' hpar hpar'
            apply hnd.1
            rw [this]
            exact List.mem_map.mpr ⟨e', he', rfl⟩
      exact hsub xd.children (fun _ he => he) (wf.addrs_nodup hx)

theorem slots_complete {h : Heap} (wf : WellFormed h) :
    ∀ (k : Nat) (x L : Addr) (xd ld : NodeImpl) (l lL : List Addr),
      h[x]? = some xd → pathToRoot h.length h x = some l → h.length + 1 ≤ k + l.length →
      h[L]? = some ld → IsDataNode ld = true →
      pathToRoot (h.length + 1) h L = some lL → x ∈ lL.tail →
      (L, FreeSpace ld) ∈ slots k h x := by
  intro k
  induction k with
  | zero =>
    intro x L xd ld l lL _ hl hk
    have := length_le_of_nodup_lt (pathToRoot_nodup hl) (pathToRoot_lt hl)
    omega
  | succ k ih =>
    intro x L xd ld l lL hx hl hk hL hd hlL hmem
    obtain ⟨t, rfl⟩ := pathToRoot_head hlL
    have hnd := pathToRoot_nodup hlL
    simp only [List.tail_cons] at hmem
    have hxL : x ≠ L := fun e => (List.nodup_cons.mp hnd).1 (e ▸ hmem)
    obtain ⟨q, qd, hq, hqd, hqp⟩ := pred_on_path hlL x (List.mem_cons_of_mem _ hmem) hxL
    obtain ⟨xd', hx', hqmem⟩ := wf.parent_listed hqd hqp
    rw [hx] at hx'
    obtain rfl := Option.some.inj hx'
    rw [slots_succ k hx, mem_slotsOf]
    refine ⟨(qd.id, q), hqmem, qd, hqd, ?_⟩
    by_cases hqL : q = L
    · subst hqL
      rw [hL] at hqd
      obtain rfl := Option.some.inj hqd
      exact Or.inl ⟨hd, rfl⟩
    · have hqt : q ∈ t := by
        rcases List.mem_cons.mp hq with e | e
        · exact absurd e hqL
        · exact e
      have hqnon : IsDataNode qd = false := by
        obtain ⟨q', qd', _, hqd', hqp'⟩ := pred_on_path hlL q hq hqL
        obtain ⟨qd2, hq2, hmem2⟩ := wf.parent_listed hqd' hqp'
        rw [hqd] at hq2
        obtain rfl := Option.some.inj hq2
        cases hdd : IsDataNode qd with
        | false => rfl
        | true =>
          have := wf.leaf hqd hdd
          rw [this] at hmem2
          simp at hmem2
      have hqpath := (pathToRoot_cons hqd hqp hl (child_not_on_path hl hqd hqp)).2
      exact Or.inr ⟨hqnon, ih q L qd ld (q :: l) (L :: t) hqd hqpath (by simp; omega)
        hL hd hlL (by simpa using hqt)⟩

theorem leavesNonneg_lookup {h : Heap} (hfree : LeavesNonneg h) :
    ∀ (a : Addr) (ad : NodeImpl), h[a]? = some ad → IsDataNode ad = true → 0 ≤ FreeSpace ad :=
  fun a ad ha hd => hfree a (lt_of_lookup ha) ad ha hd

theorem pickResult_eq_some {o : Option Addr} {L : Addr}
    (e : pickResult o = (true, some L)) : o = some L := by
  cases o with
  | none => simp [pickResult] at e
  | some a =>
    simp only [pickResult, Prod.mk.injEq, Option.some.injEq, true_and] at e
    rw [e]

/-- The facts about the top-level call that the reservation claims rest on. -/
theorem reserve_top {h : Heap} {n : Addr} {nd : NodeImpl} (wf : WellFormed h)
    (inv : AggInv h) (hfree : LeavesNonneg h) (hn : h[n]? = some nd) :
    (∀ s ∈ slots (h.length + 1) h n, 0 ≤ s.2) ∧
    (IsDataNode nd = false → total (slots (h.length + 1) h n) = FreeSpace nd) ∧
    (IsDataNode nd = true → slots (h.length + 1) h n = []) ∧
    ∀ (r : Int) (vid : VolumeId), ReserveOneVolume (h.length + 1) h n r vid =
      some (pickResult (pick (slots (h.length + 1) h n) r)) := by
  obtain ⟨l, hl, _⟩ := wf.path hn
  obtain ⟨s1, s2, s3⟩ := reserve_spec wf inv (leavesNonneg_lookup hfree) (h.length + 1) n nd l
    hn hl (by omega)
  refine ⟨s1, s2, ?_, s3⟩
  intro hd
  rw [slots_succ _ hn, wf.leaf hn hd]
  rfl

/-- C8 as stated fails: a tree that is a single storage node with free space 3
meets every hypothesis, and `ReserveOneVolume(0, vid)` on it finds nothing,
because the call only ever looks at children. -/
theorem lone_storage_node_is_never_returned :
    WellFormed loneStorage ∧ AggInv loneStorage ∧ LeavesNonneg loneStorage ∧
    (∀ nd ∈ loneStorage, IsDataNode nd = true ↔ nd.children = []) ∧
    (loneStorage[0]?).map FreeSpace = some 3 ∧
    ReserveOneVolume (loneStorage.length + 1) loneStorage 0 0 0 = some (false, none) := by
  refine ⟨by decide, by decide, by decide, by decide, by decide, by decide⟩

/-- C8, amended (reservation coverage).  In a well-formed heap that satisfies
the aggregate invariant and whose storage nodes have a free space of at least
0, let `n` be a node that is not a storage node, `F` its free space and `S` the
depth-first list, in iteration order, of storage nodes below `n`.  Then `S`
holds exactly the storage nodes that have `n` among their ancestors, each once
and with its free space, and these add up to `F`; for every `r` with
`0 ≤ r < F` the call `n.ReserveOneVolume(r, vid)` returns found together with a
node of `S`; and the node at any position of `S` is returned for exactly the
`r` from the sum of the free spaces before it up to that sum plus its own free
space.  (That every node without children is a storage node is not needed.) -/
theorem reservation_coverage (h : Heap) (n : Addr) (nd : NodeImpl) (vid : VolumeId)
    (wf : WellFormed h) (inv : AggInv h) (hfree : LeavesNonneg h)
    (hn : h[n]? = some nd) (hnon : IsDataNode nd = false) :
    (∀ (L : Addr) (f : Int), (L, f) ∈ slots (h.length + 1) h n ↔
      ∃ ld, h[L]? = some ld ∧ IsDataNode ld = true ∧ f = FreeSpace ld ∧ n ∈ ancestors h L) ∧
    ((slots (h.length + 1) h n).map Prod.fst).Nodup ∧
    total (slots (h.length + 1) h n) = FreeSpace nd ∧
    (∀ r : Int, 0 ≤ r → r < FreeSpace nd →
      ∃ L ∈ (slots (h.length + 1) h n).map Prod.fst,
        ReserveOneVolume (h.length + 1) h n r vid = some (true, some L)) ∧
    (∀ (pre post : List (Addr × Int)) (L : Addr) (f : Int),
      slots (h.length + 1) h n = pre ++ (L, f) :: post →
      ∀ r : Int, 0 ≤ r → r < FreeSpace nd →
        (ReserveOneVolume (h.length + 1) h n r vid = some (true, some L) ↔
          total pre ≤ r ∧ r < total pre + f)) := by
  obtain ⟨hnn, htot, _, hres⟩ := reserve_top wf inv hfree hn
  have htot := htot hnon
  have hnd := slots_nodup wf (h.length + 1) n
  refine ⟨?_, hnd, htot, ?_, ?_⟩
  · intro L f
    constructor
    · intro hmem
      obtain ⟨ld, lL, hld, hd, hf, hlL, hanc⟩ := slots_sound wf _ n (L, f) hmem
      exact ⟨ld, hld, hd, hf, by rw [ancestors_of_path hlL]; exact hanc⟩
    · rintro ⟨ld, hld, hd, rfl, hanc⟩
      obtain ⟨l, hl, _⟩ := wf.path hn
      obtain ⟨lL, _, hlL⟩ := wf.path hld
      rw [ancestors_of_path hlL] at hanc
      exact slots_complete wf (h.length + 1) n L nd ld l lL hn hl (by omega) hld hd hlL hanc
  · intro r h0 hr
    obtain ⟨L, e, _, hmem⟩ := pick_hit [] hnn r (by rw [htot]; exact hr) (by rw [htot]; omega)
    exact ⟨L, hmem, by rw [hres r vid, e]; rfl⟩
  · intro pre post L f hS r h0 hr
    have hpre : ∀ e ∈ pre, 0 ≤ e.2 := fun e he => hnn e (by rw [hS]; simp [he])
    constructor
    · intro e
      rw [hres r vid] at e
      have hp := pickResult_eq_some (Option.some.inj e)
      obtain ⟨pre', L', f', post', hS', h1, h2⟩ := locate hnn r h0 (by rw [htot]; exact hr)
      have hpre' : ∀ e ∈ pre', 0 ≤ e.2 := fun e he => hnn e (by rw [hS']; simp [he])
      have hp' : pick (slots (h.length + 1) h n) r = some L' := by
        rw [hS']; exact pick_interval hpre' h1 h2
      rw [hp] at hp'
      obtain rfl := Option.some.inj hp'
      rw [hS] at hnd hS'
      obtain ⟨rfl, rfl⟩ := split_unique hnd hS'
      exact ⟨h1, h2⟩
    · rintro ⟨h1, h2⟩
      rw [hres r vid, hS, pick_interval hpre h1 h2]
      rfl

theorem reservation_coverage_witness :
    WellFormed twoRacks ∧ AggInv twoRacks ∧ LeavesNonneg twoRacks ∧
    slots 6 twoRacks 0 = [(3, 3), (4, 2)] ∧
    ReserveOneVolume 6 twoRacks 0 1 0 = some (true, some 3) ∧
    ReserveOneVolume 6 twoRacks 0 4 0 = some (true, some 4) ∧
    (∀ r : Int, 0 ≤ r → r < 5 →
      (ReserveOneVolume 6 twoRacks 0 r 0 = some (true, some 4) ↔ 3 ≤ r ∧ r < 3 + 2)) :=
  ⟨by decide, by decide, by decide, by decide, by decide, by decide,
    (reservation_coverage twoRacks 0 _ 0 (by decide) (by decide) (by decide) rfl
      (by decide)).2.2.2.2 [(3, 3)] [] 4 2 (by decide)⟩

/-- C9 (reservation failure).  In a well-formed heap that satisfies the
aggregate invariant and whose storage nodes have a free space of at least 0,
for every node `n` and every budget `r` at or beyond the free space of `n`, the
call `n.ReserveOneVolume(r, vid)` returns not found and no node. -/
theorem reservation_failure (h : Heap) (n : Addr) (nd : NodeImpl) (r : Int) (vid : VolumeId)
    (wf : WellFormed h) (inv : AggInv h) (hfree : LeavesNonneg h)
    (hn : h[n]? = some nd) (hr : FreeSpace nd ≤ r) :
    ReserveOneVolume (h.length + 1) h n r vid = some (false, none) := by
  obtain ⟨hnn, htot, hleaf, hres⟩ := reserve_top wf inv hfree hn
  rw [hres r vid]
  cases hd : IsDataNode nd with
  | true => rw [hleaf hd]; rfl
  | false => rw [pick_none hnn (by rw [htot hd]; exact hr)]; rfl

theorem reservation_failure_witness :
    WellFormed twoRacks ∧ AggInv twoRacks ∧ LeavesNonneg twoRacks ∧
    FreeSpace (mkNode "topo" 2 7 0 "Topology") ≤ 5 ∧
    ReserveOneVolume 6 twoRacks 0 5 0 = some (false, none) :=
  ⟨by decide, by decide, by decide, by decide,
    reservation_failure twoRacks 0 _ 5 0 (by decide) (by decide) (by decide) rfl (by decide)⟩

/-- C10 as stated fails: the two heaps hold the same tree and differ only in
the order in which the children of the root are iterated, and the budget 1
lands on the storage node of R1 in one and on the storage node of R2 in the
other. -/
theorem order_changes_the_returned_node :
    twoRacksSwapped =
      twoRacks.set 0 { mkNode "topo" 2 7 0 "Topology" with
        children := [("R2", 2), ("R1", 1)] } ∧
    WellFormed twoRacks ∧ WellFormed twoRacksSwapped ∧
    (twoRacks[3]?).map (fun x => x.parent) = some (some 1) ∧
    (twoRacks[4]?).map (fun x => x.parent) = some (some 2) ∧
    ReserveOneVolume 6 twoRacks 0 1 0 = some (true, some 3) ∧
    ReserveOneVolume 6 twoRacksSwapped 0 1 0 = some (true, some 4) := by
  refine ⟨by decide, by decide, by decide, by decide, by decide, by decide, by decide⟩

/-- C10, amended.  For the root over the racks R1 (free space 3) and R2 (free
space 2): iterated R1 then R2, the budget 1 lands on the storage node of R1 and
the budget 4 on that of R2; iterated R2 then R1, the budget 1 lands on the
storage node of R2 and the budget 4 on that of R1.  What no iteration order
changes is whether a node is found: in a well-formed heap that satisfies the
aggregate invariant and whose storage nodes have a free space of at least 0, a
node `n` that is not a storage node reports found exactly when `r` is below
its free space and that free space is positive. -/
theorem found_flag_independent_of_order :
    (ReserveOneVolume 6 twoRacks 0 1 0 = some (true, some 3) ∧
     ReserveOneVolume 6 twoRacks 0 4 0 = some (true, some 4) ∧
     ReserveOneVolume 6 twoRacksSwapped 0 1 0 = some (true, some 4) ∧
     ReserveOneVolume 6 twoRacksSwapped 0 4 0 = some (true, some 3)) ∧
    ∀ (h : Heap) (n : Addr) (nd : NodeImpl) (r : Int) (vid : VolumeId),
      WellFormed h → AggInv h → LeavesNonneg h → h[n]? = some nd → IsDataNode nd = false →
      (ReserveOneVolume (h.length + 1) h n r vid).map Prod.fst =
        some (decide (r < FreeSpace nd ∧ 0 < FreeSpace nd)) := by
  refine ⟨⟨by decide, by decide, by decide, by decide⟩, ?_⟩
  intro h n nd r vid wf inv hfree hn hnon
  obtain ⟨hnn, htot, _, hres⟩ := reserve_top wf inv hfree hn
  rw [hres r vid, ← htot hnon]
  have hiff := pick_isSome_iff hnn r
  cases hp : pick (slots (h.length + 1) h n) r with
  | none =>
    rw [hp] at hiff
    have : ¬ (r < total (slots (h.length + 1) h n) ∧ 0 < total (slots (h.length + 1) h n)) :=
      fun hc => by simpa using hiff.mpr hc
    simp [pickResult, this]
  | some L =>
    rw [hp] at hiff
    have := hiff.mp rfl
    simp [pickResult, this]

theorem found_flag_independent_of_order_witness :
    WellFormed twoRacks ∧ WellFormed twoRacksSwapped ∧
    (ReserveOneVolume 6 twoRacks 0 4 0).map Prod.fst = some true ∧
    (ReserveOneVolume 6 twoRacksSwapped 0 4 0).map Prod.fst = some true ∧
    (ReserveOneVolume 6 twoRacks 0 5 0).map Prod.fst = some false ∧
    (ReserveOneVolume 6 twoRacksSwapped 0 5 0).map Prod.fst = some false :=
  ⟨by decide, by decide,
    (found_flag_independent_of_order.2 twoRacks 0 _ 4 0 (by decide) (by decide) (by decide) rfl
      (by decide)).trans (by decide),
    (found_flag_independent_of_order.2 twoRacksSwapped 0 _ 4 0 (by decide) (by decide)
      (by decide) rfl (by decide)).trans (by decide),
    (found_flag_independent_of_order.2 twoRacks 0 _ 5 0 (by decide) (by decide) (by decide) rfl
      (by decide)).trans (by decide),
    (found_flag_independent_of_order.2 twoRacksSwapped 0 _ 5 0 (by decide) (by decide)
      (by decide) rfl (by decide)).trans (by decide)⟩

/-! ## The remaining facts about the placement selector -/

/-- C11 (the volume id does not influence selection).  For every heap, node,
budget and fuel, `ReserveOneVolume` returns the same pair, found flag and node,
for any two volume ids; and the call at a node is the scan of its children in
which every nested call receives the volume id of the caller. -/
theorem reserve_ignores_volume_id (h : Heap) (vid1 vid2 : VolumeId) :
    (∀ (fuel : Nat) (n : Addr) (r : Int),
      ReserveOneVolume fuel h n r vid1 = ReserveOneVolume fuel h n r vid2) ∧
    (∀ (fuel : Nat) (n : Addr) (nd : NodeImpl) (r : Int), h[n]? = some nd →
      ReserveOneVolume (fuel + 1) h n r vid1 =
        reserveLoop h (fun c r1 => ReserveOneVolume fuel h c r1 vid1) nd.children r false
          none) := by
  refine ⟨?_, fun fuel n nd r hn => ReserveOneVolume_succ fuel hn r vid1⟩
  intro fuel
  induction fuel with
  | zero => intro n r; rfl
  | succ k ih =>
    intro n r
    cases hn : h[n]? with
    | none => simp [ReserveOneVolume, hn]
    | some nd =>
      rw [ReserveOneVolume_succ k hn, ReserveOneVolume_succ k hn]
      have : (fun c r1 => ReserveOneVolume k h c r1 vid1) =
          (fun c r1 => ReserveOneVolume k h c r1 vid2) := by
        funext c r1
        exact ih c r1
      rw [this]

theorem reserve_ignores_volume_id_witness :
    ReserveOneVolume 6 twoRacks 0 4 11 = ReserveOneVolume 6 twoRacks 0 4 22 ∧
    ReserveOneVolume 6 twoRacks 0 4 11 = some (true, some 4) :=
  ⟨(reserve_ignores_volume_id twoRacks 11 22).1 6 0 4, by decide⟩

/-- What `ReserveOneVolume` at `x` may return: nothing, or a storage node with
room that has `x` among its proper ancestors. -/
theorem reserveLoop_shape {h : Heap} (wf : WellFormed h) {x : Addr} {xd : NodeImpl}
    (hx : h[x]? = some xd) (rec : Addr → Int → Option (Bool × Option Addr))
    (hrec : ∀ e ∈ xd.children, ∀ r, ∃ res, rec e.2 r = some res ∧
      (res = (false, none) ∨ ∃ L ld lL, res = (true, some L) ∧ h[L]? = some ld ∧
        IsDataNode ld = true ∧ 0 < FreeSpace ld ∧
        pathToRoot (h.length + 1) h L = some lL ∧ e.2 ∈ lL.tail)) :
    ∀ (cs : List (NodeId × Addr)), (∀ e ∈ cs, e ∈ xd.children) → ∀ r,
      ∃ res, reserveLoop h rec cs r false none = some res ∧
        (res = (false, none) ∨ ∃ L ld lL, res = (true, some L) ∧ h[L]? = some ld ∧
          IsDataNode ld = true ∧ 0 < FreeSpace ld ∧
          pathToRoot (h.length + 1) h L = some lL ∧ x ∈ lL.tail) := by
  intro cs
  induction cs with
  | nil => intro _ r; exact ⟨(false, none), rfl, Or.inl rfl⟩
  | cons e rest ih =>
    intro hmem r
    have he := hmem e (List.mem_cons_self _ _)
    have ih' := ih (fun e' he' => hmem e' (List.mem_cons_of_mem _ he'))
    obtain ⟨cn, hcn, hpar, _⟩ := wf.child_ok hx he
    by_cases hle : FreeSpace cn ≤ 0
    · have : reserveLoop h rec (e :: rest) r false none =
          reserveLoop h rec rest r false none := by
        simp [reserveLoop, hcn, hle]
      rw [this]
      exact ih' r
    · by_cases hge : r ≥ FreeSpace cn
      · have : reserveLoop h rec (e :: rest) r false none =
            reserveLoop h rec rest (r - FreeSpace cn) false none := by
          simp [reserveLoop, hcn, hle, hge]
        rw [this]
        exact ih' _
      · have hpos : 0 < FreeSpace cn := by omega
        by_cases hd : IsDataNode cn = true
        · have : reserveLoop h rec (e :: rest) r false none = some (true, some e.2) := by
            simp [reserveLoop, hcn, hle, hge, hd, hpos]
          rw [this]
          obtain ⟨lL, _, hlL⟩ := wf.path hcn
          exact ⟨_, rfl, Or.inr ⟨e.2, cn, lL, rfl, hcn, hd, hpos, hlL,
            anc_step hlL (pathToRoot_self_mem hlL) hcn hpar⟩⟩
        · have hd' : IsDataNode cn = false := by simpa using hd
          obtain ⟨res, hres, hshape⟩ := hrec e he r
          rcases hshape with rfl | ⟨L, ld, lL, rfl, hld, hdl, hfl, hlL, hanc⟩
          · have : reserveLoop h rec (e :: rest) r false none =
                reserveLoop h rec rest r false none := by
              simp [reserveLoop, hcn, hle, hge, hd', hres]
            rw [this]
            exact ih' r
          · have : reserveLoop h rec (e :: rest) r false none = some (true, some L) := by
              simp [reserveLoop, hcn, hle, hge, hd', hres]
            rw [this]
            exact ⟨_, rfl, Or.inr ⟨L, ld, lL, rfl, hld, hdl, hfl, hlL,
              anc_step hlL (List.mem_of_mem_tail hanc) hcn hpar⟩⟩

theorem reserve_shape {h : Heap} (wf : WellFormed h) (vid : VolumeId) :
    ∀ (k : Nat) (x : Addr) (xd : NodeImpl) (l : List Addr), h[x]? = some xd →
      pathToRoot h.length h x = some l → h.length + 1 ≤ k + l.length → ∀ r,
      ∃ res, ReserveOneVolume k h x r vid = some res ∧
        (res = (false, none) ∨ ∃ L ld lL, res = (true, some L) ∧ h[L]? = some ld ∧
          IsDataNode ld = true ∧ 0 < FreeSpace ld ∧
          pathToRoot (h.length + 1) h L = some lL ∧ x ∈ lL.tail) := by
  intro k
  induction k with
  | zero =>
    intro x xd l _ hl hk
    have := length_le_of_nodup_lt (pathToRoot_nodup hl) (pathToRoot_lt hl)
    omega
  | succ k ih =>
    intro x xd l hx hl hk r
    rw [ReserveOneVolume_succ k hx]
    apply reserveLoop_shape wf hx _ _ xd.children (fun _ he => he)
    intro e he r'
    obtain ⟨cn, hcn, hpar, _⟩ := wf.child_ok hx he
    have hpath := (pathToRoot_cons hcn hpar hl (child_not_on_path hl hcn hpar)).2
    exact ih e.2 cn (e.2 :: l) hcn hpath (by simp; omega) r'

/-- C12 (result shape of `ReserveOneVolume`).  In a well-formed heap, whatever
its counters, the call at a node `n` returns; the found flag is true exactly
when a node is returned, a false flag comes with no node, and a returned node
is a storage node with strictly positive free space that has `n` among its
proper ancestors. -/
theorem reserve_result_shape (h : Heap) (n : Addr) (nd : NodeImpl) (r : Int) (vid : VolumeId)
    (wf : WellFormed h) (hn : h[n]? = some nd) :
    ∃ res, ReserveOneVolume (h.length + 1) h n r vid = some res ∧
      (res.1 = true ↔ res.2.isSome = true) ∧
      (res.1 = false → res.2 = none) ∧
      (res.1 = true → ∃ L ld, res.2 = some L ∧ h[L]? = some ld ∧
        IsDataNode ld = true ∧ 0 < FreeSpace ld ∧ n ∈ ancestors h L) := by
  obtain ⟨l, hl, _⟩ := wf.path hn
  obtain ⟨res, hres, hshape⟩ := reserve_shape wf vid (h.length + 1) n nd l hn hl (by omega) r
  refine ⟨res, hres, ?_⟩
  rcases hshape with rfl | ⟨L, ld, lL, rfl, hld, hd, hf, hlL, hanc⟩
  · simp
  · refine ⟨by simp, by simp, fun _ => ⟨L, ld, rfl, hld, hd, hf, ?_⟩⟩
    rw [ancestors_of_path hlL]
    exact hanc

theorem reserve_result_shape_witness :
    WellFormed stalledTree ∧ ¬ AggInv stalledTree ∧
    ∃ res, ReserveOneVolume (stalledTree.length + 1) stalledTree 0 1 0 = some res ∧
      (res.1 = true ↔ res.2.isSome = true) ∧
      (res.1 = false → res.2 = none) ∧
      (res.1 = true → ∃ L ld, res.2 = some L ∧ stalledTree[L]? = some ld ∧
        IsDataNode ld = true ∧ 0 < FreeSpace ld ∧ 0 ∈ ancestors stalledTree L) :=
  ⟨by decide, by decide, reserve_result_shape stalledTree 0 _ 1 0 (by decide) rfl⟩

/-- C19 (a failed nested reservation does not end the scan).  When the scan,
with budget `r`, stands before a child that is not a storage node, has
positive free space above `r`, and whose own `ReserveOneVolume(r, vid)` returns
not found, the scan goes on over the children that follow, with the same budget
`r` and with the two result variables holding what the nested call returned;
when the nested call returns found, the scan ends at once with that result.
In `stalledTree` the nested call on the data center fails and the rack that
follows supplies the storage node. -/
theorem failed_nested_reservation_continues (h : Heap)
    (rec : Addr → Int → Option (Bool × Option Addr)) (e : NodeId × Addr)
    (rest : List (NodeId × Addr)) (cn : NodeImpl) (r : Int) (ret : Bool)
    (assignedNode : Option Addr)
    (hcn : h[e.2]? = some cn) (hkind : IsDataNode cn = false)
    (hpos : 0 < FreeSpace cn) (hlt : r < FreeSpace cn) :
    (∀ asg, rec e.2 r = some (false, asg) →
      reserveLoop h rec (e :: rest) r ret assignedNode = reserveLoop h rec rest r false asg) ∧
    (∀ asg, rec e.2 r = some (true, asg) →
      reserveLoop h rec (e :: rest) r ret assignedNode = some (true, asg)) ∧
    (ReserveOneVolume 4 stalledTree 1 1 0 = some (false, none) ∧
      ReserveOneVolume 5 stalledTree 0 1 0 = some (true, some 3)) := by
  have hle : ¬ FreeSpace cn ≤ 0 := by omega
  have hge : ¬ r ≥ FreeSpace cn := by omega
  refine ⟨?_, ?_, by decide, by decide⟩
  · intro asg hrec
    simp [reserveLoop, hcn, hle, hge, hkind, hrec]
  · intro asg hrec
    simp [reserveLoop, hcn, hle, hge, hkind, hrec]

theorem failed_nested_reservation_continues_witness :
    reserveLoop stalledTree (fun c r1 => ReserveOneVolume 4 stalledTree c r1 0)
        [("dc", 1), ("R", 2)] 1 false none =
      reserveLoop stalledTree (fun c r1 => ReserveOneVolume 4 stalledTree c r1 0)
        [("R", 2)] 1 false none ∧
    ReserveOneVolume 4 stalledTree 1 1 0 = some (false, none) ∧
    ReserveOneVolume 5 stalledTree 0 1 0 = some (true, some 3) :=
  ⟨(failed_nested_reservation_continues stalledTree
      (fun c r1 => ReserveOneVolume 4 stalledTree c r1 0) ("dc", 1) [("R", 2)]
      { mkNode "dc" 0 5 0 "DataCenter" with parent := some 0 } 1 false none rfl
      (by decide) (by decide) (by decide)).1 none (by decide),
   by decide, by decide⟩

/-! ## The writable-volume collector -/

theorem collectVolumes_eq (s : Nat) :
    ∀ (vols : List (VolumeId × VolumeInfo)) (ret : List VolumeId),
      collectVolumes s vols ret =
        ret ++ (vols.filter (fun e => decide (sizeAsUint64 e.2 < s))).map (fun e => e.2.Id) := by
  intro vols
  induction vols with
  | nil => intro ret; simp [collectVolumes]
  | cons v rest ih =>
    intro ret
    by_cases hv : sizeAsUint64 v.2 < s
    · simp [collectVolumes, hv, ih, List.filter_cons]
    · simp [collectVolumes, hv, ih, List.filter_cons]

theorem collectVolumes_fit {s : Nat} {dn : NodeImpl}
    (hfit : ∀ e ∈ dn.volumes, e.2.Size < 2 ^ 64) (ret : List VolumeId) :
    collectVolumes s dn.volumes ret = ret ++ eligibleIds s dn := by
  rw [collectVolumes_eq, eligibleIds]
  congr 2
  apply List.filter_congr
  intro e he
  have := Nat.mod_eq_of_lt (hfit e he)
  simp only [sizeAsUint64, this]

theorem rackIds_cons (h : Heap) (t : Int) (s : Nat) (e : NodeId × Addr)
    (rest : List (NodeId × Addr)) :
    rackIds h t s (e :: rest) =
      (match h[e.2]? with
        | some dn => if dn.lastSeen > t then [] else eligibleIds s dn
        | none => []) ++ rackIds h t s rest := by
  simp [rackIds]

/-- The loop of the rack branch over storage nodes appends what the children
contribute. -/
theorem collectRack_eq {h : Heap} (t : Int) (s : Nat) :
    ∀ (cs : List (NodeId × Addr)),
      (∀ e ∈ cs, ∃ dn, h[e.2]? = some dn ∧ IsDataNode dn = true ∧
        ∀ v ∈ dn.volumes, v.2.Size < 2 ^ 64) →
      ∀ ret, collectRack h t s cs ret = some (ret ++ rackIds h t s cs) := by
  intro cs
  induction cs with
  | nil => intro _ ret; simp [collectRack, rackIds]
  | cons e rest ih =>
    intro hch ret
    obtain ⟨dn, hdn, hd, hfit⟩ := hch e (List.mem_cons_self _ _)
    have ih' := ih (fun e' he' => hch e' (List.mem_cons_of_mem _ he'))
    rw [rackIds_cons, hdn]
    by_cases hseen : dn.lastSeen > t
    · simp only [collectRack, hdn, hd, if_true, hseen, ih', List.nil_append]
    · simp only [collectRack, hdn, hd, if_true, hseen, if_false, ih', collectVolumes_fit hfit,
        List.append_assoc]

/-- C13 (rack-level collection).  For a rack whose children are all storage
nodes, with volume sizes that fit the 64-bit word: `CollectWritableVolumes(t, s)`
returns, in iteration order, for every child `dn` that is not skipped (`dn` is
skipped exactly when `dn.lastSeen > t`) the identifier of every Volume Record of
`dn` with size strictly below `s`, one identifier per record and nothing else;
a record of size `s` is therefore left out, and a rack without children, or
without such records, returns the empty list. -/
theorem rack_level_collection (h : Heap) (n : Addr) (nd : NodeImpl) (t : Int) (s : Nat)
    (fuel : Nat) (hn : h[n]? = some nd) (hrack : IsRack nd = true)
    (hkids : ∀ e ∈ nd.children, ∃ dn ∈ h[e.2]?, IsDataNode dn = true)
    (hfit : SizesFit h) :
    CollectWritableVolumes (fuel + 1) h n t s = some (rackIds h t s nd.children) ∧
    (∀ v : VolumeId, v ∈ rackIds h t s nd.children ↔
      ∃ e ∈ nd.children, ∃ dn, h[e.2]? = some dn ∧ ¬ dn.lastSeen > t ∧
        ∃ rec ∈ dn.volumes, rec.2.Size < s ∧ rec.2.Id = v) ∧
    (rackIds h t s nd.children).length =
      (nd.children.map (fun e => match h[e.2]? with
        | some dn => if dn.lastSeen > t then 0
            else dn.volumes.countP (fun rec => decide (rec.2.Size < s))
        | none => 0)).sum ∧
    (nd.children = [] → CollectWritableVolumes (fuel + 1) h n t s = some []) := by
  have hmain : CollectWritableVolumes (fuel + 1) h n t s = some (rackIds h t s nd.children) := by
    simp only [CollectWritableVolumes, hn, hrack, if_true]
    rw [collectRack_eq t s nd.children ?_ [], List.nil_append]
    intro e he
    obtain ⟨dn, hdn, hd⟩ := hkids e he
    exact ⟨dn, hdn, hd, hfit dn (List.getElem?_mem hdn)⟩
  refine ⟨hmain, ?_, ?_, ?_⟩
  · intro v
    simp only [rackIds, List.mem_flatMap]
    constructor
    · rintro ⟨e, he, hv⟩
      cases hdn : h[e.2]? with
      | none => rw [hdn] at hv; simp at hv
      | some dn =>
        rw [hdn] at hv
        by_cases hseen : dn.lastSeen > t
        · simp [hseen] at hv
        · simp only [hseen, if_false, eligibleIds, List.mem_map, List.mem_filter,
            decide_eq_true_eq] at hv
          obtain ⟨rec, ⟨hrec, hsz⟩, hid⟩ := hv
          exact ⟨e, he, dn, hdn, hseen, rec, hrec, hsz, hid⟩
    · rintro ⟨e, he, dn, hdn, hseen, rec, hrec, hsz, hid⟩
      refine ⟨e, he, ?_⟩
      rw [hdn]
      simp only [hseen, if_false, eligibleIds, List.mem_map, List.mem_filter,
        decide_eq_true_eq]
      exact ⟨rec, ⟨hrec, hsz⟩, hid⟩
  · generalize nd.children = ch
    induction ch with
    | nil => simp [rackIds]
    | cons e rest ih =>
      rw [rackIds_cons, List.length_append, ih, List.map_cons, List.sum_cons]
      congr 1
      cases h[e.2]? with
      | none => simp
      | some dn =>
        by_cases hseen : dn.lastSeen > t
        · simp [hseen]
        · simp [hseen, eligibleIds, List.countP_eq_length_filter]
  · intro hnil
    rw [hmain, hnil]
    rfl

theorem rack_level_collection_witness :
    SizesFit rackOfTwo ∧
    CollectWritableVolumes 4 rackOfTwo 0 200 30 = some [1, 9] ∧
    CollectWritableVolumes 4 rackOfTwo 0 200 10 = some [9] :=
  ⟨by decide,
    ((rack_level_collection rackOfTwo 0 _ 200 30 3 rfl (by decide) (by decide)
      (by decide)).1).trans (by decide),
    ((rack_level_collection rackOfTwo 0 _ 200 10 3 rfl (by decide) (by decide)
      (by decide)).1).trans (by decide)⟩

/-- C14, as the code behaves: in `rackOfTwo`, with threshold 50 and ceiling 30,
the storage node last seen at 100, after the threshold, is skipped although it
holds a volume of size 10, and the storage node last seen at 10, before the
threshold, contributes its volume 9.  The test of line 154 skips a child when
`dn.lastSeen > freshThreshHold`. -/
theorem collector_skips_the_fresh_node :
    (rackOfTwo[1]?).map (fun dn => (dn.lastSeen, dn.volumes.map (fun e => (e.2.Id, e.2.Size)))) =
      some (100, [(1, 10), (2, 50)]) ∧
    (rackOfTwo[2]?).map (fun dn => (dn.lastSeen, dn.volumes.map (fun e => (e.2.Id, e.2.Size)))) =
      some (10, [(9, 5)]) ∧
    CollectWritableVolumes (rackOfTwo.length + 1) rackOfTwo 0 50 30 = some [9] := by
  refine ⟨by decide, by decide, by decide⟩

theorem collectChildren_eq {rec : Addr → Option (List VolumeId)} {g : Addr → List VolumeId} :
    ∀ (cs : List (NodeId × Addr)), (∀ e ∈ cs, rec e.2 = some (g e.2)) →
      ∀ ret, collectChildren rec cs ret = some (ret ++ cs.flatMap (fun e => g e.2)) := by
  intro cs
  induction cs with
  | nil => intro _ ret; simp [collectChildren]
  | cons e rest ih =>
    intro hch ret
    have he := hch e (List.mem_cons_self _ _)
    simp only [collectChildren, he, List.flatMap_cons]
    rw [ih (fun e' he' => hch e' (List.mem_cons_of_mem _ he')), List.append_assoc]

theorem racksOf_eq (rec : Addr → List Addr) :
    ∀ cs : List (NodeId × Addr), racksOf rec cs = cs.flatMap (fun e => rec e.2) := by
  intro cs
  induction cs with
  | nil => rfl
  | cons e rest ih => simp [racksOf, ih]

theorem mem_racksOf {rec : Addr → List Addr} {R : Addr} {cs : List (NodeId × Addr)} :
    R ∈ racksOf rec cs ↔ ∃ e ∈ cs, R ∈ rec e.2 := by
  rw [racksOf_eq, List.mem_flatMap]

theorem racksBelow_rack {h : Heap} {n : Addr} {nd : NodeImpl} (k : Nat)
    (hn : h[n]? = some nd) (hr : IsRack nd = true) : racksBelow (k + 1) h n = [n] := by
  simp [racksBelow, hn, hr]

theorem racksBelow_other {h : Heap} {n : Addr} {nd : NodeImpl} (k : Nat)
    (hn : h[n]? = some nd) (hr : IsRack nd = false) :
    racksBelow (k + 1) h n = racksOf (racksBelow k h) nd.children := by
  simp [racksBelow, hn, hr]

theorem rackResult_eq {h : Heap} {n : Addr} {nd : NodeImpl} (t : Int) (s : Nat)
    (hn : h[n]? = some nd) : rackResult h t s n = rackIds h t s nd.children := by
  simp [rackResult, hn]

theorem RacksHoldStorage.kids {h : Heap} (hold : RacksHoldStorage h) (hfit : SizesFit h)
    {n : Addr} {nd : NodeImpl} (hn : h[n]? = some nd) (hr : IsRack nd = true) :
    ∀ e ∈ nd.children, ∃ dn, h[e.2]? = some dn ∧ IsDataNode dn = true ∧
      ∀ v ∈ dn.volumes, v.2.Size < 2 ^ 64 := by
  intro e he
  obtain ⟨dn, hdn, hd⟩ := hold nd (List.getElem?_mem hn) hr e he
  exact ⟨dn, hdn, hd, hfit dn (List.getElem?_mem hdn)⟩

/-- With enough fuel the collector returns the rack-level results of the racks
below the node, one after the other. -/
theorem collect_spec {h : Heap} (wf : WellFormed h) (hold : RacksHoldStorage h)
    (hfit : SizesFit h) (t : Int) (s : Nat) :
    ∀ (k : Nat) (x : Addr) (xd : NodeImpl) (l : List Addr), h[x]? = some xd →
      pathToRoot h.length h x = some l → h.length + 1 ≤ k + l.length →
      CollectWritableVolumes k h x t s =
        some ((racksBelow k h x).flatMap (rackResult h t s)) := by
  intro k
  induction k with
  | zero =>
    intro x xd l _ hl hk
    have := length_le_of_nodup_lt (pathToRoot_nodup hl) (pathToRoot_lt hl)
    omega
  | succ k ih =>
    intro x xd l hx hl hk
    cases hr : IsRack xd with
    | true =>
      rw [racksBelow_rack k hx hr, List.flatMap_singleton, rackResult_eq t s hx]
      simp only [CollectWritableVolumes, hx, hr, if_true]
      rw [collectRack_eq t s xd.children (hold.kids hfit hx hr) [], List.nil_append]
    | false =>
      rw [racksBelow_other k hx hr, racksOf_eq, List.flatMap_assoc]
      simp only [CollectWritableVolumes, hx, hr]
      rw [collectChildren_eq (g := fun c => (racksBelow k h c).flatMap (rackResult h t s))
        xd.children ?_ [], List.nil_append]
      · rfl
      · intro e he
        obtain ⟨cn, hcn, hpar, _⟩ := wf.child_ok hx he
        have hpath := (pathToRoot_cons hcn hpar hl (child_not_on_path hl hcn hpar)).2
        exact ih e.2 cn (e.2 :: l) hcn hpath (by simp; omega)

theorem racksBelow_sound {h : Heap} (wf : WellFormed h) :
    ∀ (k : Nat) (x R : Addr), R ∈ racksBelow k h x →
      ∃ rd lR, h[R]? = some rd ∧ IsRack rd = true ∧
        pathToRoot (h.length + 1) h R = some lR ∧ x ∈ lR := by
  intro k
  induction k with
  | zero => intro x R hR; simp [racksBelow] at hR
  | succ k ih =>
    intro x R hR
    cases hx : h[x]? with
    | none => simp [racksBelow, hx] at hR
    | some xd =>
      cases hr : IsRack xd with
      | true =>
        rw [racksBelow_rack k hx hr] at hR
        simp only [List.mem_singleton] at hR
        subst hR
        obtain ⟨l, _, hl⟩ := wf.path hx
        exact ⟨xd, l, hx, hr, hl, pathToRoot_self_mem hl⟩
      | false =>
        rw [racksBelow_other k hx hr, mem_racksOf] at hR
        obtain ⟨e, he, hRe⟩ := hR
        obtain ⟨cn, hcn, hpar, _⟩ := wf.child_ok hx he
        obtain ⟨rd, lR, hrd, hrr, hlR, hmem⟩ := ih e.2 R hRe
        exact ⟨rd, lR, hrd, hrr, hlR, List.mem_of_mem_tail (anc_step hlR hmem hcn hpar)⟩

theorem rack_not_storage {nd : NodeImpl} (hr : IsRack nd = true) : IsDataNode nd = false := by
  simp only [IsRack, decide_eq_true_eq] at hr
  simp [IsDataNode, hr]

theorem racksBelow_complete {h : Heap} (wf : WellFormed h) (hold : RacksHoldStorage h) :
    ∀ (k : Nat) (x R : Addr) (xd rd : NodeImpl) (l lR : List Addr),
      h[x]? = some xd → pathToRoot h.length h x = some l → h.length + 1 ≤ k + l.length →
      h[R]? = some rd → IsRack rd = true →
      pathToRoot (h.length + 1) h R = some lR → x ∈ lR → R ∈ racksBelow k h x := by
  intro k
  induction k with
  | zero =>
    intro x R xd rd l lR _ hl hk
    have := length_le_of_nodup_lt (pathToRoot_nodup hl) (pathToRoot_lt hl)
    omega
  | succ k ih =>
    intro x R xd rd l lR hx hl hk hR hrr hlR hmem
    by_cases hxR : x = R
    · subst hxR
      rw [hx] at hR
      obtain rfl := Option.some.inj hR
      rw [racksBelow_rack k hx hrr]
      simp
    · obtain ⟨q, qd, hq, hqd, hqp⟩ := pred_on_path hlR x hmem hxR
      obtain ⟨xd', hx', hqmem⟩ := wf.parent_listed hqd hqp
      rw [hx] at hx'
      obtain rfl := Option.some.inj hx'
      have hxr : IsRack xd = false := by
        cases hr : IsRack xd with
        | false => rfl
        | true =>
          exfalso
          obtain ⟨qd', hqd', hqdn⟩ := hold xd (List.getElem?_mem hx) hr _ hqmem
          simp only at hqd'
          rw [Option.mem_def, hqd] at hqd'
          obtain rfl := Option.some.inj hqd'
          by_cases hqR : q = R
          · subst hqR
            rw [hqd] at hR
            obtain rfl := Option.some.inj hR
            rw [rack_not_storage hrr] at hqdn
            simp at hqdn
          · obtain ⟨q', qd2, _, hqd2, hqp2⟩ := pred_on_path hlR q hq hqR
            obtain ⟨qd3, hq3, hmem3⟩ := wf.parent_listed hqd2 hqp2
            rw [hqd] at hq3
            obtain rfl := Option.some.inj hq3
            rw [wf.leaf hqd hqdn] at hmem3
            simp at hmem3
      rw [racksBelow_other k hx hxr, mem_racksOf]
      have hqpath := (pathToRoot_cons hqd hqp hl (child_not_on_path hl hqd hqp)).2
      exact ⟨(qd.id, q), hqmem,
        ih q R qd rd (q :: l) lR hqd hqpath (by simp; omega) hR hrr hlR hq⟩

theorem racksBelow_nodup {h : Heap} (wf : WellFormed h) :
    ∀ (k : Nat) (x : Addr), (racksBelow k h x).Nodup := by
  intro k
  induction k with
  | zero => intro x; simp [racksBelow]
  | succ k ih =>
    intro x
    cases hx : h[x]? with
    | none => simp [racksBelow, hx]
    | some xd =>
      cases hr : IsRack xd with
      | true => rw [racksBelow_rack k hx hr]; simp
      | false =>
        rw [racksBelow_other k hx hr]
        have hsub : ∀ cs : List (NodeId × Addr), (∀ e ∈ cs, e ∈ xd.children) →
            (cs.map Prod.snd).Nodup → (racksOf (racksBelow k h) cs).Nodup := by
          intro cs
          induction cs with
          | nil => intro _ _; simp [racksOf]
          | cons e rest ihc =>
            intro hmem hnd
            simp only [List.map_cons, List.nodup_cons] at hnd
            have he := hmem e (List.mem_cons_self _ _)
            obtain ⟨cn, hcn, hpar, _⟩ := wf.child_ok hx he
            simp only [racksOf]
            rw [List.nodup_append]
            refine ⟨ih e.2, ihc (fun e' he' => hmem e' (List.mem_cons_of_mem _ he')) hnd.2, ?_⟩
            intro R hR1 hR2
            obtain ⟨e', he', hR2'⟩ := mem_racksOf.mp hR2
            have he'c := hmem e' (List.mem_cons_of_mem _ he')
            obtain ⟨cn', hcn', hpar', _⟩ := wf.child_ok hx he'c
            obtain ⟨_, l1, _, _, hl1, hm1⟩ := racksBelow_sound wf k e.2 R hR1
            obtain ⟨_, l2, _, _, hl2, hm2⟩ := racksBelow_sound wf k e'.2 R hR2'
            obtain rfl := pathToRoot_det hl1 hl2
            have := same_parent_on_path hl1 hm1 hm2 hcn hcn' hpar hpar'
            apply hnd.1
            rw [this]
            exact List.mem_map.mpr ⟨e', he', rfl⟩
        exact hsub xd.children (fun _ he => he) (wf.addrs_nodup hx)

/-- C15 as stated fails: in `misplaced` the storage node sits directly under
the rack, but the rack also holds a data center; the type assertion of line 153
stops the program on it, so the call at the root returns nothing at all. -/
theorem misplaced_child_stops_collection :
    WellFormed misplaced ∧
    (∀ nd ∈ misplaced, IsDataNode nd = true →
      ∃ p ∈ nd.parent, ∃ pn ∈ misplaced[p]?, IsRack pn = true) ∧
    CollectWritableVolumes (misplaced.length + 1) misplaced 0 50 30 = none := by
  refine ⟨by decide, by decide, by decide⟩

/-- C15, amended (non-rack collection dispatches only).  For a node that is not
a rack, `CollectWritableVolumes(t, s)` is the concatenation, in child iteration
order, of what the same call returns on each child; without children it is the
empty list.  In a well-formed heap whose racks hold only storage nodes (and
whose volume sizes fit the 64-bit word), the call at any node returns the
rack-level results of the racks of its subtree one after the other, every rack
of the subtree being listed once; so its length is the sum of their lengths. -/
theorem collect_dispatches (h : Heap) (t : Int) (s : Nat) :
    (∀ (fuel : Nat) (n : Addr) (nd : NodeImpl) (res : Addr → List VolumeId),
      h[n]? = some nd → IsRack nd = false →
      (∀ e ∈ nd.children, CollectWritableVolumes fuel h e.2 t s = some (res e.2)) →
      CollectWritableVolumes (fuel + 1) h n t s =
        some (nd.children.flatMap (fun e => res e.2))) ∧
    (WellFormed h → RacksHoldStorage h → SizesFit h →
      ∀ (n : Addr) (nd : NodeImpl), h[n]? = some nd →
        CollectWritableVolumes (h.length + 1) h n t s =
          some ((racksBelow (h.length + 1) h n).flatMap (rackResult h t s)) ∧
        (∀ R : Addr, R ∈ racksBelow (h.length + 1) h n ↔
          ∃ rd, h[R]? = some rd ∧ IsRack rd = true ∧ n ∈ selfAndAncestors h R) ∧
        (racksBelow (h.length + 1) h n).Nodup ∧
        (∀ R ∈ racksBelow (h.length + 1) h n, ∀ fuel,
          CollectWritableVolumes (fuel + 1) h R t s = some (rackResult h t s R)) ∧
        ((racksBelow (h.length + 1) h n).flatMap (rackResult h t s)).length =
          ((racksBelow (h.length + 1) h n).map
            (fun R => (rackResult h t s R).length)).sum) := by
  constructor
  · intro fuel n nd res hn hr hkids
    simp only [CollectWritableVolumes, hn, hr]
    rw [collectChildren_eq (g := res) nd.children hkids [], List.nil_append]
    rfl
  · intro wf hold hfit n nd hn
    obtain ⟨l, hl, _⟩ := wf.path hn
    refine ⟨collect_spec wf hold hfit t s (h.length + 1) n nd l hn hl (by omega), ?_,
      racksBelow_nodup wf _ n, ?_, ?_⟩
    · intro R
      constructor
      · intro hR
        obtain ⟨rd, lR, hrd, hrr, hlR, hmem⟩ := racksBelow_sound wf _ n R hR
        exact ⟨rd, hrd, hrr, by rw [selfAndAncestors_eq hlR]; exact hmem⟩
      · rintro ⟨rd, hrd, hrr, hmem⟩
        obtain ⟨lR, _, hlR⟩ := wf.path hrd
        rw [selfAndAncestors_eq hlR] at hmem
        exact racksBelow_complete wf hold (h.length + 1) n R nd rd l lR hn hl (by omega)
          hrd hrr hlR hmem
    · intro R hR fuel
      obtain ⟨rd, _, hrd, hrr, _, _⟩ := racksBelow_sound wf _ n R hR
      rw [rackResult_eq t s hrd]
      simp only [CollectWritableVolumes, hrd, hrr, if_true]
      rw [collectRack_eq t s rd.children (hold.kids hfit hrd hrr) [], List.nil_append]
    · rw [List.length_flatMap]
      rfl

theorem collect_dispatches_witness :
    WellFormed twoRackVolumes ∧ RacksHoldStorage twoRackVolumes ∧ SizesFit twoRackVolumes ∧
    racksBelow 6 twoRackVolumes 0 = [1, 2] ∧
    CollectWritableVolumes 6 twoRackVolumes 0 50 30 = some [1, 7] ∧
    CollectWritableVolumes 5 twoRackVolumes 1 50 30 = some [1] ∧
    CollectWritableVolumes 5 twoRackVolumes 2 50 30 = some [7] :=
  ⟨by decide, by decide, by decide, by decide,
    (((collect_dispatches twoRackVolumes 50 30).2 (by decide) (by decide) (by decide) 0 _
      rfl).1).trans (by decide),
    by decide, by decide⟩

/-! ## Counter nudges and the frame of the aggregation protocol -/

/-- A climb that moves the counter `f` by `d` keeps the aggregate equation of
`f` at every node other than its starting node, and at every node when `d` is
zero. -/
theorem climb_agg {h h' : Heap} {n : Addr} {l : List Addr} {k : Nat}
    {g : NodeImpl → NodeImpl} {f : NodeImpl → Int} {d : Int}
    (wf : WellFormed h) (hl : pathToRoot k h n = some l)
    (hlk : ∀ m : Addr, h'[m]? = if m ∈ l then (h[m]?).map g else h[m]?)
    (hgf : ∀ x, f (g x) = f x + d) (hgc : ∀ x, (g x).children = x.children)
    {m : Addr} {md md' : NodeImpl} (hm : h[m]? = some md) (hm' : h'[m]? = some md')
    (hmn : m ≠ n ∨ d = 0) (inv : f md = childSum f h md.children) :
    f md' = childSum f h' md'.children := by
  have hval : ∀ x : Addr, valOf f h' x = valOf f h x + if x ∈ l then d else 0 := by
    intro x
    by_cases hx : x ∈ l
    · have hlt := pathToRoot_lt hl x hx
      have hxd := List.getElem?_eq_getElem hlt
      simp only [valOf, hlk x, if_pos hx, hxd, Option.map_some', hgf]
    · simp only [valOf, hlk x, if_neg hx, add_zero]
  by_cases hml : m ∈ l
  · have e' := hlk m
    rw [if_pos hml, hm, Option.map_some', hm'] at e'
    obtain rfl := Option.some.inj e'
    rw [hgf, hgc, inv]
    rcases hmn with hmn | hd
    · obtain ⟨q, qd, hq, hqd, hqp⟩ := pred_on_path hl m hml hmn
      obtain ⟨pn, hpn, hmem⟩ := wf.parent_listed hqd hqp
      rw [hm] at hpn; obtain rfl := Option.some.inj hpn
      symm
      apply childSum_shift (wf.addrs_nodup hm) (List.mem_map.mpr ⟨_, hmem, rfl⟩)
      intro e he
      rw [hval e.2]
      obtain ⟨cn, hcn, hpar, _⟩ := wf.child_ok hm he
      by_cases hel : e.2 ∈ l
      · have := same_parent_on_path hl hel hq hcn hqd hpar hqp
        rw [if_pos hel, if_pos this]
      · have : e.2 ≠ q := fun e' => hel (e' ▸ hq)
        rw [if_neg hel, if_neg this]
    · subst hd
      rw [add_zero]
      symm
      apply childSum_congr
      intro e _
      rw [hval e.2]
      simp
  · have e' := hlk m
    rw [if_neg hml, hm, hm'] at e'
    obtain rfl := Option.some.inj e'
    rw [inv]
    symm
    apply childSum_congr
    intro e he
    obtain ⟨cn, hcn, hpar, _⟩ := wf.child_ok hm he
    have : e.2 ∉ l := fun hel => hml (parent_mem_path hl hel hcn hpar)
    rw [hval e.2, if_neg this, add_zero]

/-- A nudge of one counter on a storage node: the climb returns, every node of
the chain has the step applied once, and the aggregate invariant survives. -/
theorem nudge_spec {h : Heap} {L : Addr} {ld : NodeImpl} (g : NodeImpl → NodeImpl)
    (dMax dAct : Int)
    (hgm : ∀ x, (g x).maxVolumeCount = x.maxVolumeCount + dMax)
    (hga : ∀ x, (g x).activeVolumeCount = x.activeVolumeCount + dAct)
    (hgc : ∀ x, (g x).children = x.children) (hgt : ∀ x, (g x).nodeType = x.nodeType)
    (wf : WellFormed h) (inv : AggInv h) (hL : h[L]? = some ld)
    (hleaf : IsDataNode ld = true) :
    ∃ h', climb g (h.length + 1) h L = some h' ∧
      (∀ a ∈ selfAndAncestors h L, ∀ ad : NodeImpl, h[a]? = some ad →
        h'[a]? = some (g ad)) ∧
      AggInv h' := by
  obtain ⟨l, _, hl⟩ := wf.path hL
  obtain ⟨h', e', hlen, hlk⟩ := climb_spec (g := g) hl
  rw [selfAndAncestors_eq hl]
  refine ⟨h', e', ?_, ?_⟩
  · intro a ha ad had
    rw [hlk a, if_pos ha, had]
    rfl
  · intro a _ ad' ha' hd
    have halt : a < h.length := by rw [← hlen]; exact lt_of_lookup ha'
    have ha := List.getElem?_eq_getElem halt
    have hty : ad'.nodeType = (h[a]).nodeType := by
      have e := hlk a
      rw [ha', ha] at e
      by_cases hal : a ∈ l
      · rw [if_pos hal] at e
        rw [Option.some.inj e]
        exact hgt _
      · rw [if_neg hal] at e
        rw [Option.some.inj e]
    have hd0 : IsDataNode h[a] = false := by rw [← IsDataNode_congr hty]; exact hd
    have haL : a ≠ L := by
      intro e
      subst e
      rw [hL] at ha
      rw [← Option.some.inj ha, hleaf] at hd0
      simp at hd0
    obtain ⟨i1, i2⟩ := inv a halt _ ha hd0
    exact ⟨climb_agg wf hl hlk (f := fun x => x.maxVolumeCount) hgm hgc ha ha'
        (Or.inl haL) i1,
      climb_agg wf hl hlk (f := fun x => x.activeVolumeCount) hga hgc ha ha'
        (Or.inl haL) i2⟩

/-- C16 (counter nudges on a leaf).  In a well-formed heap satisfying the
aggregate invariant, for a storage node `L` and any integer `d`:
`L.UpAdjustMaxVolumeCountDelta(d)` returns, has moved the `maxVolumeCount` of `L`
and of each ancestor of `L` by exactly `d` (their `activeVolumeCount` stays, so
their free space moves by `d`), and leaves the aggregate invariant in force;
`L.UpAdjustActiveVolumeCountDelta(d)` returns, has moved their
`activeVolumeCount` by exactly `d` (their `maxVolumeCount` stays, so their free
space moves by `-d`), and leaves the aggregate invariant in force. -/
theorem leaf_nudge_keeps_aggregates (h : Heap) (L : Addr) (ld : NodeImpl) (d : Int)
    (wf : WellFormed h) (inv : AggInv h) (hL : h[L]? = some ld)
    (hleaf : IsDataNode ld = true) :
    (∃ h', UpAdjustMaxVolumeCountDelta (h.length + 1) h L d = some h' ∧
      (∀ a ∈ selfAndAncestors h L, ∀ ad : NodeImpl, h[a]? = some ad →
        ∃ ad', h'[a]? = some ad' ∧
          ad'.maxVolumeCount = ad.maxVolumeCount + d ∧
          ad'.activeVolumeCount = ad.activeVolumeCount ∧
          FreeSpace ad' = FreeSpace ad + d) ∧
      AggInv h') ∧
    (∃ h', UpAdjustActiveVolumeCountDelta (h.length + 1) h L d = some h' ∧
      (∀ a ∈ selfAndAncestors h L, ∀ ad : NodeImpl, h[a]? = some ad →
        ∃ ad', h'[a]? = some ad' ∧
          ad'.activeVolumeCount = ad.activeVolumeCount + d ∧
          ad'.maxVolumeCount = ad.maxVolumeCount ∧
          FreeSpace ad' = FreeSpace ad - d) ∧
      AggInv h') := by
  constructor
  · rw [UpAdjustMaxVolumeCountDelta_eq_climb]
    obtain ⟨h', e', hon, hinv⟩ := nudge_spec (addMax d) d 0
      (fun _ => rfl) (fun _ => by simp [addMax]) (fun _ => rfl) (fun _ => rfl)
      wf inv hL hleaf
    refine ⟨h', e', ?_, hinv⟩
    intro a ha ad had
    refine ⟨_, hon a ha ad had, rfl, rfl, ?_⟩
    simp only [FreeSpace, addMax]
    ring
  · rw [UpAdjustActiveVolumeCountDelta_eq_climb]
    obtain ⟨h', e', hon, hinv⟩ := nudge_spec (addActive d) 0 d
      (fun _ => by simp [addActive]) (fun _ => rfl) (fun _ => rfl) (fun _ => rfl)
      wf inv hL hleaf
    refine ⟨h', e', ?_, hinv⟩
    intro a ha ad had
    refine ⟨_, hon a ha ad had, rfl, rfl, ?_⟩
    simp only [FreeSpace, addActive]
    ring

theorem leaf_nudge_keeps_aggregates_witness :
    WellFormed sample ∧ AggInv sample ∧
    (∃ h', UpAdjustMaxVolumeCountDelta 6 sample 2 (-3) = some h' ∧
      (∀ a ∈ selfAndAncestors sample 2, ∀ ad : NodeImpl, sample[a]? = some ad →
        ∃ ad', h'[a]? = some ad' ∧
          ad'.maxVolumeCount = ad.maxVolumeCount + -3 ∧
          ad'.activeVolumeCount = ad.activeVolumeCount ∧
          FreeSpace ad' = FreeSpace ad + -3) ∧
      AggInv h') ∧
    selfAndAncestors sample 2 = [2, 1, 0] :=
  ⟨by decide, by decide,
    (leaf_nudge_keeps_aggregates sample 2 _ (-3) (by decide) (by decide) rfl (by decide)).1,
    by decide⟩

theorem some_getD_of_isSome {o : Option Heap} (hs : o.isSome = true) :
    o = some (o.getD []) := by
  obtain ⟨x, rfl⟩ := Option.isSome_iff_exists.mp hs
  rfl

theorem Frame.same (h : Heap) (n : Addr) (child : Option Addr) : Frame h n child h := by
  intro m _ md hmd
  exact ⟨md, hmd, fun _ => ⟨rfl, rfl, rfl, rfl⟩, fun _ => rfl⟩

/-- An attach or a detach of `c` at `n` respects the frame. -/
theorem Moved.frame {h h' : Heap} {n c : Addr} {cd : NodeImpl} {l : List Addr}
    {dMax dAct : Int} {chN : List (NodeId × Addr)} {pc : Option Addr}
    (mv : Moved h n c cd l dMax dAct chN pc h') (hc : h[c]? = some cd)
    (hl : pathToRoot (h.length + 1) h n = some l) : Frame h n (some c) h' := by
  obtain ⟨_, h'c, hoff, hon⟩ := mv
  intro m _ md hmd
  rw [selfAndAncestors_eq hl]
  have hmd' : h[m]? = some md := hmd
  by_cases hml : m ∈ l
  · obtain ⟨v, hv, _⟩ := hon m hml md hmd'
    refine ⟨_, hv, fun hno => absurd hml hno, fun _ => rfl⟩
  · by_cases hmc : m = c
    · subst hmc
      rw [hc] at hmd'
      obtain rfl := Option.some.inj hmd'
      exact ⟨_, h'c, fun _ => ⟨rfl, rfl, rfl, rfl⟩, fun hne => absurd rfl hne⟩
    · refine ⟨md, ?_, fun _ => ⟨rfl, rfl, rfl, rfl⟩, fun _ => rfl⟩
      rw [Option.mem_def, hoff m hml hmc]
      exact hmd'

/-- A climb whose step keeps the back-reference respects the frame. -/
theorem climb_frame {h : Heap} {n : Addr} {l : List Addr} (g : NodeImpl → NodeImpl)
    (hgp : ∀ x, (g x).parent = x.parent)
    (hl : pathToRoot (h.length + 1) h n = some l) :
    ∃ h', climb g (h.length + 1) h n = some h' ∧ Frame h n none h' := by
  obtain ⟨h', e', _, hlk⟩ := climb_spec (g := g) hl
  refine ⟨h', e', ?_⟩
  intro m _ md hmd
  rw [selfAndAncestors_eq hl]
  have hmd' : h[m]? = some md := hmd
  by_cases hml : m ∈ l
  · refine ⟨g md, ?_, fun hno => absurd hml hno, fun _ => hgp md⟩
    rw [Option.mem_def, hlk m, if_pos hml, hmd']
    rfl
  · refine ⟨md, ?_, fun _ => ⟨rfl, rfl, rfl, rfl⟩, fun _ => rfl⟩
    rw [Option.mem_def, hlk m, if_neg hml]
    exact hmd'

/-- C20 (frame of the aggregation protocol).  In a well-formed heap, for a node
`n`: whenever `n.LinkChildNode(c)` or `n.UnlinkChildNode(id)` returns, and after
`n.UpAdjustMaxVolumeCountDelta(d)`, `n.UpAdjustActiveVolumeCountDelta(d)` and
`n.UpAdjustMaxVolumeId(vid)` (which always return), every node that is neither
`n` nor an ancestor of `n` keeps `maxVolumeCount`, `activeVolumeCount`,
`maxVolumeId` and its children mapping, and every node other than the attached
or detached child keeps its parent back-reference (the three adjustments change
no back-reference at all). -/
theorem aggregation_frame (h : Heap) (n : Addr) (nd : NodeImpl)
    (wf : WellFormed h) (hn : h[n]? = some nd) :
    (∀ c h', LinkChildNode h n c = some h' → Frame h n (some c) h') ∧
    (∀ id h', UnlinkChildNode h n id = some h' →
      ∃ c, mapGet nd.children id = some c ∧ Frame h n (some c) h') ∧
    (∀ d, ∃ h', UpAdjustMaxVolumeCountDelta (h.length + 1) h n d = some h' ∧
      Frame h n none h') ∧
    (∀ d, ∃ h', UpAdjustActiveVolumeCountDelta (h.length + 1) h n d = some h' ∧
      Frame h n none h') ∧
    (∀ vid, ∃ h', UpAdjustMaxVolumeId (h.length + 1) h n vid = some h' ∧
      Frame h n none h') := by
  obtain ⟨l, _, hl⟩ := wf.path hn
  refine ⟨?_, ?_, ?_, ?_, ?_⟩
  · intro c h' e
    cases hc : h[c]? with
    | none => simp [LinkChildNode, hn, hc] at e
    | some cd =>
      cases habs : mapGet nd.children cd.id with
      | some x =>
        simp only [LinkChildNode, hn, hc, habs] at e
        simp only [reduceCtorEq, if_false] at e
        obtain rfl := Option.some.inj e
        exact Frame.same h n _
      | none =>
        by_cases hcl : c ∈ l
        · rw [LinkChildNode_on_chain hn hc habs hl hcl] at e
          cases e
        · obtain ⟨h5, e5, mv⟩ := LinkChildNode_moved hn hc hl hcl habs
          rw [e5] at e
          obtain rfl := Option.some.inj e
          exact mv.frame hc hl
  · intro id h' e
    cases hget : mapGet nd.children id with
    | none => simp [UnlinkChildNode, hn, hget] at e
    | some c =>
      obtain ⟨cd, l', hc, _, _, _, hl', hcl⟩ := wf.child_of_get hn hget
      obtain ⟨h3, e3, mv⟩ := UnlinkChildNode_moved hn hget hc hl' hcl
      rw [e3] at e
      obtain rfl := Option.some.inj e
      exact ⟨c, rfl, mv.frame hc hl'⟩
  · intro d
    rw [UpAdjustMaxVolumeCountDelta_eq_climb]
    exact climb_frame (addMax d) (fun _ => rfl) hl
  · intro d
    rw [UpAdjustActiveVolumeCountDelta_eq_climb]
    exact climb_frame (addActive d) (fun _ => rfl) hl
  · intro vid
    obtain ⟨h', e', _, hoff, hall, _⟩ := UpAdjustMaxVolumeId_spec vid hl
    refine ⟨h', e', ?_⟩
    intro m _ md hmd
    rw [selfAndAncestors_eq hl]
    have hmd' : h[m]? = some md := hmd
    obtain ⟨v, hv, _⟩ := hall m md hmd'
    refine ⟨_, hv, ?_, fun _ => rfl⟩
    intro hml
    have := hoff m hml
    rw [hv, hmd'] at this
    rw [Option.some.inj this]
    exact ⟨rfl, rfl, rfl, rfl⟩

theorem aggregation_frame_witness :
    WellFormed sample ∧
    (LinkChildNode sample 1 4).isSome = true ∧
    Frame sample 1 (some 4) ((LinkChildNode sample 1 4).getD []) ∧
    (∃ h', UpAdjustMaxVolumeCountDelta 6 sample 1 (-2) = some h' ∧ Frame sample 1 none h') ∧
    (∃ h', UpAdjustMaxVolumeId 6 sample 1 40 = some h' ∧ Frame sample 1 none h') :=
  ⟨by decide, by decide,
    (aggregation_frame sample 1 _ (by decide) rfl).1 4 _ (some_getD_of_isSome (by decide)),
    (aggregation_frame sample 1 _ (by decide) rfl).2.2.1 (-2),
    (aggregation_frame sample 1 _ (by decide) rfl).2.2.2.2 40⟩

/-! ## The rendering of a node -/

theorem renderChain_snoc {xs : List NodeId} (hx : xs ≠ []) (i : NodeId) :
    renderChain (xs ++ [i]) = renderChain xs ++ ":" ++ i := by
  cases xs with
  | nil => exact absurd rfl hx
  | cons x rest => simp [renderChain, List.foldl_append]

theorem pathToRoot_ne_nil {f : Nat} {h : Heap} {a : Addr} {l : List Addr}
    (e : pathToRoot f h a = some l) : l ≠ [] := by
  obtain ⟨_, _, _, _, hc⟩ := pathToRoot_cases e
  rcases hc with ⟨_, rfl⟩ | ⟨_, _, _, _, rfl⟩ <;> simp

theorem String_render {f : Nat} : ∀ {h : Heap} {a : Addr} {l : List Addr},
    pathToRoot f h a = some l →
    NodeImpl.String f h a = some (renderChain (idsOf h l.reverse)) := by
  induction f with
  | zero => intro h a l e; simp [pathToRoot] at e
  | succ k ih =>
    intro h a l e
    obtain ⟨k', nd, hk, hn, hc⟩ := pathToRoot_cases e
    have hkk : k' = k := by omega
    subst hkk
    rcases hc with ⟨hnone, rfl⟩ | ⟨p, t, hp, ht, rfl⟩
    · simp [NodeImpl.String, hn, hnone, idsOf, renderChain]
    · have hne : idsOf h t.reverse ≠ [] := by
        have := pathToRoot_ne_nil ht
        simpa [idsOf] using this
      have e1 : idsOf h (a :: t).reverse = idsOf h t.reverse ++ [nd.id] := by
        simp [idsOf, hn]
      rw [e1, renderChain_snoc hne]
      simp only [NodeImpl.String, hn, hp, ih ht]

/-- C18 (String identity).  For every node `a` whose parent chain is a finite
chain inside the heap, listed from `a` up to the root as `l`: `String()` returns
the identifiers of the chain from the root down to `a`, joined by `":"`; when
`a` has no parent the result is exactly the identifier of `a`; and when `a` has
the parent `p`, `p.String()` returns some `s` and `a.String()` returns
`s + ":" +` the identifier of `a`. -/
theorem string_identity (h : Heap) (a : Addr) (nd : NodeImpl) (l : List Addr) (k : Nat)
    (ha : h[a]? = some nd) (hl : pathToRoot k h a = some l) :
    NodeImpl.String (h.length + 1) h a = some (renderChain (idsOf h l.reverse)) ∧
    (nd.parent = none → NodeImpl.String (h.length + 1) h a = some nd.id) ∧
    (∀ p, nd.parent = some p → ∃ s, NodeImpl.String (h.length + 1) h p = some s ∧
      NodeImpl.String (h.length + 1) h a = some (s ++ ":" ++ nd.id)) := by
  have hl1 := pathToRoot_mono (pathToRoot_fuel hl) (Nat.le_succ _)
  refine ⟨String_render hl1, ?_, ?_⟩
  · intro hnone
    simp [NodeImpl.String, ha, hnone]
  · intro p hp
    obtain ⟨g, nd', hg, hn', hc⟩ := pathToRoot_cases (pathToRoot_fuel hl)
    rw [ha] at hn'
    obtain rfl := Option.some.inj hn'
    rcases hc with ⟨hnone, _⟩ | ⟨q, t, hq, ht, _⟩
    · rw [hp] at hnone; simp at hnone
    · rw [hp] at hq
      obtain rfl := Option.some.inj hq
      have ht1 : pathToRoot h.length h p = some t := pathToRoot_fuel ht
      have hs := String_render ht1
      refine ⟨_, String_render (pathToRoot_mono ht1 (Nat.le_succ _)), ?_⟩
      simp only [NodeImpl.String, ha, hp, hs]

theorem string_identity_witness :
    sample[2]? = some (withParent (some 1) (mkNode "d1" 1 4 7 "DataNode")) ∧
    pathToRoot 5 sample 2 = some [2, 1, 0] ∧
    idsOf sample [0, 1, 2] = ["topo", "r1", "d1"] ∧
    renderChain ["topo", "r1", "d1"] = "topo:r1:d1" ∧
    NodeImpl.String 6 sample 2 = some (renderChain (idsOf sample [0, 1, 2])) ∧
    (∃ s, NodeImpl.String 6 sample 1 = some s ∧
      NodeImpl.String 6 sample 2 = some (s ++ ":" ++ "d1")) :=
  ⟨rfl, by decide, by decide, by decide,
    (string_identity sample 2 _ [2, 1, 0] 5 rfl (by decide)).1,
    (string_identity sample 2 (withParent (some 1) (mkNode "d1" 1 4 7 "DataNode"))
      [2, 1, 0] 5 rfl (by decide)).2.2 1 rfl⟩

/-! ## The single-parent invariant -/

theorem lookup_untype (h : Heap) (a : Addr) :
    (h.map untype)[a]? = (h[a]?).map untype := List.getElem?_map untype h a

theorem lookup_untype_some {h : Heap} {a : Addr} {nd : NodeImpl} (e : h[a]? = some nd) :
    (h.map untype)[a]? = some (untype nd) := by
  rw [lookup_untype, e]
  rfl

theorem lookup_untype_back {h : Heap} {a : Addr} {nd' : NodeImpl}
    (e : (h.map untype)[a]? = some nd') : ∃ nd, h[a]? = some nd ∧ nd' = untype nd := by
  rw [lookup_untype] at e
  cases hnd : h[a]? with
  | none => rw [hnd] at e; cases e
  | some nd =>
    rw [hnd] at e
    exact ⟨nd, rfl, (Option.some.inj e).symm⟩

theorem pathToRoot_untype (h : Heap) (f : Nat) (a : Addr) :
    pathToRoot f (h.map untype) a = pathToRoot f h a := by
  apply pathToRoot_congr
  intro b
  rw [lookup_untype]
  cases h[b]? <;> rfl

theorem Reshaped.untyped {h h' : Heap} {n c : Addr} {chN : List (NodeId × Addr)}
    {pc : Option Addr} (rs : Reshaped h n c chN pc h') :
    Reshaped (h.map untype) n c chN pc (h'.map untype) := by
  refine ⟨by simp [rs.1], ?_⟩
  intro a ad' ha'
  obtain ⟨ad, ha, rfl⟩ := lookup_untype_back ha'
  obtain ⟨ad1, ha1, hid, _, hpar, hch⟩ := rs.2 a ad ha
  exact ⟨untype ad1, lookup_untype_some ha1, hid, rfl, hpar, hch⟩

theorem unattached_wf {h : Heap} (hu : Unattached h) : WellFormed (h.map untype) := by
  apply WellFormed.intro
  · intro a nd' p ha' hp
    obtain ⟨nd, ha, rfl⟩ := lookup_untype_back ha'
    have := (hu a (lt_of_lookup ha) nd ha).1
    rw [show (untype nd).parent = nd.parent from rfl, this] at hp
    cases hp
  · intro p pn' e hp' he
    obtain ⟨pn, hp, rfl⟩ := lookup_untype_back hp'
    have := (hu p (lt_of_lookup hp) pn hp).2
    rw [show (untype pn).children = pn.children from rfl, this] at he
    cases he
  · intro p pn' hp'
    obtain ⟨pn, hp, rfl⟩ := lookup_untype_back hp'
    have := (hu p (lt_of_lookup hp) pn hp).2
    rw [show (untype pn).children = pn.children from rfl, this]
    exact List.nodup_nil
  · intro a nd' ha'
    obtain ⟨nd, ha, rfl⟩ := lookup_untype_back ha'
    exact ⟨1, [a], pathToRoot_root ha' (hu a (lt_of_lookup ha) nd ha).1⟩
  · intro a nd' ha' hd
    obtain ⟨nd, ha, rfl⟩ := lookup_untype_back ha'
    simp [IsDataNode, untype] at hd

theorem singleParent_of_wf {h : Heap} (wf : WellFormed (h.map untype)) : SingleParent h := by
  have key : ∀ (c : Addr) (cd : NodeImpl) (p : Addr), h[c]? = some cd → ListedIn h c p →
      cd.parent = some p := by
    intro c cd p hc hlist
    obtain ⟨pn, hp, hmem⟩ := hlist
    obtain ⟨e, he, rfl⟩ := List.mem_map.mp hmem
    obtain ⟨cn, hcn, hpar, _⟩ := wf.child_ok (lookup_untype_some hp) (e := e) he
    rw [lookup_untype_some hc] at hcn
    rw [← Option.some.inj hcn] at hpar
    exact hpar
  intro c _ cd hc
  refine ⟨?_, ?_, ?_⟩
  · intro p _ q _ hp hq
    have h1 := key c cd p hc hp
    have h2 := key c cd q hc hq
    rw [h1] at h2
    exact Option.some.inj h2
  · intro p _ hp
    exact key c cd p hc hp
  · intro hno
    cases hpar : cd.parent with
    | none => rfl
    | some p =>
      exfalso
      obtain ⟨pn', hp', hmem⟩ := wf.parent_listed (lookup_untype_some hc) (p := p) hpar
      obtain ⟨pn, hp, rfl⟩ := lookup_untype_back hp'
      exact hno p (lt_of_lookup hp) ⟨pn, hp, List.mem_map.mpr ⟨_, hmem, rfl⟩⟩

/-- An attach of a node that has no parent and is not on the parent chain of
the target returns and keeps the pointer structure a forest. -/
theorem orderly_link {h : Heap} {n c : Addr} {nd cd : NodeImpl}
    (wf : WellFormed (h.map untype)) (hn : h[n]? = some nd) (hc : h[c]? = some cd)
    (hroot : cd.parent = none) (hcl : c ∉ selfAndAncestors h n) :
    ∃ h', LinkChildNode h n c = some h' ∧ WellFormed (h'.map untype) := by
  cases habs : mapGet nd.children cd.id with
  | some x =>
    refine ⟨h, ?_, wf⟩
    simp [LinkChildNode, hn, hc, habs]
  | none =>
    obtain ⟨l, _, hl'⟩ := wf.path (lookup_untype_some hn)
    have hl : pathToRoot (h.length + 1) h n = some l := by
      rw [← pathToRoot_untype, ← hl']
      simp
    rw [selfAndAncestors_eq hl] at hcl
    obtain ⟨h5, e5, mv⟩ := LinkChildNode_moved hn hc hl hcl habs
    refine ⟨h5, e5, ?_⟩
    have rs := mv.reshaped hc hcl (pathToRoot_self_mem hl)
    rw [mapSet_absent c habs] at rs
    have hl2 : pathToRoot (h.length + 1) (h.map untype) n = some l := by
      rw [pathToRoot_untype]; exact hl
    have rs2 : Reshaped (h.map untype) n c
        ((untype nd).children ++ [((untype cd).id, c)]) (some n) (h5.map untype) :=
      rs.untyped
    exact link_wf wf rs2 (lookup_untype_some hn)
      (lookup_untype_some hc) hroot hl2 hcl habs (by simp [IsDataNode, untype])

/-- A detach of a present identifier returns and keeps the pointer structure a
forest. -/
theorem orderly_unlink {h : Heap} {n : Addr} {nd : NodeImpl} {nodeId : NodeId}
    (wf : WellFormed (h.map untype)) (hn : h[n]? = some nd)
    (hpres : (mapGet nd.children nodeId).isSome = true) :
    ∃ h', UnlinkChildNode h n nodeId = some h' ∧ WellFormed (h'.map untype) := by
  obtain ⟨c, hget⟩ := Option.isSome_iff_exists.mp hpres
  obtain ⟨cd', l, hc', hpar, _, hmem, hl', hcl⟩ :=
    wf.child_of_get (lookup_untype_some hn) hget
  obtain ⟨cd, hc, rfl⟩ := lookup_untype_back hc'
  have hl : pathToRoot (h.length + 1) h n = some l := by
    rw [← pathToRoot_untype, ← hl']
    simp
  obtain ⟨h3, e3, mv⟩ := UnlinkChildNode_moved hn hget hc hl hcl
  refine ⟨h3, e3, ?_⟩
  have rs := mv.reshaped hc hcl (pathToRoot_self_mem hl)
  have rs2 : Reshaped (h.map untype) n c (mapDelete (untype nd).children (untype cd).id) none
      (h3.map untype) := rs.untyped
  exact unlink_wf wf rs2 (lookup_untype_some hn)
    (lookup_untype_some hc) hpar hmem

theorem orderly_run : ∀ (ops : List Op) (h : Heap), WellFormed (h.map untype) →
    OrderlySeq h ops → ∃ h', runOps h ops = some h' ∧ WellFormed (h'.map untype) := by
  intro ops
  induction ops with
  | nil =>
    intro h wf _
    exact ⟨h, rfl, wf⟩
  | cons op rest ih =>
    intro h wf hseq
    obtain ⟨hop, hrest⟩ := hseq
    have hstep : ∃ h1, op.run h = some h1 ∧ WellFormed (h1.map untype) := by
      cases op with
      | link n node =>
        obtain ⟨nd, hn, cd, hc, hroot, hcl⟩ := hop
        exact orderly_link wf hn hc hroot hcl
      | unlink n nodeId =>
        obtain ⟨nd, hn, hpres⟩ := hop
        exact orderly_unlink wf hn hpres
    obtain ⟨h1, h1e, wf1⟩ := hstep
    obtain ⟨h', e', wf'⟩ := ih h1 wf1 (hrest h1 h1e)
    refine ⟨h', ?_, wf'⟩
    simp only [runOps, h1e]
    exact e'

/-- C17, counterexample.  From four unattached nodes, attaching the storage
node at address 2 under the node at address 0 and then under the node at
address 1 returns both times, and afterwards address 2 occurs in the children
mappings of both nodes: the single-parent invariant fails.  And after the node
at address 1 was attached under the node at address 0, attaching the node at
address 0, which has no parent, under the node at address 1 never returns:
there is no state after that sequence. -/
theorem second_attach_leaves_two_listings :
    Unattached loose ∧
    (∃ h' ∈ runOps loose [Op.link 0 2, Op.link 1 2],
      ListedIn h' 2 0 ∧ ListedIn h' 2 1 ∧ ¬ SingleParent h') ∧
    (∃ h1 ∈ runOps loose [Op.link 0 1],
      (∃ cd ∈ h1[0]?, cd.parent = none) ∧ LinkChildNode h1 1 0 = none) ∧
    runOps loose [Op.link 0 1, Op.link 1 0] = none := by
  decide

/-- C17 (single-parent invariant).  Starting from nodes that are all
unattached, every sequence of `LinkChildNode` calls that each attach a node
which at the time of the call has no parent and is neither the target nor one
of its ancestors, and of `UnlinkChildNode` calls on present identifiers, runs
to its end, and afterwards every node occurs in the children mapping of at most
one node, that node is exactly its parent back-reference, and a node absent
from every children mapping has no parent. -/
theorem single_parent_invariant (h : Heap) (ops : List Op)
    (hu : Unattached h) (hseq : OrderlySeq h ops) :
    ∃ h', runOps h ops = some h' ∧ SingleParent h' := by
  obtain ⟨h', e', wf'⟩ := orderly_run ops h (unattached_wf hu) hseq
  exact ⟨h', e', singleParent_of_wf wf'⟩

theorem single_parent_invariant_witness :
    Unattached loose ∧
    OrderlySeq loose [Op.link 0 1, Op.link 1 2, Op.unlink 1 "d1", Op.link 0 2, Op.link 1 3] ∧
    ∃ h', runOps loose
        [Op.link 0 1, Op.link 1 2, Op.unlink 1 "d1", Op.link 0 2, Op.link 1 3] = some h' ∧
      SingleParent h' :=
  ⟨by decide, by decide, single_parent_invariant loose _ (by decide) (by decide)⟩

end Topology
